import Mathlib

/-!
Verification of the spinta excerpt's two core components against
src/spinta/components.py:

* the scoped, lazily-evaluated context / dependency-injection core
  (class Context: set / bind / attach / get / enter / exit / fork), and
* the keyset-pagination cursor (class Page with PageBy entries, the
  cursor token codec and the page-size resolution helper).

Python dicts are modelled as insertion-ordered association lists
(key/value pairs, no duplicate keys), matching CPython's dict semantics:
updating an existing key keeps its position, a new key is appended.

The cursor token codec: decode_page_values (src) is
base64.urlsafe_b64decode followed by json.loads; encode_page_values lives
in src/spinta/utils/encoding.py which is not part of the excerpt, so it
is modelled from the spec ("JSON-encoded then base64url-encoded").
Both stdlib pieces (json, base64) are embedded for the fragment the page
cursor exchanges: JSON arrays of scalars (null / bool / int / str).
-/

set_option autoImplicit false

namespace Spinta

universe u v

/-! ## Insertion-ordered dictionaries (CPython dict semantics) -/

variable {α : Type u} {β : Type v}

/-- Membership test on the keys of an insertion-ordered dict,
modelling the Python expression `k in d`. -/
def dictContains [DecidableEq α] (d : List (α × β)) (k : α) : Bool :=
  d.any (fun kv => kv.1 = k)

/-- Lookup, modelling `d[k]` / `d.get(k)`. -/
def dictLookup [DecidableEq α] (d : List (α × β)) (k : α) : Option β :=
  match d with
  | [] => none
  | kv :: rest => if kv.1 = k then some kv.2 else dictLookup rest k

/-- `d[k] = v` on a CPython dict: an existing key keeps its position and
gets the new value, a new key is appended at the end. -/
def dictInsert [DecidableEq α] (d : List (α × β)) (k : α) (v : β) : List (α × β) :=
  if dictContains d k then d.map (fun kv => if kv.1 = k then (k, v) else kv)
  else d ++ [(k, v)]

/-- Building a dict from a pair sequence (a dict comprehension): pairs are
inserted in order, so a duplicated key keeps its first position but its
last value. -/
def dictFromPairs [DecidableEq α] (ps : List (α × β)) : List (α × β) :=
  ps.foldl (fun d kv => dictInsert d kv.1 kv.2) []

/-- The key list of a dict, modelling `list(d.keys())`. -/
def dictKeys (d : List (α × β)) : List α :=
  d.map (fun kv => kv.1)

/-! ## JSON scalar values (the fragment exchanged in page cursor tokens)

`Jv` models the Python values that appear as page key values once they
went through `json.dumps` / `json.loads`: `None`, booleans, ints and
strings.  A string is a list of Unicode code points; `validJv` restricts
to well-formed (surrogate-free) text, which is what "JSON-serializable"
means for strings.  Floats are outside the embedding. -/

inductive Jv : Type where
  | null : Jv
  | bool (b : Bool) : Jv
  | int (i : Int) : Jv
  | str (s : List Nat) : Jv
  deriving DecidableEq

/-- A valid Unicode scalar value: below 0x110000 and not a surrogate. -/
def validCp (c : Nat) : Prop := c < 1114112 ∧ ¬ (55296 ≤ c ∧ c < 57344)

instance (c : Nat) : Decidable (validCp c) := by unfold validCp; infer_instance

/-- A JSON-serializable scalar: strings must hold valid scalar values. -/
def validJv : Jv → Prop
  | .str s => ∀ c ∈ s, validCp c
  | _ => True

instance (v : Jv) : Decidable (validJv v) := by
  cases v <;> · unfold validJv; infer_instance

/-! ### json.dumps (modelled from the stdlib's documented behaviour,
default options: ensure_ascii=True, separator ", ") -/

/-- Lower-case hex digit, as ASCII code. -/
def hexDig (d : Nat) : Nat := if d < 10 then 48 + d else 87 + d

/-- Four lower-case hex digits of a code unit below 0x10000. -/
def hex4 (n : Nat) : List Nat :=
  [hexDig (n / 4096), hexDig (n / 256 % 16), hexDig (n / 16 % 16), hexDig (n % 16)]

/-- A `\uXXXX` escape for a code unit below 0x10000 (ASCII codes). -/
def escU (n : Nat) : List Nat := 92 :: 117 :: hex4 n

/-- Serialization of one string character by json.dumps (ensure_ascii):
quote and backslash escaped, the five short escapes, printable ASCII
literal, everything else as `\uXXXX` (astral chars as surrogate pairs). -/
def serChar (c : Nat) : List Nat :=
  if c = 34 then [92, 34]
  else if c = 92 then [92, 92]
  else if c = 8 then [92, 98]
  else if c = 9 then [92, 116]
  else if c = 10 then [92, 110]
  else if c = 12 then [92, 102]
  else if c = 13 then [92, 114]
  else if 32 ≤ c ∧ c ≤ 126 then [c]
  else if c < 65536 then escU c
  else escU (55296 + (c - 65536) / 1024) ++ escU (56320 + (c - 65536) % 1024)

/-- Decimal digits of a natural number, fuel-driven so that it reduces by
evaluation; `natDigsF n n` is always fully accurate (fuel `n` suffices). -/
def natDigsF : Nat → Nat → List Nat
  | 0, n => [48 + n % 10]
  | fuel + 1, n => if n < 10 then [48 + n] else natDigsF fuel (n / 10) ++ [48 + n % 10]

/-- ASCII decimal digits of a natural number. -/
def natDigs (n : Nat) : List Nat := natDigsF n n

/-- json.dumps of an int. -/
def serInt (i : Int) : List Nat :=
  if i < 0 then 45 :: natDigs i.natAbs else natDigs i.toNat

/-- json.dumps of one scalar. -/
def serJv : Jv → List Nat
  | .null => [110, 117, 108, 108]
  | .bool true => [116, 114, 117, 101]
  | .bool false => [102, 97, 108, 115, 101]
  | .int i => serInt i
  | .str s => 34 :: (s.map serChar).flatten ++ [34]

/-- The element list of a serialized array, `", "`-separated. -/
def serElems : List Jv → List Nat
  | [] => []
  | [v] => serJv v
  | v :: rest => serJv v ++ [44, 32] ++ serElems rest

/-- json.dumps of a list of scalars: `[` elements `]`. -/
def serList (vs : List Jv) : List Nat := 91 :: serElems vs ++ [93]

/-! ### json.loads (modelled fragment: arrays of scalars, as exchanged in
page cursor tokens) -/

/-- ASCII decimal digit test. -/
def isDigit (c : Nat) : Bool := 48 ≤ c ∧ c ≤ 57

/-- Value of one hex digit (both cases accepted, as json.loads does). -/
def hexVal (c : Nat) : Option Nat :=
  if 48 ≤ c ∧ c ≤ 57 then some (c - 48)
  else if 97 ≤ c ∧ c ≤ 102 then some (c - 87)
  else if 65 ≤ c ∧ c ≤ 70 then some (c - 55)
  else none

/-- Four hex digits, most significant first. -/
def parseHex4 : List Nat → Option (Nat × List Nat)
  | a :: b :: c :: d :: r =>
    match hexVal a, hexVal b, hexVal c, hexVal d with
    | some x, some y, some z, some w => some (((x * 16 + y) * 16 + z) * 16 + w, r)
    | _, _, _, _ => none
  | _ => none

/-- A `\uXXXX` escape body (input starts after `\u`).  A high surrogate
followed by a `\uXXXX` low surrogate combines into one astral character;
a high surrogate followed by `\u` and a non-low value is kept as is with
the following escape unconsumed; this mirrors the stdlib's scanner. -/
def parseU (l : List Nat) : Option (Nat × List Nat) :=
  match parseHex4 l with
  | none => none
  | some (n, r) =>
    if 55296 ≤ n ∧ n < 56320 then
      match r with
      | a :: b :: r2 =>
        if a = 92 ∧ b = 117 then
          match parseHex4 r2 with
          | none => none
          | some (m, r3) =>
            if 56320 ≤ m ∧ m < 57344 then
              some (65536 + (n - 55296) * 1024 + (m - 56320), r3)
            else some (n, r)
        else some (n, r)
      | _ => some (n, r)
    else some (n, r)

/-- One string escape (input starts after the backslash). -/
def parseEsc : List Nat → Option (Nat × List Nat)
  | [] => none
  | e :: r =>
    if e = 34 then some (34, r)
    else if e = 92 then some (92, r)
    else if e = 47 then some (47, r)
    else if e = 98 then some (8, r)
    else if e = 102 then some (12, r)
    else if e = 110 then some (10, r)
    else if e = 114 then some (13, r)
    else if e = 116 then some (9, r)
    else if e = 117 then parseU r
    else none

/-- One string item: `none` result marks the closing quote; a literal
control character is rejected (json.loads default strict mode). -/
def parseOneChar : List Nat → Option (Option Nat × List Nat)
  | [] => none
  | c :: r =>
    if c = 34 then some (none, r)
    else if c = 92 then (parseEsc r).map (fun cr => (some cr.1, cr.2))
    else if c < 32 then none
    else some (some c, r)

/-- String body after the opening quote, fuel-driven (each step consumes
at least one input element, so fuel `l.length + 1` always suffices). -/
def parseStrF : Nat → List Nat → Option (List Nat × List Nat)
  | 0, _ => none
  | fuel + 1, l =>
    match parseOneChar l with
    | none => none
    | some (none, r) => some ([], r)
    | some (some c, r) =>
      match parseStrF fuel r with
      | some (cs, r2) => some (c :: cs, r2)
      | none => none

/-- Greedy decimal digit run. -/
def parseDigitsAux (acc : Nat) : List Nat → Nat × List Nat
  | [] => (acc, [])
  | c :: r => if isDigit c then parseDigitsAux (acc * 10 + (c - 48)) r else (acc, c :: r)

/-- After the digit run: a following `.`, `e` or `E` would make a
float, refused by the modelled fragment. -/
def numTailOk : List Nat → Bool
  | [] => true
  | d :: _ => !(d = 46 ∨ d = 101 ∨ d = 69)

/-- The input does not continue with another digit (the digit run ends
here). -/
def noDigitHead : List Nat → Bool
  | [] => true
  | d :: _ => !(isDigit d)

/-- Integer literal (optional minus then digits). -/
def parseNum (l : List Nat) : Option (Int × List Nat) :=
  match l with
  | [] => none
  | c :: r =>
    if c = 45 then
      match r with
      | [] => none
      | c2 :: _ =>
        if isDigit c2 then
          match parseDigitsAux 0 r with
          | (n, rest) => if numTailOk rest then some (-(n : Int), rest) else none
        else none
    else if isDigit c then
      match parseDigitsAux 0 (c :: r) with
      | (n, rest) => if numTailOk rest then some ((n : Int), rest) else none
    else none

/-- Drop an expected literal, or fail. -/
def dropLit : List Nat → List Nat → Option (List Nat)
  | [], l => some l
  | x :: xs, y :: ys => if x = y then dropLit xs ys else none
  | _ :: _, [] => none

/-- One scalar value. -/
def parseScalar (l : List Nat) : Option (Jv × List Nat) :=
  match l with
  | [] => none
  | c :: r =>
    if c = 34 then (parseStrF (r.length + 1) r).map (fun sr => (.str sr.1, sr.2))
    else
      match dropLit [110, 117, 108, 108] (c :: r) with
      | some r2 => some (.null, r2)
      | none =>
        match dropLit [116, 114, 117, 101] (c :: r) with
        | some r2 => some (.bool true, r2)
        | none =>
          match dropLit [102, 97, 108, 115, 101] (c :: r) with
          | some r2 => some (.bool false, r2)
          | none => (parseNum (c :: r)).map (fun ir => (.int ir.1, ir.2))

/-- Skip JSON whitespace. -/
def skipWs : List Nat → List Nat
  | [] => []
  | c :: r => if c = 32 ∨ c = 9 ∨ c = 10 ∨ c = 13 then skipWs r else c :: r

/-- Comma-separated scalars up to the closing bracket, fuel-driven
(one element per fuel unit). -/
def parseElemsAux : Nat → List Nat → Option (List Jv × List Nat)
  | 0, _ => none
  | fuel + 1, l =>
    match parseScalar l with
    | none => none
    | some (v, r) =>
      match skipWs r with
      | [] => none
      | d :: r2 =>
        if d = 93 then some ([v], r2)
        else if d = 44 then
          match parseElemsAux fuel (skipWs r2) with
          | some (vs, r3) => some (v :: vs, r3)
          | none => none
        else none

/-- A JSON array of scalars. -/
def parseArr (l : List Nat) : Option (List Jv × List Nat) :=
  match l with
  | [] => none
  | c :: r =>
    if c = 91 then
      match skipWs r with
      | [] => none
      | d :: r2 =>
        if d = 93 then some ([], r2)
        else parseElemsAux ((d :: r2).length + 1) (d :: r2)
    else none

/-- Modelled fragment of `json.loads`: one array of scalars, surrounding
whitespace allowed, trailing garbage refused. -/
def json_loads_scalars (l : List Nat) : Option (List Jv) :=
  match parseArr (skipWs l) with
  | some (vs, rest) => if skipWs rest = [] then some vs else none
  | none => none

/-! ### base64url (modelled from the stdlib:
`base64.urlsafe_b64encode` / `base64.urlsafe_b64decode` on the strict
alphabet, with `=` padding) -/

/-- Alphabet character for one 6-bit group. -/
def b64Chr (n : Nat) : Nat :=
  if n < 26 then 65 + n
  else if n < 52 then 97 + (n - 26)
  else if n < 62 then 48 + (n - 52)
  else if n = 62 then 45
  else 95

/-- Value of one alphabet character. -/
def b64Val (c : Nat) : Option Nat :=
  if 65 ≤ c ∧ c ≤ 90 then some (c - 65)
  else if 97 ≤ c ∧ c ≤ 122 then some (c - 97 + 26)
  else if 48 ≤ c ∧ c ≤ 57 then some (c - 48 + 52)
  else if c = 45 then some 62
  else if c = 95 then some 63
  else none

/-- base64url encoding of a byte list (with padding). -/
def b64enc : List Nat → List Nat
  | [] => []
  | [a] => [b64Chr (a / 4), b64Chr (a % 4 * 16), 61, 61]
  | [a, b] => [b64Chr (a / 4), b64Chr (a % 4 * 16 + b / 16), b64Chr (b % 16 * 4), 61]
  | a :: b :: c :: rest =>
    [b64Chr (a / 4), b64Chr (a % 4 * 16 + b / 16), b64Chr (b % 16 * 4 + c / 64), b64Chr (c % 64)]
      ++ b64enc rest

/-- Decode the final 4-character group, honouring `=` padding. -/
def b64decChunk (c1 c2 c3 c4 : Nat) : Option (List Nat) :=
  if c3 = 61 ∧ c4 = 61 then
    match b64Val c1, b64Val c2 with
    | some x, some y => if y % 16 = 0 then some [x * 4 + y / 16] else none
    | _, _ => none
  else if c4 = 61 then
    match b64Val c1, b64Val c2, b64Val c3 with
    | some x, some y, some z =>
      if z % 4 = 0 then some [x * 4 + y / 16, y % 16 * 16 + z / 4] else none
    | _, _, _ => none
  else
    match b64Val c1, b64Val c2, b64Val c3, b64Val c4 with
    | some x, some y, some z, some w =>
      some [x * 4 + y / 16, y % 16 * 16 + z / 4, z % 4 * 64 + w]
    | _, _, _, _ => none

/-- base64url decoding (strict alphabet, correct padding required;
`=` is only meaningful in the final group, elsewhere it fails the
alphabet test). -/
def b64dec : List Nat → Option (List Nat)
  | [] => some []
  | c1 :: c2 :: c3 :: c4 :: rest =>
    match rest with
    | [] => b64decChunk c1 c2 c3 c4
    | _ :: _ =>
      match b64Val c1, b64Val c2, b64Val c3, b64Val c4 with
      | some x, some y, some z, some w =>
        match b64dec rest with
        | some bs => some ([x * 4 + y / 16, y % 16 * 16 + z / 4, z % 4 * 64 + w] ++ bs)
        | none => none
      | _, _, _, _ => none
  | _ => none

/-! ### The page cursor token codec -/

/-- `decode_page_values` (src/spinta/components.py): urlsafe base64
decode, then json.loads.  The serializer output is pure ASCII
(ensure_ascii), so bytes and code points coincide. -/
def decode_page_values (encoded : List Nat) : Option (List Jv) :=
  match b64dec encoded with
  | some bytes => json_loads_scalars bytes
  | none => none

/-- Modelled from the spec: `encode_page_values`
(src/spinta/utils/encoding.py is not in the excerpt) — "an ordered list
of the bindings' current values is JSON-encoded then base64url-encoded". -/
def encode_page_values (vs : List Jv) : List Nat :=
  b64enc (serList vs)

/-! ## The page cursor (class Page)

`Page.by` is a CPython dict mapping a sort-key name (a string, possibly
`-`-prefixed for descending order) to a `PageBy` pair.  `Property`
objects are opaque references here, modelled as `Nat` identifiers.
Python `None` in a value position is `Jv.null` (that is exactly how it
travels through the token codec). -/

/-- `PageBy`: one binding, a property reference and the current value. -/
structure PageBy where
  prop : Nat
  value : Jv
  deriving DecidableEq

/-- The `by` key starts with the `-` direction marker
(Python `by.startswith('-')`). -/
def startsDash (k : String) : Bool :=
  match k.data with
  | c :: _ => c = '-'
  | [] => false

/-- `by[1:]` — the key without its first character. -/
def strTail (k : String) : String := ⟨k.data.drop 1⟩

/-- `Page.update_value(by, prop, value)` acting on the `by` dict:
strip a leading `-`; if the stripped name differs and is a present key,
rebuild the dict with that key renamed to the full key (a dict
comprehension, so a duplicated target key keeps its first position and
last value); then create the binding if the full key is absent
(`PageBy(prop)`, value `None`); finally assign the value. -/
def update_value (d : List (String × PageBy)) (key : String) (prop : Nat) (value : Jv) :
    List (String × PageBy) :=
  let cleaned := if startsDash key then strTail key else key
  let d1 :=
    if cleaned ≠ key ∧ dictContains d cleaned = true then
      dictFromPairs (d.map (fun kv => (if kv.1 = cleaned then key else kv.1, kv.2)))
    else d
  let d2 := if dictContains d1 key then d1 else d1 ++ [(key, ⟨prop, Jv.null⟩)]
  d2.map (fun kv => if kv.1 = key then (kv.1, ⟨kv.2.prop, value⟩) else kv)

/-- The page cursor: the ordered `by` dict and the per-request size
(`None` when not given).  The other Page fields (enabled, model,
filter_only, first_time) do not take part in the claimed operations. -/
structure Page where
  by_ : List (String × PageBy)
  size : Option Int
  deriving DecidableEq

/-- `Page.add_prop`. -/
def Page.add_prop (p : Page) (by_ : String) (prop : Nat) (value : Jv) : Page :=
  { p with by_ := dictInsert p.by_ by_ ⟨prop, value⟩ }

/-- Errors raised by the cursor loaders. -/
inductive PageErr : Type where
  /-- the underlying base64/json decode raised (binascii / json error) -/
  | badToken : PageErr
  /-- InvalidPageKey(key=key) -/
  | invalidPageKey (key : List Nat) : PageErr
  /-- InvalidPushWithPageParameterCount(properties=list(self.by.keys())) -/
  | invalidPushWithPageParameterCount (properties : List String) : PageErr
  deriving DecidableEq

/-- `Page.update_values_from_page_key`: decode the token; raise
InvalidPageKey when the decoded length differs from the binding count;
otherwise update each binding of the (snapshot) `by` items view with the
decoded value at its position.  The returned pair carries the resulting
cursor and the raised error, if any (Python raises; on a raise the
cursor object is handed back unchanged). -/
def update_values_from_page_key (p : Page) (key : List Nat) : Page × Option PageErr :=
  match decode_page_values key with
  | none => (p, some .badToken)
  | some loaded =>
    if loaded.length ≠ p.by_.length then (p, some (.invalidPageKey key))
    else
      (⟨(p.by_.zip loaded).foldl (fun d x => update_value d x.1.1 x.1.2.prop x.2) p.by_, p.size⟩,
        none)

/-- `Page.update_values_from_list`: like the above from an already
decoded value list, raising InvalidPushWithPageParameterCount (naming
the current keys) on a length mismatch. -/
def update_values_from_list (p : Page) (values : List Jv) : Page × Option PageErr :=
  if values.length ≠ p.by_.length then
    (p, some (.invalidPushWithPageParameterCount (dictKeys p.by_)))
  else
    (⟨(p.by_.zip values).foldl (fun d x => update_value d x.1.1 x.1.2.prop x.2) p.by_, p.size⟩,
      none)

/-! ### Page size resolution (get_page_size) -/

/-- The relevant slice of PageInfo (model.page). -/
structure PageInfo where
  size : Option Int
  deriving DecidableEq

/-- The relevant slice of Model. -/
structure Model where
  page : PageInfo
  deriving DecidableEq

/-- The relevant slice of Config. -/
structure Config where
  default_page_size : Option Int
  deriving DecidableEq

/-- Python truthiness of an optional int: `None` and `0` are falsy. -/
def truthySize : Option Int → Bool
  | none => false
  | some n => !(n == 0)

/-- Python `a or b` on optional ints. -/
def pyOrSize (a b : Option Int) : Option Int := if truthySize a then a else b

/-- `get_page_size(config, model, page)`:
`page_size or model.page.size or config.default_page_size` with
`page_size = page.size if page is not None else None`. -/
def get_page_size (config : Config) (model : Model) (page : Option Page) : Option Int :=
  let page_size := match page with | some p => p.size | none => none
  pyOrSize (pyOrSize page_size model.page.size) config.default_page_size

/-- Modelled from the spec: "effective size = explicit per-request size,
else model-declared page size, else a process-wide configured default —
first non-null wins." -/
def specPageSizeFirstNonNull (explicitSize modelSize defaultSize : Option Int) : Option Int :=
  match explicitSize with
  | some n => some n
  | none =>
    match modelSize with
    | some n => some n
    | none => defaultSize

/-- The amended resolution the code implements: first non-null AND
non-zero (Python-truthy) of the explicit and model sizes, else the
configured default as is. -/
def specPageSizeFirstTruthy (explicitSize modelSize defaultSize : Option Int) : Option Int :=
  if truthySize explicitSize then explicitSize
  else if truthySize modelSize then modelSize
  else defaultSize

/-! ## The scoped context (class Context)

The source keeps six parallel state-stack lists (`_context`, `_factory`,
`_cmgrs`, `_names`, `_local_names`, `_exitstack`) that are pushed and
popped in lockstep; one `Frame` aggregates one index of all six.  The
stack top (Python index `-1`) is the list head here, the root (Python
index `0`) the last element, so the source's downward index loops become
structural recursion.

A registration — the Python tuple `(factory, args, kwargs)` stored by
`bind` or `attach` — is identified by the fresh id assigned when it is
stored; what a factory returns is supplied through an environment
`fenv : Nat → V`, and what an attached context manager's enter returns
through `cenv : Nat → Option V` (`none` models the factory call or the
enter raising).  An acquired resource instance gets its own fresh id.
Invocations, acquisitions and releases are reported as events. -/

/-- One level of the Context state stacks.  `exitstack` is `none` for
the root frame (Python stores `None` there) and otherwise the list of
resource ids acquired on this frame's ExitStack, in acquisition order.
`fid` identifies the frame. -/
structure Frame (V : Type u) where
  context : List (String × V)
  factory : List (String × Nat)
  cmgrs : List (String × Nat)
  names : List String
  localNames : List String
  exitstack : Option (List Nat)
  fid : Nat
  deriving DecidableEq, Inhabited

/-- The context.  `frames` is never empty.  `pendingParentCmgrs` models
the `_parent._cmgrs[-1]` map a forked context copies into its first
entered frame: the source reads the parent's current map at enter time,
here it is snapshotted at fork since the embedded context is
self-contained (the same unless the parent attaches more resources
between the fork and the child's first enter; no claim exercises that).
`nextId` is the fresh-id counter for registrations, frames and
resources. -/
structure Context (V : Type u) where
  frames : List (Frame V)
  pendingParentCmgrs : Option (List (String × Nat))
  nextId : Nat
  deriving DecidableEq, Inhabited

/-- Results of context operations compare decidably (used to evaluate
concrete scenarios). -/
instance {ε : Type u} {α : Type v} [DecidableEq ε] [DecidableEq α] : DecidableEq (Except ε α) :=
  fun a b =>
    match a, b with
    | .ok x, .ok y =>
      if h : x = y then .isTrue (by rw [h]) else .isFalse (fun hc => by cases hc; exact h rfl)
    | .error e, .error f =>
      if h : e = f then .isTrue (by rw [h]) else .isFalse (fun hc => by cases hc; exact h rfl)
    | .ok _, .error _ => .isFalse (fun hc => by cases hc)
    | .error _, .ok _ => .isFalse (fun hc => by cases hc)

/-- Observable effects of context operations. -/
inductive Event : Type where
  /-- a bound factory was called (`_get_factory_value`) -/
  | invoke (id : Nat) : Event
  /-- a context manager produced resource `rid`, entered on frame
  `fid`'s ExitStack (`_get_cmgr_value`) -/
  | acquire (fid : Nat) (rid : Nat) : Event
  /-- resource `rid` was released (ExitStack unwinding in `__exit__`) -/
  | release (rid : Nat) : Event
  deriving DecidableEq

/-- Errors (exceptions) raised by context operations. -/
inductive CtxErr : Type where
  /-- "Context variable {name} has been already set." -/
  | alreadySet (name : String) : CtxErr
  /-- the `attach` assertion: only allowed inside a `with context:` block -/
  | attachOutsideWith : CtxErr
  /-- "Unknown context variable {name}." -/
  | unknownVar (name : String) : CtxErr
  /-- the attached context manager factory or its enter raised, or the
  root frame's `None` ExitStack was used -/
  | acquireRaised (name : String) : CtxErr
  deriving DecidableEq

variable {V : Type u}

/-- `Context.__init__` without a parent: one root frame, empty
everywhere, `_exitstack = [None]`. -/
def Context.init : Context V :=
  { frames := [{ context := [], factory := [], cmgrs := [], names := [], localNames := [],
                 exitstack := none, fid := 0 }],
    pendingParentCmgrs := none,
    nextId := 1 }

/-- `_set_local_name`: refuse a name already local to this frame, else
record it as local and visible. -/
def setLocalName (f : Frame V) (n : String) : Except CtxErr (Frame V) :=
  if n ∈ f.localNames then .error (.alreadySet n)
  else .ok { f with localNames := n :: f.localNames,
                    names := if n ∈ f.names then f.names else n :: f.names }

/-- `Context.set`. -/
def Context.set (s : Context V) (n : String) (v : V) : Except CtxErr (Context V) :=
  match s.frames with
  | [] => .error (.unknownVar n)
  | top :: rest =>
    match setLocalName top n with
    | .error e => .error e
    | .ok top' => .ok { s with frames := { top' with context := dictInsert top'.context n v } :: rest }

/-- `Context.bind`: store a factory registration under a fresh id. -/
def Context.bind (s : Context V) (n : String) : Except CtxErr (Context V) :=
  match s.frames with
  | [] => .error (.unknownVar n)
  | top :: rest =>
    match setLocalName top n with
    | .error e => .error e
    | .ok top' =>
      .ok { s with frames := { top' with factory := dictInsert top'.factory n s.nextId } :: rest,
                   nextId := s.nextId + 1 }

/-- `Context.attach`: assert an ExitStack is active (the assert runs
before any state is touched), then store a cmgr registration. -/
def Context.attach (s : Context V) (n : String) : Except CtxErr (Context V) :=
  match s.frames with
  | [] => .error (.unknownVar n)
  | top :: rest =>
    match top.exitstack with
    | none => .error .attachOutsideWith
    | some _ =>
      match setLocalName top n with
      | .error e => .error e
      | .ok top' =>
        .ok { s with frames := { top' with cmgrs := dictInsert top'.cmgrs n s.nextId } :: rest,
                     nextId := s.nextId + 1 }

/-- `Context.__enter__`: push a frame copying the current values and
name set, with empty local names and factories and a fresh ExitStack;
the cmgr map is copied from the fork parent on a first-level enter of a
forked context, else starts empty. -/
def Context.enter (s : Context V) : Context V :=
  match s.frames with
  | [] => s
  | top :: rest =>
    let cm :=
      if s.frames.length = 1 then
        match s.pendingParentCmgrs with
        | some c => c
        | none => []
      else []
    { s with
      frames := { context := top.context, factory := [], cmgrs := cm, names := top.names,
                  localNames := [], exitstack := some [], fid := s.nextId } :: top :: rest,
      nextId := s.nextId + 1 }

/-- `Context.__exit__`: pop every stack and close the popped ExitStack,
which releases the resources entered on it in reverse acquisition
order. -/
def Context.exit (s : Context V) : Context V × List Event :=
  match s.frames with
  | [] => (s, [])
  | top :: rest =>
    ({ s with frames := rest },
      match top.exitstack with
      | some stk => stk.reverse.map Event.release
      | none => [])

/-- The factory arm of `Context.get`'s scan: walk frames from the
current one outward; at the first frame whose factory map has the name,
reuse that frame's cached value if present, else invoke the factory and
cache the result there (`self._context[state][name] = ...`).  Returns
the value, updated frames, events, and the index where the name was
found (0 = current frame). -/
def scanFactory (fenv : Nat → V) (n : String) :
    List (Frame V) → Option (V × List (Frame V) × List Event × Nat)
  | [] => none
  | f :: rest =>
    match dictLookup f.factory n with
    | some id =>
      match dictLookup f.context n with
      | some v => some (v, f :: rest, [], 0)
      | none =>
        let v := fenv id
        some (v, { f with context := dictInsert f.context n v } :: rest, [.invoke id], 0)
    | none =>
      match scanFactory fenv n rest with
      | some (v, rest', tr, d) => some (v, f :: rest', tr, d + 1)
      | none => none

/-- The cmgr arm of the scan: as above, but materializing means calling
the registered factory, entering the produced context manager on THAT
frame's ExitStack (appending a fresh resource id `rid`) and caching its
enter value.  A `none` enter environment or a missing ExitStack (the
root's `None`) models the acquisition raising: nothing is recorded.
The extra Bool reports whether `rid` was consumed. -/
def scanCmgr (cenv : Nat → Option V) (n : String) (rid : Nat) :
    List (Frame V) → Option (Except CtxErr (V × List (Frame V) × List Event × Nat × Bool))
  | [] => none
  | f :: rest =>
    match dictLookup f.cmgrs n with
    | some id =>
      match dictLookup f.context n with
      | some v => some (.ok (v, f :: rest, [], 0, false))
      | none =>
        match f.exitstack with
        | none => some (.error (.acquireRaised n))
        | some stk =>
          match cenv id with
          | none => some (.error (.acquireRaised n))
          | some v =>
            some (.ok (v,
              { f with context := dictInsert f.context n v, exitstack := some (stk ++ [rid]) } :: rest,
              [.acquire f.fid rid], 0, true))
    | none =>
      match scanCmgr cenv n rid rest with
      | some (.ok (v, rest', tr, d, acq)) => some (.ok (v, f :: rest', tr, d + 1, acq))
      | some (.error e) => some (.error e)
      | none => none

/-- `self._context[-1][name] = value`: update the current frame's value
dict. -/
def copyDown (fs : List (Frame V)) (n : String) (v : V) : List (Frame V) :=
  match fs with
  | [] => []
  | top :: rest => { top with context := dictInsert top.context n v } :: rest

/-- `Context.get`: (a) a value already in the current frame is returned;
else (b) the factory stacks are scanned from the current frame outward,
then (c) the cmgr stacks; a value resolved at an outer frame is also
written into the current frame (`if len(self._context) - 1 > state`);
(d) otherwise the unknown-variable error is raised. -/
def Context.get (fenv : Nat → V) (cenv : Nat → Option V) (s : Context V) (n : String) :
    Except CtxErr (V × Context V × List Event) :=
  match s.frames with
  | [] => .error (.unknownVar n)
  | top :: rest =>
    match dictLookup top.context n with
    | some v => .ok (v, s, [])
    | none =>
      match scanFactory fenv n (top :: rest) with
      | some (v, fs', tr, d) =>
        .ok (v, { s with frames := if 0 < d then copyDown fs' n v else fs' }, tr)
      | none =>
        match scanCmgr cenv n s.nextId (top :: rest) with
        | some (.ok (v, fs', tr, d, acq)) =>
          .ok (v, { s with frames := if 0 < d then copyDown fs' n v else fs',
                           nextId := if acq then s.nextId + 1 else s.nextId }, tr)
        | some (.error e) => .error e
        | none => .error (.unknownVar n)

/-- `Context.fork` = `type(self)(name, self)` (`Context.__init__` with a
parent): a brand-new context whose single root frame copies the parent's
current factory map and name set, starts with empty cmgrs and local
names and no ExitStack, and copies from the parent's current value dict
exactly the keys not in the parent's current `_cmgrs[-1]` or
`_factory[-1]` maps (the source iterates a key set; the parent's
insertion order is fixed here, and only lookups observe the dict).  The
`name` argument is diagnostics-only and not modelled. -/
def Context.fork (s : Context V) : Context V :=
  match s.frames with
  | [] => s
  | top :: _ =>
    { frames := [{ context := top.context.filter
                     (fun kv => !(dictContains top.cmgrs kv.1) && !(dictContains top.factory kv.1)),
                   factory := top.factory, cmgrs := [], names := top.names, localNames := [],
                   exitstack := none, fid := s.nextId }],
      pendingParentCmgrs := some top.cmgrs,
      nextId := s.nextId + 1 }

/-! ### Client programs and their execution -/

/-- Client programs over one context: the claimed operation sequences.
`scope body` models `with context: body` — the frame entered for the
block is exited on every path out of it, as the Python `with` statement
guarantees. -/
inductive Prog (V : Type u) : Type u where
  | skip : Prog V
  | set (name : String) (v : V) : Prog V
  | bind (name : String) : Prog V
  | attach (name : String) : Prog V
  | get (name : String) : Prog V
  | seq (p q : Prog V) : Prog V
  | scope (body : Prog V) : Prog V

/-- Execute a program: final state, event trace, and the exception
propagating out, if any.  `seq` stops at the first exception; `scope`
always exits its frame. -/
def exec (fenv : Nat → V) (cenv : Nat → Option V) :
    Prog V → Context V → Context V × List Event × Option CtxErr
  | .skip, s => (s, [], none)
  | .set n v, s =>
    match Context.set s n v with
    | .ok s' => (s', [], none)
    | .error e => (s, [], some e)
  | .bind n, s =>
    match Context.bind s n with
    | .ok s' => (s', [], none)
    | .error e => (s, [], some e)
  | .attach n, s =>
    match Context.attach s n with
    | .ok s' => (s', [], none)
    | .error e => (s, [], some e)
  | .get n, s =>
    match Context.get fenv cenv s n with
    | .ok (_, s', tr) => (s', tr, none)
    | .error e => (s, [], some e)
  | .seq p q, s =>
    match exec fenv cenv p s with
    | (s1, t1, none) =>
      match exec fenv cenv q s1 with
      | (s2, t2, e2) => (s2, t1 ++ t2, e2)
    | (s1, t1, some e) => (s1, t1, some e)
  | .scope p, s =>
    match exec fenv cenv p (Context.enter s) with
    | (s1, t1, e1) =>
      match Context.exit s1 with
      | (s2, rel) => (s2, t1 ++ rel, e1)

/-! ### Trace and state observations used by the claims -/

/-- How often factory registration `id` was invoked in a trace. -/
def cntInvoke (tr : List Event) (id : Nat) : Nat := tr.count (.invoke id)

/-- The resource ids acquired on frame `fid`'s ExitStack, in order. -/
def acqRids (fid : Nat) (tr : List Event) : List Nat :=
  tr.filterMap (fun e =>
    match e with
    | .acquire f r => if f = fid then some r else none
    | _ => none)

/-- The released resource ids, in order. -/
def relRids (tr : List Event) : List Nat :=
  tr.filterMap (fun e =>
    match e with
    | .release r => some r
    | _ => none)

/-- All registration ids stored in the live frames. -/
def liveRegIds (s : Context V) : List Nat :=
  (s.frames.map (fun f => f.factory.map Prod.snd ++ f.cmgrs.map Prod.snd)).flatten

/-- The acquisition list of a frame (`[]` for the root's `None`). -/
def stackOr (f : Frame V) : List Nat := f.exitstack.getD []

/-- State well-formedness preserved by every operation when starting
from `Context.init`: a nonempty frame stack, no pending fork copy, and
freshness/distinctness of all ids. -/
def Inv (s : Context V) : Prop :=
  s.frames ≠ [] ∧
  s.pendingParentCmgrs = none ∧
  (liveRegIds s).Nodup ∧
  (∀ id ∈ liveRegIds s, id < s.nextId) ∧
  (s.frames.map Frame.fid).Nodup ∧
  (∀ f ∈ s.frames, f.fid < s.nextId) ∧
  (∀ f ∈ s.frames, ∀ rid ∈ stackOr f, rid < s.nextId) ∧
  ((s.frames.map stackOr).flatten).Nodup ∧
  (∀ f ∈ s.frames, ∀ kv ∈ f.factory, kv.1 ∈ f.localNames) ∧
  (∀ f ∈ s.frames, ∀ kv ∈ f.cmgrs, kv.1 ∈ f.localNames)

/-- Registration `id` sits in some frame's factory map under a name that
frame has not resolved yet — the only situation `get` invokes it in. -/
def invocable (s : Context V) (id : Nat) : Bool :=
  s.frames.any (fun f =>
    f.factory.any (fun kv => kv.2 = id && !(dictContains f.context kv.1)))

/-- Invocation potential of a registration id. -/
def phi (s : Context V) (id : Nat) : Nat := if invocable s id then 1 else 0

/-- Indicator of `a ≤ id < b` (ids handed out between two states). -/
def spanInd (a b id : Nat) : Nat := if a ≤ id ∧ id < b then 1 else 0

/-- All acquired resource ids in a trace, regardless of frame, in
order. -/
def allAcq (tr : List Event) : List Nat :=
  tr.filterMap (fun e =>
    match e with
    | .acquire _ r => some r
    | _ => none)

/-- Everything one client operation (or a balanced sequence of them)
guarantees about the step from `s` to `s'` with trace `tr`: the fresh-id
counter only grows; the frame stack keeps its length, and positionally
each frame keeps its identity and the `some`ness of its ExitStack while
its acquisition list grows by exactly the resources acquired under its
frame id; acquired resource ids are pairwise distinct and drawn from the
ids handed out during the step; released ids were handed out before the
end of the step; no resource still held by a live frame was released;
and each registration is invoked at most its start-of-step potential
plus one if its id was handed out during the step. -/
def StepOk (s s' : Context V) (tr : List Event) : Prop :=
  s.nextId ≤ s'.nextId ∧
  s'.frames.length = s.frames.length ∧
  (∀ i f, s.frames.get? i = some f → ∃ f', s'.frames.get? i = some f' ∧
    f'.fid = f.fid ∧ f'.exitstack.isSome = f.exitstack.isSome ∧
    stackOr f' = stackOr f ++ acqRids f.fid tr) ∧
  (allAcq tr).Nodup ∧
  (∀ rid ∈ allAcq tr, s.nextId ≤ rid ∧ rid < s'.nextId) ∧
  (∀ rid ∈ relRids tr, rid < s'.nextId) ∧
  (∀ f' ∈ s'.frames, ∀ rid ∈ stackOr f', rid ∉ relRids tr) ∧
  (∀ id, cntInvoke tr id + phi s' id ≤ phi s id + spanInd s.nextId s'.nextId id)

/-- Positional correspondence between two frame stacks that differ only
in their value dicts, and only by gaining keys. -/
def CtxOnly {V : Type u} (fs fs' : List (Frame V)) : Prop :=
  fs'.length = fs.length ∧
  ∀ j f', fs'.get? j = some f' → ∃ f, fs.get? j = some f ∧ f'.factory = f.factory ∧
    f'.cmgrs = f.cmgrs ∧ f'.localNames = f.localNames ∧ f'.fid = f.fid ∧
    f'.exitstack = f.exitstack ∧
    (∀ k, dictContains f.context k = true → dictContains f'.context k = true)

/-! ### The spec's description of `get` and `fork`, for comparison -/

/-- Index (0 = current frame, increasing outward) of the first frame
whose `proj` registration map holds `n`. -/
def findFrameIdx (proj : Frame V → List (String × Nat)) (n : String) (fs : List (Frame V)) :
    Option Nat :=
  fs.findIdx? (fun f => dictContains (proj f) n)

/-- Apply `g` to the frame at index `i`. -/
def modifyAt (fs : List (Frame V)) (i : Nat) (g : Frame V → Frame V) : List (Frame V) :=
  match fs, i with
  | [], _ => []
  | f :: rest, 0 => g f :: rest
  | f :: rest, j + 1 => f :: modifyAt rest j g

/-- Write the value into every frame strictly below index `i`: the
frames between the defining frame and the current one, current frame
included. -/
def propagateBelow (fs : List (Frame V)) (i : Nat) (n : String) (v : V) : List (Frame V) :=
  fs.mapIdx (fun j f => if j < i then { f with context := dictInsert f.context n v } else f)

/-- Modelled from the spec: the resolution algorithm of `get` as the
spec words it, parameterized by what "propagate down" writes:
`propagateAll = true` writes the cached value into every frame between
the defining frame and the current one (the spec's original wording),
`propagateAll = false` writes it into the current frame only (the
amended wording).  Steps: (a) current-frame hit; (b) factory scan from
the deepest frame outward, invoke unless already resolved at the
defining frame, cache there, propagate down; (c) the same over the
scoped-resource registrations; (d) unknown-variable error. -/
def specGetWith (propagateAll : Bool) (fenv : Nat → V) (cenv : Nat → Option V)
    (s : Context V) (n : String) : Except CtxErr (V × Context V × List Event) :=
  match s.frames with
  | [] => .error (.unknownVar n)
  | top :: rest =>
    match dictLookup top.context n with
    | some v => .ok (v, s, [])
    | none =>
      let fs := top :: rest
      match findFrameIdx Frame.factory n fs with
      | some i =>
        match fs.get? i with
        | none => .error (.unknownVar n)
        | some f =>
          match dictLookup f.factory n with
          | none => .error (.unknownVar n)
          | some id =>
            match dictLookup f.context n with
            | some v =>
              let fs1 :=
                if propagateAll then propagateBelow fs i n v
                else if 0 < i then copyDown fs n v else fs
              .ok (v, { s with frames := fs1 }, [])
            | none =>
              let v := fenv id
              let fs1 := modifyAt fs i (fun g => { g with context := dictInsert g.context n v })
              let fs2 :=
                if propagateAll then propagateBelow fs1 i n v
                else if 0 < i then copyDown fs1 n v else fs1
              .ok (v, { s with frames := fs2 }, [.invoke id])
      | none =>
        match findFrameIdx Frame.cmgrs n fs with
        | some i =>
          match fs.get? i with
          | none => .error (.unknownVar n)
          | some f =>
            match dictLookup f.cmgrs n with
            | none => .error (.unknownVar n)
            | some id =>
              match dictLookup f.context n with
              | some v =>
                let fs1 :=
                  if propagateAll then propagateBelow fs i n v
                  else if 0 < i then copyDown fs n v else fs
                .ok (v, { s with frames := fs1 }, [])
              | none =>
                match f.exitstack with
                | none => .error (.acquireRaised n)
                | some stk =>
                  match cenv id with
                  | none => .error (.acquireRaised n)
                  | some v =>
                    let fs1 := modifyAt fs i (fun g =>
                      { g with context := dictInsert g.context n v,
                               exitstack := some (stk ++ [s.nextId]) })
                    let fs2 :=
                      if propagateAll then propagateBelow fs1 i n v
                      else if 0 < i then copyDown fs1 n v else fs1
                    .ok (v, { s with frames := fs2, nextId := s.nextId + 1 },
                      [.acquire f.fid s.nextId])
        | none => .error (.unknownVar n)

/-- Modelled from the spec (the original fork claim): the fork's root
values are the parent's current-frame values excluding every name that
has a factory or scoped-resource registration anywhere in the parent —
"excluding any value that originated from a factory or resource
binding, even if already resolved". -/
def specForkValuesAnyFrame (s : Context V) : List (String × V) :=
  match s.frames with
  | [] => []
  | top :: _ =>
    top.context.filter (fun kv =>
      !(s.frames.any (fun f => dictContains f.factory kv.1 || dictContains f.cmgrs kv.1)))

/-- The state of `update_value`'s dict after the rename comprehension. -/
def renamedDict (d : List (String × PageBy)) (cleaned key : String) : List (String × PageBy) :=
  dictFromPairs (d.map (fun kv => (if kv.1 = cleaned then key else kv.1, kv.2)))

/-! ### Concrete context scenarios used by the claim analyses -/

/-- Factory environment of the concrete scenarios: every factory
returns 7. -/
def fenv7 : Nat → Nat := fun _ => 7

/-- Cmgr environment of the concrete scenarios: every enter returns 9. -/
def cenv9 : Nat → Option Nat := fun _ => some 9

/-- The state of an operation expected to succeed (falls back to the
input on error; the scenarios never hit it). -/
def okState (s : Context Nat) (r : Except CtxErr (Context Nat)) : Context Nat :=
  match r with
  | .ok s' => s'
  | .error _ => s

/-- The post-state of a `get` expected to succeed. -/
def okGet (fenv : Nat → Nat) (cenv : Nat → Option Nat) (s : Context Nat) (n : String) :
    Context Nat :=
  match Context.get fenv cenv s n with
  | .ok (_, s', _) => s'
  | .error _ => s

/-- C1 scenario, deep parent: root context, `bind 'f'`, enter a scope,
`get 'f'` — the factory value is resolved and cached at the root and the
current frame, while the factory registration itself sits in the OUTER
frame's map. -/
def parentDeep : Context Nat :=
  okGet fenv7 cenv9
    (Context.enter (okState Context.init (Context.bind (Context.init : Context Nat) "f"))) "f"

/-- C1 scenario, flat parent: root context, `bind 'f'`, `get 'f'` — the
registration and the cached value are both in the current (root)
frame. -/
def parentFlat : Context Nat :=
  okGet fenv7 cenv9 (okState Context.init (Context.bind (Context.init : Context Nat) "f")) "f"

/-- C3 scenario: `bind 'f'` at the root, then two nested scopes; `get`
resolves across three frames. -/
def parentTriple : Context Nat :=
  Context.enter (Context.enter (okState Context.init (Context.bind (Context.init : Context Nat) "f")))

/-- C1 witness scenario: `parentFlat` plus a directly-set value `g`. -/
def parentMix : Context Nat := okState parentFlat (Context.set parentFlat "g" 5)

/-! ## Claim C8: page size resolution -/

/-- C8, counterexample: the claim says the effective size is the first
NON-NULL of explicit size, model size, configured default, so an
explicit size is never overridden.  But `get_page_size` chains Python
`or`, which treats the integer `0` as false: with an explicit size `0`
and a model size `5` the code returns `5`, not `0`. -/
theorem C8_counterexample :
    get_page_size ⟨some 7⟩ ⟨⟨some 5⟩⟩ (some ⟨[], some 0⟩) = some 5 ∧
    specPageSizeFirstNonNull (some 0) (some 5) (some 7) = some 0 := by
  decide

/-- C8, amended: the effective page size is the first Python-truthy
(non-null AND non-zero) of the explicit per-request size and the
model-declared size, else the configured default as is; in particular an
explicit non-null, non-zero size is never overridden. -/
theorem C8_amended (config : Config) (model : Model) (page : Option Page) :
    get_page_size config model page =
      specPageSizeFirstTruthy (match page with | some p => p.size | none => none)
        model.page.size config.default_page_size := by
  cases page <;>
    simp only [get_page_size, pyOrSize, specPageSizeFirstTruthy] <;>
    (repeat' split) <;> simp_all

/-! ## Claims C6 and C9: loader error handling -/

/-- C6, confirmed: on a token that decodes to an array, the token loader
raises InvalidPageKey exactly when the decoded length differs from the
binding count; the list loader raises
InvalidPushWithPageParameterCount — naming the expected property keys —
exactly when the list length differs from the binding count; on
matching lengths neither raises. -/
theorem C6_loaders_length_errors (p : Page) (key : List Nat) (vals values : List Jv) :
    (decode_page_values key = some vals →
      (vals.length ≠ p.by_.length →
        update_values_from_page_key p key = (p, some (.invalidPageKey key))) ∧
      (vals.length = p.by_.length → (update_values_from_page_key p key).2 = none)) ∧
    ((values.length ≠ p.by_.length →
        update_values_from_list p values =
          (p, some (.invalidPushWithPageParameterCount (dictKeys p.by_)))) ∧
      (values.length = p.by_.length → (update_values_from_list p values).2 = none)) := by
  refine ⟨fun hdec => ⟨fun hne => ?_, fun heq => ?_⟩, fun hne => ?_, fun heq => ?_⟩
  · simp [update_values_from_page_key, hdec, hne]
  · simp [update_values_from_page_key, hdec, heq]
  · simp [update_values_from_list, hne]
  · simp [update_values_from_list, heq]

/-- C6, witness: a two-binding cursor with a token encoding one value
raises InvalidPageKey, a one-value list raises the parameter-count error
naming the keys, and matching lengths raise nothing. -/
theorem C6_loaders_length_errors_witness :
    update_values_from_page_key ⟨[("x", ⟨0, .null⟩), ("y", ⟨1, .null⟩)], none⟩
        (encode_page_values [.int 3]) =
      (⟨[("x", ⟨0, .null⟩), ("y", ⟨1, .null⟩)], none⟩,
        some (.invalidPageKey (encode_page_values [.int 3]))) ∧
    update_values_from_list ⟨[("x", ⟨0, .null⟩), ("y", ⟨1, .null⟩)], none⟩ [.int 3] =
      (⟨[("x", ⟨0, .null⟩), ("y", ⟨1, .null⟩)], none⟩,
        some (.invalidPushWithPageParameterCount ["x", "y"])) ∧
    (update_values_from_list ⟨[("x", ⟨0, .null⟩), ("y", ⟨1, .null⟩)], none⟩
        [.int 3, .int 4]).2 = none := by
  refine ⟨?_, ?_, ?_⟩
  · exact ((C6_loaders_length_errors ⟨[("x", ⟨0, .null⟩), ("y", ⟨1, .null⟩)], none⟩
      (encode_page_values [.int 3]) [.int 3] []).1 (by decide)).1 (by decide)
  · have h := ((C6_loaders_length_errors ⟨[("x", ⟨0, .null⟩), ("y", ⟨1, .null⟩)], none⟩
      [] [] [.int 3]).2).1 (by decide)
    simpa using h
  · exact ((C6_loaders_length_errors ⟨[("x", ⟨0, .null⟩), ("y", ⟨1, .null⟩)], none⟩
      [] [] [.int 3, .int 4]).2).2 (by decide)

/-- C9, confirmed: both loaders check lengths (and decode) before any
mutation, so whenever they raise, the returned cursor is exactly the
input cursor — bindings, keys, properties, values and order untouched. -/
theorem C9_loaders_atomic_on_error (p : Page) (key : List Nat) (values : List Jv) :
    ((update_values_from_page_key p key).2.isSome →
      (update_values_from_page_key p key).1 = p) ∧
    ((update_values_from_list p values).2.isSome →
      (update_values_from_list p values).1 = p) := by
  constructor
  · intro h
    unfold update_values_from_page_key at *
    cases hdec : decode_page_values key with
    | none => simp [hdec]
    | some loaded =>
      simp only [hdec] at h ⊢
      split <;> simp_all
  · intro h
    unfold update_values_from_list at *
    split <;> simp_all

/-- C9, witness: on a short token and a short value list the cursor
comes back unchanged. -/
theorem C9_loaders_atomic_on_error_witness :
    (update_values_from_page_key ⟨[("x", ⟨0, .null⟩), ("y", ⟨1, .null⟩)], some 4⟩
        (encode_page_values [.int 3])).1 =
      ⟨[("x", ⟨0, .null⟩), ("y", ⟨1, .null⟩)], some 4⟩ ∧
    (update_values_from_list ⟨[("x", ⟨0, .null⟩), ("y", ⟨1, .null⟩)], some 4⟩ [.int 3]).1 =
      ⟨[("x", ⟨0, .null⟩), ("y", ⟨1, .null⟩)], some 4⟩ := by
  refine ⟨?_, ?_⟩
  · exact (C9_loaders_atomic_on_error ⟨[("x", ⟨0, .null⟩), ("y", ⟨1, .null⟩)], some 4⟩
      (encode_page_values [.int 3]) []).1 (by decide)
  · exact (C9_loaders_atomic_on_error ⟨[("x", ⟨0, .null⟩), ("y", ⟨1, .null⟩)], some 4⟩
      [] [.int 3]).2 (by decide)

/-! ## Ordered dict lemmas -/

section DictLemmas

variable {α : Type u} {β : Type v} [DecidableEq α]

theorem dictContains_iff {d : List (α × β)} {k : α} :
    dictContains d k = true ↔ k ∈ dictKeys d := by
  simp [dictContains, dictKeys, List.any_eq_true]

theorem dictContains_append {d1 d2 : List (α × β)} {k : α} :
    dictContains (d1 ++ d2) k = (dictContains d1 k || dictContains d2 k) := by
  simp [dictContains]

omit [DecidableEq α] in
/-- A map that fixes every key leaves the key list unchanged. -/
theorem dictKeys_map_keyfix {d : List (α × β)} {f : α × β → α × β}
    (h : ∀ kv ∈ d, (f kv).1 = kv.1) : dictKeys (d.map f) = dictKeys d := by
  induction d with
  | nil => rfl
  | cons x xs ih =>
    simp only [List.map_cons, dictKeys, List.map]
    rw [h x (by simp)]
    have := ih (fun kv hkv => h kv (by simp [hkv]))
    simpa [dictKeys] using this

theorem dictContains_map_keyfix {d : List (α × β)} {f : α × β → α × β} {k : α}
    (h : ∀ kv ∈ d, (f kv).1 = kv.1) : dictContains (d.map f) k = dictContains d k := by
  by_cases hc : dictContains (d.map f) k = true
  · rw [hc]
    rw [dictContains_iff, dictKeys_map_keyfix h, ← dictContains_iff] at hc
    exact hc.symm
  · have hc' := hc
    rw [dictContains_iff, dictKeys_map_keyfix h, ← dictContains_iff] at hc'
    simp only [Bool.not_eq_true] at hc hc'
    rw [hc, hc']

theorem dictContains_dictInsert {d : List (α × β)} {k0 k : α} {v0 : β} :
    dictContains (dictInsert d k0 v0) k = (dictContains d k || decide (k0 = k)) := by
  unfold dictInsert
  split
  · rename_i hc
    rw [dictContains_map_keyfix (fun kv _ => by split <;> simp_all)]
    by_cases hk : k0 = k
    · subst hk; simp [hc]
    · simp [hk]
  · rename_i hc
    rw [dictContains_append]
    simp [dictContains]

theorem dictContains_foldlInsert {ps : List (α × β)} {d : List (α × β)} {k : α} :
    dictContains (ps.foldl (fun d kv => dictInsert d kv.1 kv.2) d) k =
      (dictContains d k || dictContains ps k) := by
  induction ps generalizing d with
  | nil => simp [dictContains]
  | cons x xs ih =>
    simp only [List.foldl_cons]
    rw [ih, dictContains_dictInsert]
    simp [dictContains, Bool.or_assoc]

theorem dictContains_dictFromPairs {ps : List (α × β)} {k : α} :
    dictContains (dictFromPairs ps) k = dictContains ps k := by
  unfold dictFromPairs
  rw [dictContains_foldlInsert]
  simp [dictContains]

/-- Inserting pairs with fresh, pairwise distinct keys is an append. -/
theorem foldlInsert_of_fresh {ps d : List (α × β)}
    (hnd : (dictKeys ps).Nodup)
    (hfresh : ∀ k ∈ dictKeys ps, dictContains d k = false) :
    ps.foldl (fun d kv => dictInsert d kv.1 kv.2) d = d ++ ps := by
  induction ps generalizing d with
  | nil => simp
  | cons x xs ih =>
    simp only [List.foldl_cons]
    have hx : dictContains d x.1 = false := hfresh x.1 (by simp [dictKeys])
    have hins : dictInsert d x.1 x.2 = d ++ [x] := by
      unfold dictInsert
      rw [hx]
      simp
    rw [hins]
    have hcons : dictKeys (x :: xs) = x.1 :: dictKeys xs := rfl
    rw [hcons] at hnd hfresh
    have hnd' : (dictKeys xs).Nodup := (List.nodup_cons.mp hnd).2
    have hx' : x.1 ∉ dictKeys xs := (List.nodup_cons.mp hnd).1
    have hfresh' : ∀ k ∈ dictKeys xs, dictContains (d ++ [x]) k = false := by
      intro k hk
      rw [dictContains_append]
      have h1 : dictContains d k = false := hfresh k (by simp [hk])
      have h2 : dictContains [x] k = false := by
        simp only [dictContains, List.any_cons, List.any_nil, Bool.or_false,
          decide_eq_false_iff_not]
        intro he
        exact hx' (he ▸ hk)
      rw [h1, h2]
      rfl
    rw [ih hnd' hfresh']
    simp

theorem dictFromPairs_of_nodup {ps : List (α × β)} (hnd : (dictKeys ps).Nodup) :
    dictFromPairs ps = ps := by
  unfold dictFromPairs
  rw [foldlInsert_of_fresh hnd (fun k _ => by simp [dictContains])]
  simp

end DictLemmas

/-- The un-prefixed name differs from the prefixed one. -/
theorem strTail_ne {k : String} (h : startsDash k = true) : strTail k ≠ k := by
  unfold startsDash at h
  cases hk : k.data with
  | nil => rw [hk] at h; simp at h
  | cons c t =>
    intro he
    have hd : (strTail k).data = t := by simp [strTail, hk]
    have := congrArg String.data he
    rw [hd, hk] at this
    have := congrArg List.length this
    simp at this

/-- Looking up after the value-assignment map of `update_value`. -/
theorem dictLookup_setval {d : List (String × PageBy)} {key : String} {value : Jv} :
    dictLookup (d.map (fun kv => if kv.1 = key then (kv.1, ⟨kv.2.prop, value⟩) else kv)) key =
      (dictLookup d key).map (fun pb => ⟨pb.prop, value⟩) := by
  induction d with
  | nil => rfl
  | cons x xs ih =>
    by_cases hx : x.1 = key
    · simp [dictLookup, hx, ih]
    · simp [dictLookup, hx, ih]

/-- The value-assignment map does nothing when the key is absent. -/
theorem setval_of_not_contains {d : List (String × PageBy)} {key : String} {value : Jv}
    (h : dictContains d key = false) :
    d.map (fun kv => if kv.1 = key then (kv.1, ⟨kv.2.prop, value⟩) else kv) = d := by
  induction d with
  | nil => rfl
  | cons x xs ih =>
    simp only [dictContains, List.any_cons, Bool.or_eq_false_iff, decide_eq_false_iff_not] at h
    simp only [List.map_cons, if_neg h.1]
    rw [ih (by simp [dictContains, h.2])]

section DictLemmas2

variable {α : Type u} {β : Type v} [DecidableEq α]

theorem dictContains_exists {d : List (α × β)} {k : α} (h : dictContains d k = true) :
    ∃ kv, kv ∈ d ∧ kv.1 = k := by
  obtain ⟨kv, hmem, hk⟩ := List.any_eq_true.mp h
  exact ⟨kv, hmem, of_decide_eq_true hk⟩

theorem dictContains_of_mem {d : List (α × β)} {kv : α × β} (h : kv ∈ d) :
    dictContains d kv.1 = true :=
  List.any_eq_true.mpr ⟨kv, h, by simp⟩

theorem dictContains_false_of_all {d : List (α × β)} {k : α}
    (h : ∀ kv ∈ d, kv.1 ≠ k) : dictContains d k = false := by
  by_contra hc
  rw [Bool.not_eq_false] at hc
  obtain ⟨kv, hkv, hk⟩ := dictContains_exists hc
  exact h kv hkv hk

theorem dictLookup_isSome_of_contains {d : List (α × β)} {k : α}
    (h : dictContains d k = true) : (dictLookup d k).isSome = true := by
  induction d with
  | nil => simp [dictContains] at h
  | cons x xs ih =>
    by_cases hx : x.1 = k
    · simp [dictLookup, hx]
    · simp only [dictContains, List.any_cons, Bool.or_eq_true, decide_eq_true_eq] at h
      rcases h with h | h
      · exact absurd h hx
      · simp only [dictLookup, if_neg hx]
        exact ih h

end DictLemmas2

/-! ## Claims C7 and C10: update_value rename behaviour -/

/-- `update_value` unfolded for a dash key whose un-prefixed name is
present: the rename comprehension runs, the key is then present, and the
value is assigned. -/
theorem update_value_rename_eq (d : List (String × PageBy)) (key : String) (prop : Nat)
    (value : Jv) (hd : startsDash key = true)
    (hcl : dictContains d (strTail key) = true) :
    update_value d key prop value =
      (let d1 := renamedDict d (strTail key) key
       let d2 := if dictContains d1 key then d1 else d1 ++ [(key, ⟨prop, Jv.null⟩)]
       d2.map (fun kv => if kv.1 = key then (kv.1, ⟨kv.2.prop, value⟩) else kv)) := by
  have hne : strTail key ≠ key := strTail_ne hd
  unfold update_value renamedDict
  rw [hd]
  simp only [if_true]
  rw [if_pos (show strTail key ≠ key ∧ dictContains d (strTail key) = true from ⟨hne, hcl⟩)]

/-- After the rename comprehension the prefixed key is present and the
un-prefixed key absent. -/
theorem renamedDict_keys (d : List (String × PageBy)) (key : String)
    (hne : strTail key ≠ key) (hcl : dictContains d (strTail key) = true) :
    dictContains (renamedDict d (strTail key) key) key = true ∧
    dictContains (renamedDict d (strTail key) key) (strTail key) = false := by
  unfold renamedDict
  obtain ⟨kv, hkv, hk⟩ := dictContains_exists hcl
  constructor
  · rw [dictContains_dictFromPairs]
    have hmm : ((key, kv.2) : String × PageBy) ∈
        d.map (fun kv => (if kv.1 = strTail key then key else kv.1, kv.2)) :=
      List.mem_map.mpr ⟨kv, hkv, by rw [if_pos hk]⟩
    simpa using dictContains_of_mem hmm
  · rw [dictContains_dictFromPairs]
    refine dictContains_false_of_all ?_
    intro kv' hkv'
    obtain ⟨orig, -, horig⟩ := List.mem_map.mp hkv'
    intro habs
    rw [← horig] at habs
    by_cases hc : orig.1 = strTail key
    · rw [if_pos hc] at habs; exact hne habs.symm
    · rw [if_neg hc] at habs; exact hc habs

/-- C7, confirmed: for a key with a leading `-` marker, (1) when a
binding exists under the un-prefixed name, `update_value` leaves the
dict with the prefixed key present, the un-prefixed key gone, and the
given value stored under the prefixed key; (2) when neither the prefixed
nor the un-prefixed key exists, a fresh binding carrying the given
property is appended and then assigned the value. -/
theorem C7_update_value_dash_rename (d : List (String × PageBy)) (key : String) (prop : Nat)
    (value : Jv) (hd : startsDash key = true) :
    (dictContains d (strTail key) = true →
      dictContains (update_value d key prop value) key = true ∧
      dictContains (update_value d key prop value) (strTail key) = false ∧
      ∃ pr, dictLookup (update_value d key prop value) key = some ⟨pr, value⟩) ∧
    (dictContains d key = false → dictContains d (strTail key) = false →
      update_value d key prop value = d ++ [(key, ⟨prop, value⟩)]) := by
  have hne : strTail key ≠ key := strTail_ne hd
  constructor
  · intro hcl
    rw [update_value_rename_eq d key prop value hd hcl]
    obtain ⟨hckey, hccl⟩ := renamedDict_keys d key hne hcl
    simp only [hckey, if_true]
    have hkeysfix : ∀ kv ∈ renamedDict d (strTail key) key,
        ((if kv.1 = key then (kv.1, (⟨kv.2.prop, value⟩ : PageBy)) else kv)).1 = kv.1 := by
      intro kv _
      split <;> rfl
    refine ⟨?_, ?_, ?_⟩
    · rw [dictContains_map_keyfix hkeysfix]
      exact hckey
    · rw [dictContains_map_keyfix hkeysfix]
      exact hccl
    · rw [dictLookup_setval]
      obtain ⟨pb, hpb⟩ := Option.isSome_iff_exists.mp (dictLookup_isSome_of_contains hckey)
      exact ⟨pb.prop, by rw [hpb]; rfl⟩
  · intro hkey hcl
    unfold update_value
    rw [hd]
    simp only [if_true]
    rw [if_neg (show ¬(strTail key ≠ key ∧ dictContains d (strTail key) = true) from
      fun hc => by rw [hcl] at hc; exact Bool.false_ne_true hc.2)]
    rw [if_neg (show ¬(dictContains d key = true) from
      fun hc => by rw [hkey] at hc; exact Bool.false_ne_true hc)]
    rw [List.map_append, setval_of_not_contains hkey]
    simp

/-- C7, witness: `update_value` on `[("x", (1, 7))]` with key `-x`
renames to `-x` and stores the value; on the empty dict it appends a
fresh binding. -/
theorem C7_update_value_dash_rename_witness :
    (dictContains (update_value [("x", ⟨1, .int 7⟩)] "-x" 3 (.int 5)) "-x" = true ∧
      dictContains (update_value [("x", ⟨1, .int 7⟩)] "-x" 3 (.int 5)) "x" = false ∧
      ∃ pr, dictLookup (update_value [("x", ⟨1, .int 7⟩)] "-x" 3 (.int 5)) "-x" =
        some ⟨pr, .int 5⟩) ∧
    update_value [] "-x" 3 (.int 5) = [("-x", ⟨3, .int 5⟩)] := by
  constructor
  · have h := (C7_update_value_dash_rename [("x", ⟨1, .int 7⟩)] "-x" 3 (.int 5) (by decide)).1
      (by decide)
    simpa using h
  · have h := (C7_update_value_dash_rename [] "-x" 3 (.int 5) (by decide)).2
      (by decide) (by decide)
    simpa using h

/-- C10, counterexample: the claim says a dash rename keeps every other
binding (key, property, value, position) and only changes the renamed
binding's key.  But when the prefixed key is already present — cursor
`[("-x", (1, 1)), ("x", (2, 2))]` — the rename comprehension produces
the key `-x` twice and CPython dict semantics collapse the duplicates:
the original `-x` binding is lost and one binding remains out of two. -/
theorem C10_counterexample :
    update_value [("-x", ⟨1, .int 1⟩), ("x", ⟨2, .int 2⟩)] "-x" 3 (.int 5) =
      [("-x", ⟨2, .int 5⟩)] ∧
    ([("-x", (⟨1, .int 1⟩ : PageBy)), ("x", ⟨2, .int 2⟩)]).length = 2 := by
  decide

/-- C10, amended: provided the prefixed key is not yet a binding (and
keys are distinct, as a Python dict guarantees), the rename is
positional: every other binding keeps its key, property, value and
position, and the renamed binding stays at its position with its
property, the new key and the given value. -/
theorem C10_amended_rename_positional (d : List (String × PageBy)) (key : String) (prop : Nat)
    (value : Jv) (hd : startsDash key = true)
    (hcl : dictContains d (strTail key) = true)
    (hkey : dictContains d key = false)
    (hnd : (dictKeys d).Nodup) :
    update_value d key prop value =
      d.map (fun kv => if kv.1 = strTail key then (key, ⟨kv.2.prop, value⟩) else kv) := by
  have hne : strTail key ≠ key := strTail_ne hd
  have hkv_not_key : ∀ kv ∈ d, kv.1 ≠ key := by
    intro kv hkv habs
    have := dictContains_of_mem hkv
    rw [habs, hkey] at this
    exact Bool.false_ne_true this
  rw [update_value_rename_eq d key prop value hd hcl]
  have hmnd : (dictKeys (d.map (fun kv => (if kv.1 = strTail key then key else kv.1, kv.2)))).Nodup := by
    have hmk : dictKeys (d.map (fun kv => (if kv.1 = strTail key then key else kv.1, kv.2))) =
        (dictKeys d).map (fun x => if x = strTail key then key else x) := by
      simp only [dictKeys, List.map_map]
      rfl
    rw [hmk]
    refine List.Nodup.map_on ?_ hnd
    intro x hx y hy hxy
    have hxk : x ≠ key := by
      obtain ⟨kv, hkv, hk⟩ := dictContains_exists (dictContains_iff.mpr hx)
      exact hk ▸ hkv_not_key kv hkv
    have hyk : y ≠ key := by
      obtain ⟨kv, hkv, hk⟩ := dictContains_exists (dictContains_iff.mpr hy)
      exact hk ▸ hkv_not_key kv hkv
    by_cases h1 : x = strTail key <;> by_cases h2 : y = strTail key
    · rw [h1, h2]
    · rw [if_pos h1, if_neg h2] at hxy
      exact absurd hxy.symm hyk
    · rw [if_neg h1, if_pos h2] at hxy
      exact absurd hxy hxk
    · rw [if_neg h1, if_neg h2] at hxy
      exact hxy
  have hrd : renamedDict d (strTail key) key =
      d.map (fun kv => (if kv.1 = strTail key then key else kv.1, kv.2)) := by
    unfold renamedDict
    exact dictFromPairs_of_nodup hmnd
  obtain ⟨hckey, -⟩ := renamedDict_keys d key hne hcl
  rw [hrd] at hckey
  simp only [hrd, hckey, if_true, List.map_map]
  refine List.map_congr_left ?_
  intro kv hkv
  by_cases hc : kv.1 = strTail key
  · simp [Function.comp, hc]
  · simp [Function.comp, hc, hkv_not_key kv hkv]

/-- C10, witness for the amended theorem: renaming `y` to `-y` in a
two-binding cursor keeps the other binding and both positions. -/
theorem C10_amended_rename_positional_witness :
    update_value [("x", ⟨1, .int 1⟩), ("y", ⟨2, .int 2⟩)] "-y" 3 (.int 5) =
      [("x", ⟨1, .int 1⟩), ("-y", ⟨2, .int 5⟩)] := by
  have h := C10_amended_rename_positional [("x", ⟨1, .int 1⟩), ("y", ⟨2, .int 2⟩)] "-y" 3
    (.int 5) (by decide) (by decide) (by decide) (by decide)
  simpa using h

/-! ## The codec round-trip (towards claim C5) -/

theorem b64Val_b64Chr : ∀ n, n < 64 → b64Val (b64Chr n) = some n := by decide

theorem b64Chr_ne_61 : ∀ n, n < 64 → b64Chr n ≠ 61 := by decide

theorem b64enc_ne_nil (a : Nat) (bs : List Nat) : b64enc (a :: bs) ≠ [] := by
  match bs with
  | [] => simp [b64enc]
  | [b] => simp [b64enc]
  | b :: c :: rest => simp [b64enc]

theorem b64dec_four (c1 c2 c3 c4 : Nat) :
    b64dec [c1, c2, c3, c4] = b64decChunk c1 c2 c3 c4 := rfl

theorem b64decChunk_pad1 (x y : Nat) (hx : x < 64) (hy : y < 64) (h16 : y % 16 = 0) :
    b64decChunk (b64Chr x) (b64Chr y) 61 61 = some [x * 4 + y / 16] := by
  unfold b64decChunk
  rw [if_pos (show (61 : Nat) = 61 ∧ (61 : Nat) = 61 from ⟨rfl, rfl⟩)]
  rw [b64Val_b64Chr x hx, b64Val_b64Chr y hy]
  show (if y % 16 = 0 then some [x * 4 + y / 16] else none) = some [x * 4 + y / 16]
  rw [if_pos h16]

theorem b64decChunk_pad2 (x y z : Nat) (hx : x < 64) (hy : y < 64) (hz : z < 64)
    (h4 : z % 4 = 0) :
    b64decChunk (b64Chr x) (b64Chr y) (b64Chr z) 61 =
      some [x * 4 + y / 16, y % 16 * 16 + z / 4] := by
  unfold b64decChunk
  rw [if_neg (show ¬(b64Chr z = 61 ∧ (61 : Nat) = 61) from fun hc => b64Chr_ne_61 z hz hc.1)]
  rw [if_pos (show (61 : Nat) = 61 from rfl)]
  rw [b64Val_b64Chr x hx, b64Val_b64Chr y hy, b64Val_b64Chr z hz]
  show (if z % 4 = 0 then some [x * 4 + y / 16, y % 16 * 16 + z / 4] else none) = _
  rw [if_pos h4]

theorem b64decChunk_full (x y z w : Nat) (hx : x < 64) (hy : y < 64) (hz : z < 64)
    (hw : w < 64) :
    b64decChunk (b64Chr x) (b64Chr y) (b64Chr z) (b64Chr w) =
      some [x * 4 + y / 16, y % 16 * 16 + z / 4, z % 4 * 64 + w] := by
  unfold b64decChunk
  rw [if_neg (show ¬(b64Chr z = 61 ∧ b64Chr w = 61) from fun hc => b64Chr_ne_61 z hz hc.1)]
  rw [if_neg (b64Chr_ne_61 w hw)]
  rw [b64Val_b64Chr x hx, b64Val_b64Chr y hy, b64Val_b64Chr z hz, b64Val_b64Chr w hw]

theorem b64dec_b64enc : ∀ (bs : List Nat), (∀ x ∈ bs, x < 256) → b64dec (b64enc bs) = some bs
  | [], _ => by simp [b64enc, b64dec]
  | [a], h => by
    have ha : a < 256 := h a (by simp)
    rw [show b64enc [a] = [b64Chr (a / 4), b64Chr (a % 4 * 16), 61, 61] from rfl]
    rw [b64dec_four, b64decChunk_pad1 _ _ (by omega) (by omega) (by omega)]
    have : a / 4 * 4 + a % 4 * 16 / 16 = a := by omega
    rw [this]
  | [a, b], h => by
    have ha : a < 256 := h a (by simp)
    have hb : b < 256 := h b (by simp)
    rw [show b64enc [a, b] =
      [b64Chr (a / 4), b64Chr (a % 4 * 16 + b / 16), b64Chr (b % 16 * 4), 61] from rfl]
    rw [b64dec_four, b64decChunk_pad2 _ _ _ (by omega) (by omega) (by omega) (by omega)]
    have e1 : a / 4 * 4 + (a % 4 * 16 + b / 16) / 16 = a := by omega
    have e2 : (a % 4 * 16 + b / 16) % 16 * 16 + b % 16 * 4 / 4 = b := by omega
    rw [e1, e2]
  | [a, b, c], h => by
    have ha : a < 256 := h a (by simp)
    have hb : b < 256 := h b (by simp)
    have hc : c < 256 := h c (by simp)
    rw [show b64enc [a, b, c] =
      [b64Chr (a / 4), b64Chr (a % 4 * 16 + b / 16), b64Chr (b % 16 * 4 + c / 64),
        b64Chr (c % 64)] from by simp [b64enc]]
    rw [b64dec_four, b64decChunk_full _ _ _ _ (by omega) (by omega) (by omega) (by omega)]
    have e1 : a / 4 * 4 + (a % 4 * 16 + b / 16) / 16 = a := by omega
    have e2 : (a % 4 * 16 + b / 16) % 16 * 16 + (b % 16 * 4 + c / 64) / 4 = b := by omega
    have e3 : (b % 16 * 4 + c / 64) % 4 * 64 + c % 64 = c := by omega
    rw [e1, e2, e3]
  | a :: b :: c :: d :: rest, h => by
    have ha : a < 256 := h a (by simp)
    have hb : b < 256 := h b (by simp)
    have hc : c < 256 := h c (by simp)
    have ih := b64dec_b64enc (d :: rest) (fun x hx => h x (by simp [hx]))
    obtain ⟨e0, es, hes⟩ : ∃ e0 es, b64enc (d :: rest) = e0 :: es := by
      cases henc : b64enc (d :: rest) with
      | nil => exact absurd henc (b64enc_ne_nil d rest)
      | cons e0 es => exact ⟨e0, es, rfl⟩
    have henc : b64enc (a :: b :: c :: d :: rest) =
        b64Chr (a / 4) :: b64Chr (a % 4 * 16 + b / 16) :: b64Chr (b % 16 * 4 + c / 64) ::
          b64Chr (c % 64) :: b64enc (d :: rest) := by
      simp [b64enc]
    rw [henc, hes]
    rw [hes] at ih
    have hdec : b64dec (b64Chr (a / 4) :: b64Chr (a % 4 * 16 + b / 16) ::
        b64Chr (b % 16 * 4 + c / 64) :: b64Chr (c % 64) :: e0 :: es) =
        match b64Val (b64Chr (a / 4)), b64Val (b64Chr (a % 4 * 16 + b / 16)),
          b64Val (b64Chr (b % 16 * 4 + c / 64)), b64Val (b64Chr (c % 64)) with
        | some x, some y, some z, some w =>
          match b64dec (e0 :: es) with
          | some bs => some ([x * 4 + y / 16, y % 16 * 16 + z / 4, z % 4 * 64 + w] ++ bs)
          | none => none
        | _, _, _, _ => none := rfl
    rw [hdec]
    rw [b64Val_b64Chr _ (show a / 4 < 64 by omega),
      b64Val_b64Chr _ (show a % 4 * 16 + b / 16 < 64 by omega),
      b64Val_b64Chr _ (show b % 16 * 4 + c / 64 < 64 by omega),
      b64Val_b64Chr _ (show c % 64 < 64 by omega), ih]
    have e1 : a / 4 * 4 + (a % 4 * 16 + b / 16) / 16 = a := by omega
    have e2 : (a % 4 * 16 + b / 16) % 16 * 16 + (b % 16 * 4 + c / 64) / 4 = b := by omega
    have e3 : (b % 16 * 4 + c / 64) % 4 * 64 + c % 64 = c := by omega
    show some ([a / 4 * 4 + (a % 4 * 16 + b / 16) / 16,
      (a % 4 * 16 + b / 16) % 16 * 16 + (b % 16 * 4 + c / 64) / 4,
      (b % 16 * 4 + c / 64) % 4 * 64 + c % 64] ++ (d :: rest)) = some (a :: b :: c :: d :: rest)
    rw [e1, e2, e3]
    rfl

theorem hexVal_hexDig : ∀ d, d < 16 → hexVal (hexDig d) = some d := by decide

theorem parseHex4_hex4 (n : Nat) (hn : n < 65536) (r : List Nat) :
    parseHex4 (hex4 n ++ r) = some (n, r) := by
  have h3 := hexVal_hexDig (n / 4096) (by omega)
  have h2 := hexVal_hexDig (n / 256 % 16) (by omega)
  have h1 := hexVal_hexDig (n / 16 % 16) (by omega)
  have h0 := hexVal_hexDig (n % 16) (by omega)
  simp only [hex4, List.cons_append, List.nil_append, parseHex4, h3, h2, h1, h0]
  have : ((n / 4096 * 16 + n / 256 % 16) * 16 + n / 16 % 16) * 16 + n % 16 = n := by omega
  rw [this]

theorem parseU_single (n : Nat) (hn : n < 65536) (hns : ¬(55296 ≤ n ∧ n < 56320))
    (r : List Nat) : parseU (hex4 n ++ r) = some (n, r) := by
  simp only [parseU, parseHex4_hex4 n hn r]
  rw [if_neg hns]

theorem parseU_pair (n m : Nat) (hn : 55296 ≤ n ∧ n < 56320) (hm : 56320 ≤ m ∧ m < 57344)
    (r : List Nat) :
    parseU (hex4 n ++ (92 :: 117 :: (hex4 m ++ r))) =
      some (65536 + (n - 55296) * 1024 + (m - 56320), r) := by
  have h1 := parseHex4_hex4 n (by omega) (92 :: 117 :: (hex4 m ++ r))
  have h2 := parseHex4_hex4 m (by omega) r
  simp [parseU, h1, h2, hn.1, hn.2, hm.1, hm.2]

theorem parseOneChar_serChar (c : Nat) (hv : validCp c) (rest : List Nat) :
    parseOneChar (serChar c ++ rest) = some (some c, rest) := by
  obtain ⟨hlt, hsur⟩ := hv
  by_cases h34 : c = 34
  · subst h34; simp [serChar, parseOneChar, parseEsc]
  by_cases h92 : c = 92
  · subst h92; simp [serChar, parseOneChar, parseEsc]
  by_cases h8 : c = 8
  · subst h8; simp [serChar, parseOneChar, parseEsc]
  by_cases h9 : c = 9
  · subst h9; simp [serChar, parseOneChar, parseEsc]
  by_cases h10 : c = 10
  · subst h10; simp [serChar, parseOneChar, parseEsc]
  by_cases h12 : c = 12
  · subst h12; simp [serChar, parseOneChar, parseEsc]
  by_cases h13 : c = 13
  · subst h13; simp [serChar, parseOneChar, parseEsc]
  by_cases hpr : 32 ≤ c ∧ c ≤ 126
  · have hser : serChar c ++ rest = c :: rest := by
      simp [serChar, h34, h92, h8, h9, h10, h12, h13, hpr]
    rw [hser]
    simp [parseOneChar, h34, h92, show ¬c < 32 by omega]
  by_cases hbmp : c < 65536
  · have hser : serChar c ++ rest = 92 :: 117 :: (hex4 c ++ rest) := by
      simp [serChar, escU, h34, h92, h8, h9, h10, h12, h13, hpr, hbmp]
    rw [hser]
    have hu := parseU_single c hbmp (fun hc => hsur ⟨hc.1, by omega⟩) rest
    simp [parseOneChar, parseEsc, hu]
  · have hser : serChar c ++ rest =
        92 :: 117 :: (hex4 (55296 + (c - 65536) / 1024) ++
          (92 :: 117 :: (hex4 (56320 + (c - 65536) % 1024) ++ rest))) := by
      simp [serChar, escU, h34, h92, h8, h9, h10, h12, h13, hpr, hbmp, List.append_assoc]
    rw [hser]
    have hu := parseU_pair (55296 + (c - 65536) / 1024) (56320 + (c - 65536) % 1024)
      ⟨by omega, by omega⟩ ⟨by omega, by omega⟩ rest
    have harith : 65536 + (55296 + (c - 65536) / 1024 - 55296) * 1024 +
        (56320 + (c - 65536) % 1024 - 56320) = c := by omega
    rw [harith] at hu
    simp [parseOneChar, parseEsc, hu]

/-- The serialized body of a string parses back to the string, for any
fuel of at least one step per character plus the closing quote. -/
theorem parseStrF_ser (s : List Nat) (hv : ∀ c ∈ s, validCp c) (rest : List Nat) :
    ∀ fuel, s.length + 1 ≤ fuel →
      parseStrF fuel ((s.map serChar).flatten ++ (34 :: rest)) = some (s, rest) := by
  induction s with
  | nil =>
    intro fuel hf
    obtain ⟨f, rfl⟩ : ∃ f, fuel = f + 1 := ⟨fuel - 1, by omega⟩
    simp [parseStrF, parseOneChar]
  | cons c cs ih =>
    intro fuel hf
    obtain ⟨f, rfl⟩ : ∃ f, fuel = f + 1 := ⟨fuel - 1, by omega⟩
    have hone := parseOneChar_serChar c (hv c (by simp)) ((cs.map serChar).flatten ++ (34 :: rest))
    have hih := ih (fun x hx => hv x (by simp [hx])) f (by simpa using hf)
    simp only [List.map_cons, List.flatten_cons, List.append_assoc, parseStrF, hone, hih]

theorem natDigsF_congr : ∀ f1 f2 n, n ≤ f1 → n ≤ f2 → natDigsF f1 n = natDigsF f2 n := by
  intro f1
  induction f1 with
  | zero =>
    intro f2 n h1 h2
    have : n = 0 := by omega
    subst this
    cases f2 with
    | zero => rfl
    | succ g => simp [natDigsF]
  | succ f ih =>
    intro f2 n h1 h2
    by_cases hn : n < 10
    · cases f2 with
      | zero =>
        have : n = 0 := by omega
        subst this
        simp [natDigsF]
      | succ g => simp [natDigsF, hn]
    · cases f2 with
      | zero => omega
      | succ g =>
        simp only [natDigsF, if_neg hn]
        rw [ih g (n / 10) (by omega) (by omega)]

/-- The defining recursion of `natDigs`. -/
theorem natDigs_eq (n : Nat) :
    natDigs n = if n < 10 then [48 + n] else natDigs (n / 10) ++ [48 + n % 10] := by
  unfold natDigs
  by_cases hn : n < 10
  · cases n with
    | zero => simp [natDigsF]
    | succ m => simp [natDigsF, hn]
  · obtain ⟨m, rfl⟩ : ∃ m, n = m + 1 := ⟨n - 1, by omega⟩
    simp only [natDigsF, if_neg hn]
    rw [natDigsF_congr m ((m + 1) / 10) ((m + 1) / 10) (by omega) (by omega)]

/-- Every serialized digit is an ASCII digit, and there is at least
one. -/
theorem natDigs_spec (n : Nat) : natDigs n ≠ [] ∧ ∀ c ∈ natDigs n, 48 ≤ c ∧ c ≤ 57 := by
  induction n using Nat.strong_induction_on with
  | _ n ih =>
    rw [natDigs_eq]
    by_cases hn : n < 10
    · simp [hn]
      omega
    · simp only [if_neg hn]
      have := ih (n / 10) (by omega)
      refine ⟨by simp, ?_⟩
      intro c hc
      rcases List.mem_append.mp hc with h | h
      · exact this.2 c h
      · simp at h
        omega

theorem natDigs_head_digit (n : Nat) :
    ∃ c cs, natDigs n = c :: cs ∧ isDigit c = true := by
  obtain ⟨hne, hall⟩ := natDigs_spec n
  cases hd : natDigs n with
  | nil => exact absurd hd hne
  | cons c cs =>
    refine ⟨c, cs, rfl, ?_⟩
    have := hall c (by rw [hd]; simp)
    simp only [isDigit, decide_eq_true_eq]
    omega

theorem parseDigitsAux_stop (acc : Nat) (r : List Nat)
    (hr : noDigitHead r = true) : parseDigitsAux acc r = (acc, r) := by
  cases r with
  | nil => rfl
  | cons d rs =>
    simp only [noDigitHead, Bool.not_eq_true'] at hr
    simp only [parseDigitsAux]
    rw [if_neg (by simp [hr])]

theorem parseDigitsAux_digs :
    ∀ n acc r, parseDigitsAux acc (natDigs n ++ r) =
      parseDigitsAux (acc * 10 ^ (natDigs n).length + n) r := by
  intro n
  induction n using Nat.strong_induction_on with
  | _ n ih =>
    intro acc r
    by_cases hn : n < 10
    · rw [natDigs_eq, if_pos hn]
      simp only [List.cons_append, List.nil_append, parseDigitsAux]
      rw [if_pos (by simp only [isDigit, decide_eq_true_eq]; omega)]
      have h1 : acc * 10 + (48 + n - 48) = acc * 10 ^ ([48 + n] : List Nat).length + n := by
        simp
      rw [h1]
      rfl
    · rw [natDigs_eq, if_neg hn]
      rw [List.append_assoc, List.cons_append, List.nil_append]
      rw [ih (n / 10) (by omega) acc ((48 + n % 10) :: r)]
      simp only [parseDigitsAux]
      rw [if_pos (by simp only [isDigit, decide_eq_true_eq]; omega)]
      have h1 : (acc * 10 ^ (natDigs (n / 10)).length + n / 10) * 10 + (48 + n % 10 - 48) =
          acc * 10 ^ (natDigs (n / 10) ++ [48 + n % 10] : List Nat).length + n := by
        simp [List.length_append]
        ring_nf
        omega
      rw [h1]

theorem parseNum_serInt (i : Int) (r : List Nat) (hr : numTailOk r = true)
    (hd : noDigitHead r = true) :
    parseNum (serInt i ++ r) = some (i, r) := by
  unfold serInt
  by_cases hineg : i < 0
  · rw [if_pos hineg]
    obtain ⟨c, cs, hcd, hcdig⟩ := natDigs_head_digit i.natAbs
    have hpd : parseDigitsAux 0 (natDigs i.natAbs ++ r) = (i.natAbs, r) := by
      rw [parseDigitsAux_digs, parseDigitsAux_stop _ _ hd]
      simp
    rw [List.cons_append, hcd, List.cons_append]
    simp only [parseNum, if_true, hcdig]
    rw [show c :: (cs ++ r) = natDigs i.natAbs ++ r from by rw [hcd, List.cons_append]]
    rw [hpd, hr]
    simp only [if_true]
    have hval : -((i.natAbs : Nat) : Int) = i := by omega
    rw [hval]
  · rw [if_neg hineg]
    obtain ⟨c, cs, hcd, hcdig⟩ := natDigs_head_digit i.toNat
    have hc45 : ¬c = 45 := by
      simp only [isDigit, decide_eq_true_eq] at hcdig
      omega
    have hpd : parseDigitsAux 0 (natDigs i.toNat ++ r) = (i.toNat, r) := by
      rw [parseDigitsAux_digs, parseDigitsAux_stop _ _ hd]
      simp
    rw [hcd, List.cons_append]
    simp only [parseNum, hc45, if_false, hcdig, if_true]
    rw [show c :: (cs ++ r) = natDigs i.toNat ++ r from by rw [hcd, List.cons_append]]
    rw [hpd, hr]
    simp only [if_true]
    have hval : ((i.toNat : Nat) : Int) = i := by omega
    rw [hval]

theorem dropLit_append (xs r : List Nat) : dropLit xs (xs ++ r) = some r := by
  induction xs with
  | nil => rfl
  | cons x xt ih => simp [dropLit, ih]

theorem dropLit_ne_head (x y : Nat) (xs ys : List Nat) (h : ¬x = y) :
    dropLit (x :: xs) (y :: ys) = none := by
  simp [dropLit, h]

theorem serChar_ne_nil (c : Nat) : serChar c ≠ [] := by
  unfold serChar escU hex4
  (repeat' split) <;> simp

theorem flatten_serChar_len (s : List Nat) : s.length ≤ ((s.map serChar).flatten).length := by
  induction s with
  | nil => simp
  | cons c cs ih =>
    simp only [List.map_cons, List.flatten_cons, List.length_append, List.length_cons]
    have : 0 < (serChar c).length := List.length_pos.mpr (serChar_ne_nil c)
    omega

theorem parseScalar_ser (v : Jv) (hv : validJv v) (r : List Nat)
    (hr : numTailOk r = true) (hd : noDigitHead r = true) :
    parseScalar (serJv v ++ r) = some (v, r) := by
  cases v with
  | null => simp [serJv, parseScalar, dropLit]
  | bool b => cases b <;> simp [serJv, parseScalar, dropLit]
  | int i =>
    obtain ⟨c, cs, hcd, hcc⟩ : ∃ c cs, serInt i = c :: cs ∧ (c = 45 ∨ isDigit c = true) := by
      unfold serInt
      by_cases hineg : i < 0
      · rw [if_pos hineg]
        exact ⟨45, natDigs i.natAbs, rfl, Or.inl rfl⟩
      · rw [if_neg hineg]
        obtain ⟨c, cs, hcd2, hdig⟩ := natDigs_head_digit i.toNat
        exact ⟨c, cs, hcd2, Or.inr hdig⟩
    have hcrange : c = 45 ∨ (48 ≤ c ∧ c ≤ 57) := by
      rcases hcc with h | h
      · exact Or.inl h
      · simp only [isDigit, decide_eq_true_eq] at h
        exact Or.inr h
    have h34 : ¬c = 34 := by rcases hcrange with h | h <;> omega
    have h110 : ¬(110 = c) := by rcases hcrange with h | h <;> omega
    have h116 : ¬(116 = c) := by rcases hcrange with h | h <;> omega
    have h102 : ¬(102 = c) := by rcases hcrange with h | h <;> omega
    have hnum : parseNum (c :: (cs ++ r)) = some (i, r) := by
      rw [← List.cons_append, ← hcd]
      exact parseNum_serInt i r hr hd
    show parseScalar (serInt i ++ r) = some (.int i, r)
    rw [hcd, List.cons_append]
    simp only [parseScalar, dropLit_ne_head 110 c [117, 108, 108] (cs ++ r) h110,
      dropLit_ne_head 116 c [114, 117, 101] (cs ++ r) h116,
      dropLit_ne_head 102 c [97, 108, 115, 101] (cs ++ r) h102, hnum, h34, if_false,
      Option.map_some']
  | str s =>
    show parseScalar ((34 :: ((s.map serChar).flatten ++ [34])) ++ r) = some (.str s, r)
    rw [List.cons_append, List.append_assoc]
    have h34r : ([34] : List Nat) ++ r = 34 :: r := rfl
    rw [h34r]
    simp only [parseScalar, if_pos rfl]
    have hlen : s.length + 1 ≤ ((s.map serChar).flatten ++ (34 :: r)).length + 1 := by
      have := flatten_serChar_len s
      simp only [List.length_append, List.length_cons]
      omega
    rw [parseStrF_ser s hv r _ hlen]
    rfl


theorem serJv_head (v : Jv) : ∃ c cs, serJv v = c :: cs ∧
    (c = 34 ∨ c = 110 ∨ c = 116 ∨ c = 102 ∨ c = 45 ∨ (48 ≤ c ∧ c ≤ 57)) := by
  cases v with
  | null => exact ⟨110, [117, 108, 108], rfl, by omega⟩
  | bool b =>
    cases b with
    | false => exact ⟨102, [97, 108, 115, 101], rfl, by omega⟩
    | true => exact ⟨116, [114, 117, 101], rfl, by omega⟩
  | int i =>
    show ∃ c cs, serInt i = c :: cs ∧ _
    unfold serInt
    by_cases hineg : i < 0
    · rw [if_pos hineg]
      exact ⟨45, natDigs i.natAbs, rfl, by omega⟩
    · rw [if_neg hineg]
      obtain ⟨c, cs, hcd, hdig⟩ := natDigs_head_digit i.toNat
      refine ⟨c, cs, hcd, ?_⟩
      simp only [isDigit, decide_eq_true_eq] at hdig
      omega
  | str s =>
    refine ⟨34, (s.map serChar).flatten ++ [34], ?_, by omega⟩
    simp [serJv]

theorem serElems_cons (v : Jv) (vs : List Jv) : ∃ c cs, serElems (v :: vs) = c :: cs ∧
    (c = 34 ∨ c = 110 ∨ c = 116 ∨ c = 102 ∨ c = 45 ∨ (48 ≤ c ∧ c ≤ 57)) := by
  obtain ⟨c, cs, hcd, hgood⟩ := serJv_head v
  cases vs with
  | nil => exact ⟨c, cs, by simp [serElems, hcd], hgood⟩
  | cons w ws =>
    exact ⟨c, cs ++ ([44, 32] ++ serElems (w :: ws)), by simp [serElems, hcd], hgood⟩

theorem skipWs_cons_not_ws (c : Nat) (r : List Nat)
    (h : ¬(c = 32 ∨ c = 9 ∨ c = 10 ∨ c = 13)) : skipWs (c :: r) = c :: r := by
  simp [skipWs, h]

theorem skipWs_cons_32 (r : List Nat) : skipWs (32 :: r) = skipWs r := by
  simp [skipWs]

theorem serElems_len : ∀ vs : List Jv, vs.length ≤ (serElems vs).length := by
  intro vs
  induction vs with
  | nil => simp [serElems]
  | cons v rest ih =>
    obtain ⟨c, cs, hcd, -⟩ := serJv_head v
    cases rest with
    | nil => simp [serElems, hcd]
    | cons w ws =>
      have : serElems (v :: w :: ws) = serJv v ++ [44, 32] ++ serElems (w :: ws) := rfl
      rw [this]
      simp only [List.length_cons, List.length_append, hcd]
      simp only [List.length_cons] at ih ⊢
      omega

theorem parseElemsAux_ser :
    ∀ (vs : List Jv) (v : Jv), (∀ x ∈ v :: vs, validJv x) → ∀ (r : List Nat) (fuel : Nat),
      vs.length + 1 ≤ fuel →
      parseElemsAux fuel (serElems (v :: vs) ++ (93 :: r)) = some (v :: vs, r) := by
  intro vs
  induction vs with
  | nil =>
    intro v hv r fuel hf
    obtain ⟨f, rfl⟩ : ∃ f, fuel = f + 1 := ⟨fuel - 1, by omega⟩
    have hsc := parseScalar_ser v (hv v (by simp)) (93 :: r)
      (by simp [numTailOk]) (by simp [noDigitHead, isDigit])
    have hone : serElems [v] ++ (93 :: r) = serJv v ++ (93 :: r) := by simp [serElems]
    rw [hone]
    simp only [parseElemsAux, hsc]
    rw [skipWs_cons_not_ws 93 r (by omega)]
    simp
  | cons w ws ih =>
    intro v hv r fuel hf
    obtain ⟨f, rfl⟩ : ∃ f, fuel = f + 1 := ⟨fuel - 1, by omega⟩
    have hsc := parseScalar_ser v (hv v (by simp))
      (44 :: 32 :: (serElems (w :: ws) ++ (93 :: r)))
      (by simp [numTailOk]) (by simp [noDigitHead, isDigit])
    have hassoc : serElems (v :: w :: ws) ++ (93 :: r) =
        serJv v ++ (44 :: 32 :: (serElems (w :: ws) ++ (93 :: r))) := by
      show (serJv v ++ [44, 32] ++ serElems (w :: ws)) ++ (93 :: r) = _
      simp [List.append_assoc]
    rw [hassoc]
    simp only [parseElemsAux, hsc]
    rw [skipWs_cons_not_ws 44 _ (by omega)]
    have h4493 : ¬(44 : Nat) = 93 := by omega
    have hskip : skipWs (32 :: (serElems (w :: ws) ++ (93 :: r))) =
        serElems (w :: ws) ++ (93 :: r) := by
      rw [skipWs_cons_32]
      obtain ⟨c, cs, hcd, hgood⟩ := serElems_cons w ws
      rw [hcd, List.cons_append, skipWs_cons_not_ws c _ (by rcases hgood with h|h|h|h|h|h <;> omega)]
    have ihw := ih w (fun x hx => hv x (by simp at hx ⊢; tauto)) r f (by simpa using hf)
    simp only [h4493, if_false, if_true, eq_self_iff_true, hskip, ihw]

theorem json_loads_serList (vs : List Jv) (hv : ∀ x ∈ vs, validJv x) :
    json_loads_scalars (serList vs) = some vs := by
  cases vs with
  | nil => decide
  | cons v vs' =>
    unfold json_loads_scalars serList
    rw [List.cons_append, skipWs_cons_not_ws 91 _ (by omega)]
    simp only [parseArr, if_pos rfl]
    obtain ⟨c, cs, hcd, hgood⟩ := serElems_cons v vs'
    have hskip : skipWs (serElems (v :: vs') ++ [93]) = serElems (v :: vs') ++ [93] := by
      rw [hcd, List.cons_append,
        skipWs_cons_not_ws c _ (by rcases hgood with h|h|h|h|h|h <;> omega)]
    rw [hskip]
    rw [hcd, List.cons_append]
    simp only [if_true, if_neg (show ¬c = 93 from by rcases hgood with h|h|h|h|h|h <;> omega)]
    rw [← List.cons_append, ← hcd]
    have hlen : vs'.length + 1 ≤ (serElems (v :: vs') ++ ([93] : List Nat)).length + 1 := by
      have := serElems_len (v :: vs')
      simp only [List.length_append, List.length_cons] at this ⊢
      omega
    have := parseElemsAux_ser vs' v hv [] _ hlen
    simp only [List.append_nil] at this
    rw [show serElems (v :: vs') ++ ([93] : List Nat) = serElems (v :: vs') ++ (93 :: []) from rfl]
    rw [this]
    simp [skipWs]

theorem hexDig_lt (d : Nat) (h : d < 16) : hexDig d < 256 := by
  unfold hexDig
  split <;> omega

theorem escU_lt (n : Nat) (hn : n < 65536) : ∀ x ∈ escU n, x < 256 := by
  intro x hx
  simp only [escU, hex4, List.mem_cons, List.mem_singleton, List.not_mem_nil] at hx
  rcases hx with rfl | rfl | rfl | rfl | rfl | rfl | h
  · omega
  · omega
  · exact hexDig_lt _ (by omega)
  · exact hexDig_lt _ (by omega)
  · exact hexDig_lt _ (by omega)
  · exact hexDig_lt _ (by omega)
  · simp at h

theorem serChar_lt (c : Nat) (hv : validCp c) (x : Nat) (hx : x ∈ serChar c) : x < 256 := by
  obtain ⟨hlt, -⟩ := hv
  unfold serChar at hx
  split at hx
  · simp at hx; omega
  · split at hx
    · simp at hx; omega
    · split at hx
      · simp at hx; omega
      · split at hx
        · simp at hx; omega
        · split at hx
          · simp at hx; omega
          · split at hx
            · simp at hx; omega
            · split at hx
              · simp at hx; omega
              · split at hx
                · simp at hx; omega
                · split at hx
                  · exact escU_lt c (by omega) x hx
                  · rcases List.mem_append.mp hx with h | h
                    · exact escU_lt _ (by omega) x h
                    · exact escU_lt _ (by omega) x h

theorem serJv_lt (v : Jv) (hv : validJv v) (x : Nat) (hx : x ∈ serJv v) : x < 256 := by
  cases v with
  | null => simp [serJv] at hx; omega
  | bool b => cases b <;> simp [serJv] at hx <;> omega
  | int i =>
    have hdig := (natDigs_spec i.natAbs).2
    have hdig2 := (natDigs_spec i.toNat).2
    simp only [serJv, serInt] at hx
    split at hx
    · simp only [List.mem_cons] at hx
      rcases hx with rfl | h
      · omega
      · have := hdig x h; omega
    · have := hdig2 x hx; omega
  | str s =>
    simp only [serJv, List.cons_append, List.mem_cons, List.mem_append,
      List.mem_singleton] at hx
    rcases hx with rfl | h | rfl | h
    · omega
    · obtain ⟨l, hl, hxl⟩ := List.mem_flatten.mp h
      obtain ⟨ch, hch, rfl⟩ := List.mem_map.mp hl
      exact serChar_lt ch (hv ch hch) x hxl
    · omega
    · simp at h

theorem serElems_lt : ∀ (vs : List Jv), (∀ v ∈ vs, validJv v) →
    ∀ x ∈ serElems vs, x < 256 := by
  intro vs
  induction vs with
  | nil => intro _ x hx; simp [serElems] at hx
  | cons v rest ih =>
    intro hv x hx
    cases rest with
    | nil =>
      have : serElems [v] = serJv v := rfl
      rw [this] at hx
      exact serJv_lt v (hv v (by simp)) x hx
    | cons w ws =>
      have : serElems (v :: w :: ws) = serJv v ++ [44, 32] ++ serElems (w :: ws) := rfl
      rw [this] at hx
      rcases List.mem_append.mp hx with h | h
      · rcases List.mem_append.mp h with h2 | h2
        · exact serJv_lt v (hv v (by simp)) x h2
        · simp at h2; omega
      · exact ih (fun u hu => hv u (by simp at hu ⊢; tauto)) x h

theorem serList_lt (vs : List Jv) (hv : ∀ v ∈ vs, validJv v) :
    ∀ x ∈ serList vs, x < 256 := by
  intro x hx
  simp only [serList, List.cons_append, List.mem_cons, List.mem_append,
    List.mem_singleton] at hx
  rcases hx with rfl | h | rfl | h
  · omega
  · exact serElems_lt vs hv x h
  · omega
  · simp at h

/-- The cursor token codec round-trips: decoding the encoding of any
list of JSON-serializable scalars gives back exactly that list. -/
theorem decode_encode_page_values (vs : List Jv) (hv : ∀ v ∈ vs, validJv v) :
    decode_page_values (encode_page_values vs) = some vs := by
  unfold decode_page_values encode_page_values
  rw [b64dec_b64enc (serList vs) (serList_lt vs hv)]
  exact json_loads_serList vs hv


/-! ## Claim C5: loadFromToken round-trip assignment -/

/-- One loader step on a binding key that is present, not renameable and
unique: only that binding's value changes. -/
theorem update_value_step (pre e : List (String × PageBy)) (y : String × PageBy)
    (prop : Nat) (v : Jv)
    (hpre : dictContains pre y.1 = false)
    (he : dictContains e y.1 = false)
    (hnodash : startsDash y.1 = true → dictContains (pre ++ y :: e) (strTail y.1) = false) :
    update_value (pre ++ y :: e) y.1 prop v = pre ++ (y.1, ⟨y.2.prop, v⟩) :: e := by
  have hcont : dictContains (pre ++ y :: e) y.1 = true := by
    rw [dictContains_append]
    have : dictContains (y :: e) y.1 = true := by
      simp [dictContains]
    rw [this]
    simp
  have hsetval :
      (pre ++ y :: e).map
        (fun kv => if kv.1 = y.1 then (kv.1, (⟨kv.2.prop, v⟩ : PageBy)) else kv) =
      pre ++ (y.1, ⟨y.2.prop, v⟩) :: e := by
    rw [List.map_append, setval_of_not_contains hpre, List.map_cons, if_pos rfl,
      setval_of_not_contains he]
  unfold update_value
  by_cases hdash : startsDash y.1
  · rw [hdash]
    simp only [if_true]
    rw [if_neg (show ¬(strTail y.1 ≠ y.1 ∧ dictContains (pre ++ y :: e) (strTail y.1) = true)
      from fun hc => by rw [hnodash hdash] at hc; exact Bool.false_ne_true hc.2)]
    rw [if_pos hcont]
    exact hsetval
  · rw [Bool.not_eq_true] at hdash
    rw [hdash]
    simp only [Bool.false_eq_true, if_false]
    rw [if_neg (show ¬(y.1 ≠ y.1 ∧ dictContains (pre ++ y :: e) y.1 = true)
      from fun hc => hc.1 rfl)]
    rw [if_pos hcont]
    exact hsetval

/-- The loaders' fold over a snapshot of the bindings assigns values
positionally when keys are distinct and dash-collision-free. -/
theorem fold_update_aux :
    ∀ (d' : List (String × PageBy)) (vs' : List Jv) (pre e' : List (String × PageBy)),
      vs'.length = d'.length →
      dictKeys e' = dictKeys d' →
      (dictKeys pre ++ dictKeys d').Nodup →
      (∀ k ∈ dictKeys d', startsDash k = true →
        strTail k ∉ dictKeys pre ++ dictKeys d') →
      (d'.zip vs').foldl (fun acc x => update_value acc x.1.1 x.1.2.prop x.2) (pre ++ e') =
        pre ++ (e'.zip vs').map (fun x => (x.1.1, ⟨x.1.2.prop, x.2⟩)) := by
  intro d'
  induction d' with
  | nil =>
    intro vs' pre e' hlen hkeys hnd hdash
    have he : e' = [] := by
      cases e' with
      | nil => rfl
      | cons a b => simp [dictKeys] at hkeys
    subst he
    simp
  | cons x rest ih =>
    intro vs' pre e' hlen hkeys hnd hdash
    obtain ⟨v, vrest, rfl⟩ : ∃ v vrest, vs' = v :: vrest := by
      cases vs' with
      | nil => simp at hlen
      | cons v vrest => exact ⟨v, vrest, rfl⟩
    obtain ⟨y, erest, rfl⟩ : ∃ y erest, e' = y :: erest := by
      cases e' with
      | nil => simp [dictKeys] at hkeys
      | cons y erest => exact ⟨y, erest, rfl⟩
    have hyx : y.1 = x.1 := by
      simp only [dictKeys, List.map_cons, List.cons.injEq] at hkeys
      exact hkeys.1
    have hkeys' : dictKeys erest = dictKeys rest := by
      simp only [dictKeys, List.map_cons, List.cons.injEq] at hkeys
      exact hkeys.2
    have hndflat : (dictKeys pre ++ x.1 :: dictKeys rest).Nodup := by
      simpa [dictKeys] using hnd
    have hpre : dictContains pre y.1 = false := by
      refine dictContains_false_of_all ?_
      intro kv hkv habs
      have hmem : y.1 ∈ dictKeys pre := by
        rw [← habs]
        exact List.mem_map.mpr ⟨kv, hkv, rfl⟩
      rw [hyx] at hmem
      have := (List.nodup_append.mp hndflat).2.2
      exact this hmem (by simp)
    have he : dictContains erest y.1 = false := by
      refine dictContains_false_of_all ?_
      intro kv hkv habs
      have hmem : y.1 ∈ dictKeys erest := by
        rw [← habs]
        exact List.mem_map.mpr ⟨kv, hkv, rfl⟩
      rw [hkeys', hyx] at hmem
      have hx1 : x.1 ∉ dictKeys rest := by
        have := (List.nodup_append.mp hndflat).2.1
        exact (List.nodup_cons.mp this).1
      exact hx1 hmem
    have hstep : update_value (pre ++ y :: erest) x.1 x.2.prop v =
        pre ++ (y.1, ⟨y.2.prop, v⟩) :: erest := by
      rw [← hyx]
      refine update_value_step pre erest y x.2.prop v hpre he ?_
      intro hd
      refine dictContains_false_of_all ?_
      intro kv hkv habs
      have hxin : x.1 ∈ dictKeys (x :: rest) := by simp [dictKeys]
      have hforb := hdash x.1 hxin (by rw [← hyx]; exact hd)
      rw [hyx] at habs
      have hmem : strTail x.1 ∈ dictKeys pre ++ dictKeys (x :: rest) := by
        rcases List.mem_append.mp hkv with h | h
        · refine List.mem_append.mpr (Or.inl ?_)
          rw [← habs]
          exact List.mem_map.mpr ⟨kv, h, rfl⟩
        · refine List.mem_append.mpr (Or.inr ?_)
          rcases List.mem_cons.mp h with h2 | h2
          · subst h2
            simp [dictKeys, ← habs, hyx]
          · have : strTail x.1 ∈ dictKeys erest := by
              rw [← habs]
              exact List.mem_map.mpr ⟨kv, h2, rfl⟩
            rw [hkeys'] at this
            simp [dictKeys]
            right
            simpa [dictKeys] using this
      exact hforb hmem
    show ((x, v) :: rest.zip vrest).foldl
        (fun acc x => update_value acc x.1.1 x.1.2.prop x.2) (pre ++ y :: erest) = _
    rw [List.foldl_cons]
    show (rest.zip vrest).foldl (fun acc x => update_value acc x.1.1 x.1.2.prop x.2)
        (update_value (pre ++ y :: erest) x.1 x.2.prop v) = _
    rw [hstep]
    have happ : pre ++ (y.1, (⟨y.2.prop, v⟩ : PageBy)) :: erest =
        (pre ++ [(y.1, ⟨y.2.prop, v⟩)]) ++ erest := by simp
    rw [happ]
    have hk2 : dictKeys (pre ++ [(y.1, (⟨y.2.prop, v⟩ : PageBy))]) ++ dictKeys rest =
        dictKeys pre ++ x.1 :: dictKeys rest := by
      simp [dictKeys, hyx]
    have ihs := ih vrest (pre ++ [(y.1, (⟨y.2.prop, v⟩ : PageBy))]) erest
      (by simpa using hlen) hkeys' (by rw [hk2]; exact hndflat)
      (by
        intro k hk hkd
        rw [hk2]
        refine fun hmem => hdash k ?_ hkd ?_
        · simp only [dictKeys, List.map_cons, List.mem_cons]
          right
          exact hk
        · simpa [dictKeys] using hmem)
    rw [ihs]
    simp [hyx]

/-- C5, counterexample: the claim says that for every value list whose
length equals the binding count, loading the encoded token leaves
binding `i` holding `values[i]`.  On a cursor holding both `x` and `-x`
the loader's rename collapses the two bindings: two values go in, one
binding comes out, and it holds `values[1]`, not `values[0]`. -/
theorem C5_counterexample :
    (update_values_from_page_key ⟨[("x", ⟨1, .null⟩), ("-x", ⟨2, .null⟩)], none⟩
        (encode_page_values [.int 1, .int 2])).1.by_ = [("-x", ⟨2, .int 2⟩)] ∧
    ([("x", (⟨1, Jv.null⟩ : PageBy)), ("-x", ⟨2, .null⟩)]).length = 2 := by
  decide

/-- C5, amended: for every cursor whose binding keys are distinct and
none of which is the `-`-prefixed form of another, and every list of
JSON-serializable scalars of matching length, loading the base64url/JSON
encoded token succeeds and leaves exactly the same bindings, in order,
with binding `i` holding `values[i]` (decode of encode round-trips). -/
theorem C5_amended_roundtrip_assign (p : Page) (vs : List Jv)
    (hval : ∀ v ∈ vs, validJv v)
    (hlen : vs.length = p.by_.length)
    (hnd : (dictKeys p.by_).Nodup)
    (hdash : ∀ k ∈ dictKeys p.by_, startsDash k = true → strTail k ∉ dictKeys p.by_) :
    update_values_from_page_key p (encode_page_values vs) =
      (⟨(p.by_.zip vs).map (fun x => (x.1.1, ⟨x.1.2.prop, x.2⟩)), p.size⟩, none) := by
  unfold update_values_from_page_key
  simp only [decode_encode_page_values vs hval]
  rw [if_neg (show ¬vs.length ≠ p.by_.length from fun hc => hc hlen)]
  have hfold := fold_update_aux p.by_ vs [] p.by_ hlen rfl (by simpa using hnd)
    (by
      intro k hk hkd hmem
      rw [show dictKeys ([] : List (String × PageBy)) ++ dictKeys p.by_ = dictKeys p.by_
        from by simp [dictKeys]] at hmem
      exact hdash k hk hkd hmem)
  simp only [List.nil_append] at hfold
  rw [hfold]

/-- C5, witness: a two-binding cursor (`id`, `-name`) loaded from the
token encoding `[10, "foo"]` ends with `id = 10` and `-name = "foo"`. -/
theorem C5_amended_roundtrip_assign_witness :
    update_values_from_page_key ⟨[("id", ⟨1, .null⟩), ("-name", ⟨2, .null⟩)], none⟩
        (encode_page_values [.int 10, .str [102, 111, 111]]) =
      (⟨[("id", ⟨1, .int 10⟩), ("-name", ⟨2, .str [102, 111, 111]⟩)], none⟩, none) := by
  have h := C5_amended_roundtrip_assign ⟨[("id", ⟨1, .null⟩), ("-name", ⟨2, .null⟩)], none⟩
    [.int 10, .str [102, 111, 111]] (by decide) (by decide) (by decide) (by decide)
  simpa using h



/-! ## Context lemmas: the scans against the index-addressed spec view -/

section DictLemmas3

variable {α : Type u} {β : Type v} [DecidableEq α]

theorem dictContains_eq_isSome (d : List (α × β)) (k : α) :
    dictContains d k = (dictLookup d k).isSome := by
  induction d with
  | nil => rfl
  | cons x xs ih =>
    by_cases hx : x.1 = k
    · simp [dictContains, dictLookup, hx]
    · simp only [dictContains, dictLookup, List.any_cons, if_neg hx]
      rw [← ih]
      simp [dictContains, hx]

theorem dictLookup_none_of_not_contains {d : List (α × β)} {k : α}
    (h : dictContains d k = false) : dictLookup d k = none := by
  rw [dictContains_eq_isSome] at h
  cases hl : dictLookup d k with
  | none => rfl
  | some v => rw [hl] at h; simp at h

theorem dictLookup_some_of_contains {d : List (α × β)} {k : α}
    (h : dictContains d k = true) : ∃ v, dictLookup d k = some v := by
  obtain ⟨v, hv⟩ := Option.isSome_iff_exists.mp (dictLookup_isSome_of_contains h)
  exact ⟨v, hv⟩

theorem dictLookup_filter_keyPred (d : List (α × β)) (q : α → Bool) (k : α) :
    dictLookup (d.filter (fun kv => q kv.1)) k =
      if q k then dictLookup d k else none := by
  induction d with
  | nil => simp [dictLookup]
  | cons x xs ih =>
    by_cases hqx : q x.1
    · by_cases hx : x.1 = k
      · subst hx
        simp [List.filter_cons, hqx, dictLookup, ih]
      · simp [List.filter_cons, hqx, dictLookup, hx, ih]
    · rw [Bool.not_eq_true] at hqx
      by_cases hx : x.1 = k
      · subst hx
        simp only [List.filter_cons, hqx, Bool.false_eq_true, if_false, ih, hqx]
      · simp only [List.filter_cons, hqx, Bool.false_eq_true, if_false, ih, dictLookup, if_neg hx]

end DictLemmas3

/-- The factory scan, characterized through the index-addressed view the
spec describes: find the first frame holding a registration, reuse its
cached value or invoke and cache at that frame. -/
theorem scanFactory_spec {V : Type u} (fenv : Nat → V) (n : String) :
    ∀ fs : List (Frame V),
      scanFactory fenv n fs =
        match findFrameIdx Frame.factory n fs with
        | none => none
        | some i =>
          match fs.get? i with
          | none => none
          | some f =>
            match dictLookup f.factory n with
            | none => none
            | some id =>
              match dictLookup f.context n with
              | some v => some (v, fs, [], i)
              | none =>
                some (fenv id,
                  modifyAt fs i (fun g => { g with context := dictInsert g.context n (fenv id) }),
                  [.invoke id], i) := by
  intro fs
  induction fs with
  | nil => rfl
  | cons f rest ih =>
    by_cases hcont : dictContains f.factory n
    · obtain ⟨id, hid⟩ := dictLookup_some_of_contains hcont
      have hfind : findFrameIdx Frame.factory n (f :: rest) = some 0 := by
        unfold findFrameIdx
        rw [List.findIdx?_cons, if_pos hcont]
      rw [hfind]
      cases hctx : dictLookup f.context n with
      | some v => simp [scanFactory, hid, hctx]
      | none => simp [scanFactory, hid, hctx, modifyAt]
    · rw [Bool.not_eq_true] at hcont
      have hid : dictLookup f.factory n = none := dictLookup_none_of_not_contains hcont
      have hfind : findFrameIdx Frame.factory n (f :: rest) =
          (findFrameIdx Frame.factory n rest).map (· + 1) := by
        unfold findFrameIdx
        rw [List.findIdx?_cons, if_neg (by simp [hcont])]
        exact List.findIdx?_succ
      rw [hfind]
      simp only [scanFactory, hid, ih]
      cases hf2 : findFrameIdx Frame.factory n rest with
      | none => rfl
      | some i =>
        simp only [Option.map_some', List.get?_cons_succ]
        cases hg : rest.get? i with
        | none => rfl
        | some fr =>
          cases hid2 : dictLookup fr.factory n with
          | none => simp [hid2]
          | some id2 =>
            cases hctx2 : dictLookup fr.context n with
            | some v => simp [hid2, hctx2]
            | none => simp [hid2, hctx2, modifyAt]

/-- The cmgr scan, characterized the same way; acquisition happens at
the found frame's ExitStack, or fails there. -/
theorem scanCmgr_spec {V : Type u} (cenv : Nat → Option V) (n : String) (rid : Nat) :
    ∀ fs : List (Frame V),
      scanCmgr cenv n rid fs =
        match findFrameIdx Frame.cmgrs n fs with
        | none => none
        | some i =>
          match fs.get? i with
          | none => none
          | some f =>
            match dictLookup f.cmgrs n with
            | none => none
            | some id =>
              match dictLookup f.context n with
              | some v => some (.ok (v, fs, [], i, false))
              | none =>
                match f.exitstack with
                | none => some (.error (.acquireRaised n))
                | some stk =>
                  match cenv id with
                  | none => some (.error (.acquireRaised n))
                  | some v =>
                    some (.ok (v,
                      modifyAt fs i (fun g =>
                        { g with context := dictInsert g.context n v,
                                 exitstack := some (stk ++ [rid]) }),
                      [.acquire f.fid rid], i, true)) := by
  intro fs
  induction fs with
  | nil => rfl
  | cons f rest ih =>
    by_cases hcont : dictContains f.cmgrs n
    · obtain ⟨id, hid⟩ := dictLookup_some_of_contains hcont
      have hfind : findFrameIdx Frame.cmgrs n (f :: rest) = some 0 := by
        unfold findFrameIdx
        rw [List.findIdx?_cons, if_pos hcont]
      rw [hfind]
      cases hctx : dictLookup f.context n with
      | some v => simp [scanCmgr, hid, hctx]
      | none =>
        cases hex : f.exitstack with
        | none => simp [scanCmgr, hid, hctx, hex]
        | some stk =>
          cases hce : cenv id with
          | none => simp [scanCmgr, hid, hctx, hex, hce]
          | some v => simp [scanCmgr, hid, hctx, hex, hce, modifyAt]
    · rw [Bool.not_eq_true] at hcont
      have hid : dictLookup f.cmgrs n = none := dictLookup_none_of_not_contains hcont
      have hfind : findFrameIdx Frame.cmgrs n (f :: rest) =
          (findFrameIdx Frame.cmgrs n rest).map (· + 1) := by
        unfold findFrameIdx
        rw [List.findIdx?_cons, if_neg (by simp [hcont])]
        exact List.findIdx?_succ
      rw [hfind]
      simp only [scanCmgr, hid, ih]
      cases hf2 : findFrameIdx Frame.cmgrs n rest with
      | none => rfl
      | some i =>
        simp only [Option.map_some', List.get?_cons_succ]
        cases hg : rest.get? i with
        | none => rfl
        | some fr =>
          cases hid2 : dictLookup fr.cmgrs n with
          | none => simp [hid2]
          | some id2 =>
            cases hctx2 : dictLookup fr.context n with
            | some v => simp [hid2, hctx2]
            | none =>
              cases hex : fr.exitstack with
              | none => simp [hid2, hctx2, hex]
              | some stk =>
                cases hce : cenv id2 with
                | none => simp [hid2, hctx2, hex, hce]
                | some v => simp [hid2, hctx2, hex, hce, modifyAt]


theorem findFrameIdx_valid {V : Type u} (proj : Frame V → List (String × Nat)) (n : String) :
    ∀ (fs : List (Frame V)) (i : Nat), findFrameIdx proj n fs = some i →
      ∃ f, fs.get? i = some f ∧ dictContains (proj f) n = true := by
  intro fs
  induction fs with
  | nil => intro i h; simp [findFrameIdx, List.findIdx?] at h
  | cons f rest ih =>
    intro i h
    unfold findFrameIdx at h
    rw [List.findIdx?_cons] at h
    by_cases hc : dictContains (proj f) n
    · rw [if_pos hc] at h
      obtain rfl : i = 0 := by injection h with h2; omega
      exact ⟨f, rfl, hc⟩
    · rw [if_neg (by simpa using hc), List.findIdx?_succ] at h
      obtain ⟨j, hj, rfl⟩ := Option.map_eq_some'.mp h
      obtain ⟨fr, hget, hcc⟩ := ih j hj
      exact ⟨fr, by simpa using hget, hcc⟩

/-! ## Claims C1 and C3: fork and get against the spec wording -/

/-- C3, counterexample: the spec says the resolved value is propagated
"down through every frame between" the defining frame and the current
one.  With the factory bound at the root and two scopes entered, the
code's `get` writes the value only into the root (defining) frame and
the current frame — the middle frame's value dict stays empty, unlike
the spec-worded algorithm, whose result state differs. -/
theorem C3_counterexample :
    Context.get fenv7 cenv9 parentTriple "f" ≠ specGetWith true fenv7 cenv9 parentTriple "f" ∧
    (match Context.get fenv7 cenv9 parentTriple "f" with
     | .ok (_, s', _) => (s'.frames.get? 1).map (fun fr => dictContains fr.context "f")
     | .error _ => none) = some false ∧
    (match specGetWith true fenv7 cenv9 parentTriple "f" with
     | .ok (_, s', _) => (s'.frames.get? 1).map (fun fr => dictContains fr.context "f")
     | .error _ => none) = some true := by
  refine ⟨by decide, by decide, by decide⟩

/-- C3, amended: `get` resolves exactly by the spec's order — (a) the
current frame's resolved value, else (b) the factory registrations
scanned from the deepest frame outward with invoke-unless-resolved and
caching at the defining frame, else (c) the same scan over the
scoped-resource registrations, else (d) the unknown-variable error — but
the cached value is written only into the defining frame and the current
frame, not into the frames strictly between them. -/
theorem C3_amended_get_resolution {V : Type u} (fenv : Nat → V) (cenv : Nat → Option V)
    (s : Context V) (n : String) :
    Context.get fenv cenv s n = specGetWith false fenv cenv s n := by
  cases hfr : s.frames with
  | nil => simp only [Context.get, specGetWith, hfr]
  | cons top rest =>
    simp only [Context.get, specGetWith, hfr]
    cases hctx : dictLookup top.context n with
    | some v => simp [hctx]
    | none =>
      simp only [hctx]
      rw [scanFactory_spec]
      cases hff : findFrameIdx Frame.factory n (top :: rest) with
      | some i =>
        obtain ⟨f, hg, hcf⟩ := findFrameIdx_valid Frame.factory n (top :: rest) i hff
        obtain ⟨id, hid⟩ := dictLookup_some_of_contains hcf
        simp only [hff, hg, hid]
        cases hctx2 : dictLookup f.context n with
        | some v => simp [hctx2]
        | none => simp [hctx2]
      | none =>
        simp only [hff]
        rw [scanCmgr_spec]
        cases hfc : findFrameIdx Frame.cmgrs n (top :: rest) with
        | some i =>
          obtain ⟨f, hg, hcf⟩ := findFrameIdx_valid Frame.cmgrs n (top :: rest) i hfc
          obtain ⟨id, hid⟩ := dictLookup_some_of_contains hcf
          simp only [hfc, hg, hid]
          cases hctx2 : dictLookup f.context n with
          | some v => simp [hctx2]
          | none =>
            cases hex : f.exitstack with
            | none => simp [hctx2, hex]
            | some stk =>
              cases hce : cenv id with
              | none => simp [hctx2, hex, hce]
              | some v => simp [hctx2, hex, hce]
        | none => simp [hfc]

/-- C1, counterexample: parent = root context that bound a factory for
`f`, entered a scope and resolved it.  The claim says fork's root frame
excludes every factory-originated value at any frame depth and that a
get on the fork re-invokes the factory.  The code's fork excludes only
names registered in the parent's CURRENT frame's maps; after entering a
scope the current factory map is empty, so the cached value 7 IS copied
(the spec-worded copy set is empty), and get returns it with no
invocation event and no state change. -/
theorem C1_counterexample :
    dictLookup (Context.fork parentDeep).frames.headI.context "f" = some 7 ∧
    specForkValuesAnyFrame parentDeep = [] ∧
    Context.get fenv7 cenv9 (Context.fork parentDeep) "f" =
      .ok (7, Context.fork parentDeep, []) := by
  refine ⟨by decide, by decide, by decide⟩

/-- C1, amended: fork's root frame copies exactly the parent's
current-frame values whose names are not registered in the parent's
current frame's factory or cmgr maps.  Consequently (i) a name with a
factory registration in the parent's current frame is never copied, and
a get on the fork invokes the factory — even when the parent had already
resolved and cached the value — and (ii) a directly-set name (current
value, no current-frame registration) is returned from the fork's cache
with no invocation and no state change. -/
theorem C1_amended_fork_current_frame {V : Type u} (fenv : Nat → V) (cenv : Nat → Option V)
    (s : Context V) (top : Frame V) (rest : List (Frame V)) (hs : s.frames = top :: rest) :
    (∀ n, dictLookup (Context.fork s).frames.headI.context n =
      if !(dictContains top.cmgrs n) && !(dictContains top.factory n)
      then dictLookup top.context n else none) ∧
    (∀ n id, dictLookup top.factory n = some id →
      ∃ fs', Context.get fenv cenv (Context.fork s) n =
        .ok (fenv id, { Context.fork s with frames := fs' }, [.invoke id])) ∧
    (∀ n v, dictLookup top.context n = some v →
      dictContains top.factory n = false → dictContains top.cmgrs n = false →
      Context.get fenv cenv (Context.fork s) n = .ok (v, Context.fork s, [])) := by
  have hfork : Context.fork s =
      { frames := [{ context := top.context.filter
                       (fun kv => !(dictContains top.cmgrs kv.1) && !(dictContains top.factory kv.1)),
                     factory := top.factory, cmgrs := [], names := top.names, localNames := [],
                     exitstack := none, fid := s.nextId }],
        pendingParentCmgrs := some top.cmgrs,
        nextId := s.nextId + 1 } := by
    unfold Context.fork
    rw [hs]
  refine ⟨?_, ?_, ?_⟩
  · intro n
    rw [hfork]
    exact dictLookup_filter_keyPred top.context
      (fun k => !(dictContains top.cmgrs k) && !(dictContains top.factory k)) n
  · intro n id hid
    have hcf : dictContains top.factory n = true := by
      rw [dictContains_eq_isSome, hid]
      rfl
    have hfctx : dictLookup (top.context.filter
        (fun kv => !(dictContains top.cmgrs kv.1) && !(dictContains top.factory kv.1))) n = none := by
      have hfl := dictLookup_filter_keyPred top.context
        (fun k => !(dictContains top.cmgrs k) && !(dictContains top.factory k)) n
      rw [hfl, if_neg (by simp [hcf])]
    rw [hfork]
    refine ⟨[{ context :=
                 dictInsert
                   (top.context.filter
                     (fun kv => !(dictContains top.cmgrs kv.1) && !(dictContains top.factory kv.1)))
                   n (fenv id),
               factory := top.factory, cmgrs := [], names := top.names, localNames := [],
               exitstack := none, fid := s.nextId }], ?_⟩
    simp [Context.get, hfctx, scanFactory, hid]
  · intro n v hv hf hc
    have hfctx : dictLookup (top.context.filter
        (fun kv => !(dictContains top.cmgrs kv.1) && !(dictContains top.factory kv.1))) n =
        some v := by
      have hfl := dictLookup_filter_keyPred top.context
        (fun k => !(dictContains top.cmgrs k) && !(dictContains top.factory k)) n
      rw [hfl, if_pos (by simp [hf, hc]), hv]
    rw [hfork]
    simp only [Context.get, hfctx]

/-- C1, witness for the amended theorem: on a root-frame parent holding
the resolved factory value `f = 7` and the directly-set `g = 5`, the
fork re-invokes the factory for `f` and returns the cached `5` for `g`
without invocation. -/
theorem C1_amended_fork_current_frame_witness :
    (∃ fs', Context.get fenv7 cenv9 (Context.fork parentMix) "f" =
      .ok (7, { Context.fork parentMix with frames := fs' }, [.invoke 1])) ∧
    Context.get fenv7 cenv9 (Context.fork parentMix) "g" =
      .ok (5, Context.fork parentMix, []) := by
  have h := C1_amended_fork_current_frame fenv7 cenv9 parentMix
    ⟨[("f", 7), ("g", 5)], [("f", 1)], [], ["g", "f"], ["g", "f"], none, 0⟩ [] (by decide)
  exact ⟨h.2.1 "f" 1 (by decide), h.2.2 "g" 5 (by decide) (by decide) (by decide)⟩

/-! ### Support lemmas: dictionaries -/

theorem dictLookup_mem [DecidableEq α] {d : List (α × β)} {k : α} {v : β}
    (h : dictLookup d k = some v) : (k, v) ∈ d := by
  induction d with
  | nil => simp [dictLookup] at h
  | cons kv rest ih =>
    obtain ⟨a, b⟩ := kv
    simp only [dictLookup] at h
    split at h
    · rename_i hk
      injection h with h2
      subst h2
      subst hk
      exact List.mem_cons_self _ _
    · exact List.mem_cons_of_mem _ (ih h)

theorem dictInsert_cons_ne [DecidableEq α] {a : α} {b : β} {rest : List (α × β)} {k : α}
    (v : β) (hk : a ≠ k) : dictInsert ((a, b) :: rest) k v = (a, b) :: dictInsert rest k v := by
  unfold dictInsert
  have hcc : dictContains ((a, b) :: rest) k = dictContains rest k := by
    simp [dictContains, hk]
  rw [hcc]
  by_cases hcr : dictContains rest k = true
  · rw [if_pos hcr, if_pos hcr]
    simp [hk]
  · rw [if_neg hcr, if_neg hcr]
    simp

theorem dictLookup_dictInsert_self [DecidableEq α] (d : List (α × β)) (k : α) (v : β) :
    dictLookup (dictInsert d k v) k = some v := by
  induction d with
  | nil => simp [dictInsert, dictContains, dictLookup]
  | cons kv rest ih =>
    obtain ⟨a, b⟩ := kv
    by_cases hk : a = k
    · subst hk
      rw [dictInsert, if_pos (by simp [dictContains])]
      simp [dictLookup]
    · rw [dictInsert_cons_ne v hk]
      simp only [dictLookup]
      rw [if_neg (by simpa using hk)]
      exact ih

theorem dictInsert_of_not_contains [DecidableEq α] {d : List (α × β)} {k : α} (v : β)
    (h : dictContains d k = false) : dictInsert d k v = d ++ [(k, v)] := by
  unfold dictInsert
  rw [h]
  simp

/-! ### Support lemmas: positional frame updates -/

theorem modifyAt_length {V : Type u} (fs : List (Frame V)) (i : Nat) (g : Frame V → Frame V) :
    (modifyAt fs i g).length = fs.length := by
  induction fs generalizing i with
  | nil => rfl
  | cons f rest ih =>
    cases i with
    | zero => rfl
    | succ j => simp [modifyAt, ih]

theorem modifyAt_get_q {V : Type u} (fs : List (Frame V)) (i : Nat) (g : Frame V → Frame V)
    (j : Nat) :
    (modifyAt fs i g).get? j = if j = i then (fs.get? j).map g else fs.get? j := by
  induction fs generalizing i j with
  | nil => simp [modifyAt]
  | cons f rest ih =>
    cases i with
    | zero =>
      cases j with
      | zero => simp [modifyAt]
      | succ j2 => simp [modifyAt]
    | succ i2 =>
      cases j with
      | zero => simp [modifyAt]
      | succ j2 =>
        simp only [modifyAt, List.get?_cons_succ, ih]
        by_cases h : j2 = i2 <;> simp [h]

theorem mem_modifyAt {V : Type u} {fs : List (Frame V)} {i : Nat} {g : Frame V → Frame V} :
    ∀ f' ∈ modifyAt fs i g, f' ∈ fs ∨ ∃ f, fs.get? i = some f ∧ f' = g f := by
  induction fs generalizing i with
  | nil => intro f' h; simp [modifyAt] at h
  | cons f rest ih =>
    intro f' h
    cases i with
    | zero =>
      rcases List.mem_cons.mp h with h1 | h1
      · exact Or.inr ⟨f, rfl, h1⟩
      · exact Or.inl (List.mem_cons_of_mem _ h1)
    | succ j =>
      rcases List.mem_cons.mp h with h1 | h1
      · exact Or.inl (h1 ▸ List.mem_cons_self _ _)
      · rcases ih f' h1 with h2 | ⟨f0, hf0, hf0e⟩
        · exact Or.inl (List.mem_cons_of_mem _ h2)
        · exact Or.inr ⟨f0, by simpa using hf0, hf0e⟩

theorem map_modifyAt_eq {V : Type u} {γ : Type v} (h : Frame V → γ) (g : Frame V → Frame V)
    (hg : ∀ f, h (g f) = h f) (fs : List (Frame V)) (i : Nat) :
    (modifyAt fs i g).map h = fs.map h := by
  induction fs generalizing i with
  | nil => rfl
  | cons f rest ih =>
    cases i with
    | zero => simp [modifyAt, hg]
    | succ j => simp [modifyAt, ih]

theorem flatten_map_modifyAt_perm {V : Type u} (h : Frame V → List Nat) (g : Frame V → Frame V)
    {fs : List (Frame V)} {i : Nat} {f : Frame V} {x : Nat}
    (hget : fs.get? i = some f) (hg : h (g f) = h f ++ [x]) :
    ((modifyAt fs i g).map h).flatten.Perm (x :: (fs.map h).flatten) := by
  induction fs generalizing i with
  | nil => simp at hget
  | cons f0 rest ih =>
    cases i with
    | zero =>
      injection hget with hf
      subst hf
      simp only [modifyAt, List.map_cons, List.flatten_cons, hg, List.append_assoc]
      exact List.perm_middle
    | succ j =>
      simp only [List.get?_cons_succ] at hget
      simp only [modifyAt, List.map_cons, List.flatten_cons]
      exact ((ih hget).append_left (h f0)).trans List.perm_middle

theorem copyDown_eq_modifyAt {V : Type u} (fs : List (Frame V)) (n : String) (v : V) :
    copyDown fs n v = modifyAt fs 0 (fun f => { f with context := dictInsert f.context n v }) := by
  cases fs <;> rfl

/-! ### Support lemmas: traces -/

theorem allAcq_append (t1 t2 : List Event) : allAcq (t1 ++ t2) = allAcq t1 ++ allAcq t2 :=
  List.filterMap_append _ _ _

theorem acqRids_append (fid : Nat) (t1 t2 : List Event) :
    acqRids fid (t1 ++ t2) = acqRids fid t1 ++ acqRids fid t2 :=
  List.filterMap_append _ _ _

theorem relRids_append (t1 t2 : List Event) :
    relRids (t1 ++ t2) = relRids t1 ++ relRids t2 :=
  List.filterMap_append _ _ _

theorem allAcq_release_map (l : List Nat) : allAcq (l.map Event.release) = [] := by
  induction l with
  | nil => rfl
  | cons a t ih => simpa [allAcq, List.filterMap_cons] using ih

theorem acqRids_release_map (fid : Nat) (l : List Nat) :
    acqRids fid (l.map Event.release) = [] := by
  induction l with
  | nil => rfl
  | cons a t ih => simpa [acqRids, List.filterMap_cons] using ih

theorem relRids_release_map (l : List Nat) : relRids (l.map Event.release) = l := by
  induction l with
  | nil => rfl
  | cons a t ih => simpa [relRids, List.filterMap_cons] using ih

theorem cntInvoke_append (t1 t2 : List Event) (id : Nat) :
    cntInvoke (t1 ++ t2) id = cntInvoke t1 id + cntInvoke t2 id :=
  List.count_append _ _ _

theorem cntInvoke_release_map (l : List Nat) (id : Nat) :
    cntInvoke (l.map Event.release) id = 0 := by
  simp [cntInvoke, List.count_eq_zero]

theorem cntInvoke_acquire (f r id : Nat) : cntInvoke [Event.acquire f r] id = 0 := by
  simp [cntInvoke]

theorem cntInvoke_invoke (id0 id : Nat) :
    cntInvoke [Event.invoke id0] id = if id0 = id then 1 else 0 := by
  by_cases h : id0 = id <;> simp [cntInvoke, List.count_cons, List.count_nil, h]

theorem acqRids_invoke (fid id : Nat) : acqRids fid [Event.invoke id] = [] := rfl

theorem allAcq_invoke (id : Nat) : allAcq [Event.invoke id] = [] := rfl

theorem relRids_invoke (id : Nat) : relRids [Event.invoke id] = [] := rfl

theorem acqRids_acquire (fid f r : Nat) :
    acqRids fid [Event.acquire f r] = if f = fid then [r] else [] := by
  by_cases h : f = fid <;> simp [acqRids, List.filterMap_cons, h]

theorem allAcq_acquire (f r : Nat) : allAcq [Event.acquire f r] = [r] := rfl

theorem relRids_acquire (f r : Nat) : relRids [Event.acquire f r] = [] := rfl

/-! ### Support lemmas: potentials and indicators -/

theorem phi_le_one {V : Type u} (s : Context V) (id : Nat) : phi s id ≤ 1 := by
  unfold phi
  split <;> omega

theorem spanInd_le_one (a b id : Nat) : spanInd a b id ≤ 1 := by
  unfold spanInd
  split <;> omega

theorem spanInd_mono {a a' b b' : Nat} (ha : a' ≤ a) (hb : b ≤ b') (id : Nat) :
    spanInd a b id ≤ spanInd a' b' id := by
  unfold spanInd
  split_ifs <;> omega

theorem spanInd_add {a b c : Nat} (hab : a ≤ b) (hbc : b ≤ c) (id : Nat) :
    spanInd a b id + spanInd b c id = spanInd a c id := by
  unfold spanInd
  split_ifs <;> omega

theorem invocable_of_pointwise {V : Type u} {s s' : Context V}
    (hpt : ∀ j f', s'.frames.get? j = some f' → ∃ f, s.frames.get? j = some f ∧
      f'.factory = f.factory ∧
      ∀ k, dictContains f.context k = true → dictContains f'.context k = true) :
    ∀ id, invocable s' id = true → invocable s id = true := by
  intro id h
  unfold invocable at h ⊢
  rw [List.any_eq_true] at h ⊢
  obtain ⟨f', hmem, hf'⟩ := h
  obtain ⟨j, hj⟩ := List.mem_iff_get?.mp hmem
  obtain ⟨f, hjf, hfac, hctx⟩ := hpt j f' hj
  refine ⟨f, List.get?_mem hjf, ?_⟩
  rw [List.any_eq_true] at hf' ⊢
  obtain ⟨kv, hkv, hp⟩ := hf'
  rw [Bool.and_eq_true] at hp
  refine ⟨kv, by rw [← hfac]; exact hkv, ?_⟩
  rw [Bool.and_eq_true]
  refine ⟨hp.1, ?_⟩
  cases hcc : dictContains f.context kv.1 with
  | false => rfl
  | true =>
    exfalso
    have := hctx kv.1 hcc
    rw [this] at hp
    simp at hp

theorem phi_le_of_pointwise {V : Type u} {s s' : Context V}
    (hpt : ∀ j f', s'.frames.get? j = some f' → ∃ f, s.frames.get? j = some f ∧
      f'.factory = f.factory ∧
      ∀ k, dictContains f.context k = true → dictContains f'.context k = true)
    (id : Nat) : phi s' id ≤ phi s id := by
  unfold phi
  by_cases h : invocable s' id = true
  · rw [if_pos h, if_pos (invocable_of_pointwise hpt id h)]
  · rw [if_neg h]
    split <;> omega

/-! ### Support lemmas: flattened id lists -/

theorem flatten_nodup_component {γ : Type v} {L : List (List γ)} (h : L.flatten.Nodup)
    {i : Nat} {li : List γ} (hi : L.get? i = some li) : li.Nodup := by
  induction L generalizing i with
  | nil => simp at hi
  | cons l L2 ih =>
    rw [List.flatten_cons, List.nodup_append] at h
    cases i with
    | zero =>
      injection hi with hi
      subst hi
      exact h.1
    | succ j => exact ih h.2.1 hi

theorem flatten_nodup_index_unique {γ : Type v} {L : List (List γ)} (h : L.flatten.Nodup) :
    ∀ i j li lj x, L.get? i = some li → L.get? j = some lj → x ∈ li → x ∈ lj → i = j := by
  induction L with
  | nil => intro i j li lj x hi; simp at hi
  | cons l L2 ih =>
    rw [List.flatten_cons, List.nodup_append] at h
    intro i j li lj x hi hj hxi hxj
    cases i with
    | zero =>
      cases j with
      | zero => rfl
      | succ j2 =>
        injection hi with hi
        subst hi
        exact absurd (List.mem_flatten.mpr ⟨lj, List.get?_mem (show L2.get? j2 = some lj from hj), hxj⟩) (h.2.2 hxi)
    | succ i2 =>
      cases j with
      | zero =>
        injection hj with hj
        subst hj
        exact absurd (List.mem_flatten.mpr ⟨li, List.get?_mem (show L2.get? i2 = some li from hi), hxi⟩) (h.2.2 hxj)
      | succ j2 => exact congrArg Nat.succ (ih h.2.1 i2 j2 li lj x hi hj hxi hxj)

theorem factory_entry_unique {V : Type u} {s : Context V} (hnd : (liveRegIds s).Nodup)
    {i j : Nat} {fi fj : Frame V} (hi : s.frames.get? i = some fi)
    (hj : s.frames.get? j = some fj)
    {kv kw : String × Nat} (hkv : kv ∈ fi.factory) (hkw : kw ∈ fj.factory)
    (heq : kv.2 = kw.2) : i = j ∧ kv = kw := by
  unfold liveRegIds at hnd
  have hgi : (s.frames.map (fun f => f.factory.map Prod.snd ++ f.cmgrs.map Prod.snd)).get? i =
      some (fi.factory.map Prod.snd ++ fi.cmgrs.map Prod.snd) := by
    rw [List.get?_map, hi]
    rfl
  have hgj : (s.frames.map (fun f => f.factory.map Prod.snd ++ f.cmgrs.map Prod.snd)).get? j =
      some (fj.factory.map Prod.snd ++ fj.cmgrs.map Prod.snd) := by
    rw [List.get?_map, hj]
    rfl
  have hxi : kv.2 ∈ fi.factory.map Prod.snd ++ fi.cmgrs.map Prod.snd :=
    List.mem_append_left _ (List.mem_map_of_mem _ hkv)
  have hxj : kv.2 ∈ fj.factory.map Prod.snd ++ fj.cmgrs.map Prod.snd := by
    rw [heq]
    exact List.mem_append_left _ (List.mem_map_of_mem _ hkw)
  have hij : i = j := flatten_nodup_index_unique hnd i j _ _ kv.2 hgi hgj hxi hxj
  subst hij
  rw [hi] at hj
  injection hj with hj
  subst hj
  have hcomp := flatten_nodup_component hnd hgi
  have hfac : (fi.factory.map Prod.snd).Nodup := (List.nodup_append.mp hcomp).1
  exact ⟨rfl, List.inj_on_of_nodup_map hfac hkv hkw heq⟩

/-! ### Step composition -/

theorem acqRids_sublist_allAcq (fid : Nat) (tr : List Event) :
    (acqRids fid tr).Sublist (allAcq tr) := by
  induction tr with
  | nil => simp [acqRids, allAcq]
  | cons e t ih =>
    cases e with
    | invoke id => simpa [acqRids, allAcq, List.filterMap_cons] using ih
    | release r => simpa [acqRids, allAcq, List.filterMap_cons] using ih
    | acquire f r =>
      by_cases hf : f = fid
      · subst hf
        simp only [acqRids, allAcq, List.filterMap_cons]
        exact List.Sublist.cons₂ r ih
      · simp only [acqRids, allAcq, List.filterMap_cons]
        rw [if_neg hf]
        exact List.Sublist.cons r ih

theorem mem_allAcq_of_mem_acqRids {fid : Nat} {tr : List Event} {rid : Nat}
    (h : rid ∈ acqRids fid tr) : rid ∈ allAcq tr :=
  (acqRids_sublist_allAcq fid tr).mem h

theorem StepOk_refl {V : Type u} (s : Context V) : StepOk s s [] := by
  refine ⟨le_refl _, rfl, ?_, ?_, ?_, ?_, ?_, ?_⟩
  · intro i f hf
    exact ⟨f, hf, rfl, rfl, by simp [acqRids]⟩
  · simp [allAcq]
  · intro rid h
    simp [allAcq] at h
  · intro rid h
    simp [relRids] at h
  · intro f' _ rid _ h
    simp [relRids] at h
  · intro id
    simp only [cntInvoke, List.count_nil]
    omega

theorem StepOk_trans {V : Type u} {s s1 s2 : Context V} {t1 t2 : List Event}
    (h1 : StepOk s s1 t1) (h2 : StepOk s1 s2 t2) : StepOk s s2 (t1 ++ t2) := by
  obtain ⟨hn1, hl1, hp1, ha1, hb1, hr1, hx1, hphi1⟩ := h1
  obtain ⟨hn2, hl2, hp2, ha2, hb2, hr2, hx2, hphi2⟩ := h2
  refine ⟨le_trans hn1 hn2, hl2.trans hl1, ?_, ?_, ?_, ?_, ?_, ?_⟩
  · intro i f hf
    obtain ⟨f1, hf1, hfid1, hex1, hst1⟩ := hp1 i f hf
    obtain ⟨f2, hf2, hfid2, hex2, hst2⟩ := hp2 i f1 hf1
    refine ⟨f2, hf2, hfid2.trans hfid1, hex2.trans hex1, ?_⟩
    rw [acqRids_append, hst2, hst1, hfid1, List.append_assoc]
  · rw [allAcq_append, List.nodup_append]
    refine ⟨ha1, ha2, ?_⟩
    intro a hat1 hat2
    have hu1 := (hb1 a hat1).2
    have hu2 := (hb2 a hat2).1
    omega
  · intro rid h
    rw [allAcq_append, List.mem_append] at h
    rcases h with h | h
    · obtain ⟨hax, hbx⟩ := hb1 rid h
      exact ⟨hax, lt_of_lt_of_le hbx hn2⟩
    · obtain ⟨hax, hbx⟩ := hb2 rid h
      exact ⟨le_trans hn1 hax, hbx⟩
  · intro rid h
    rw [relRids_append, List.mem_append] at h
    rcases h with h | h
    · exact lt_of_lt_of_le (hr1 rid h) hn2
    · exact hr2 rid h
  · intro f2 hf2mem rid hrid
    rw [relRids_append, List.mem_append]
    intro hcon
    obtain ⟨i, hi⟩ := List.mem_iff_get?.mp hf2mem
    cases hgi : s1.frames.get? i with
    | none =>
      rw [List.get?_eq_none] at hgi
      have h2n : s2.frames.get? i = none := by
        rw [List.get?_eq_none]
        omega
      rw [h2n] at hi
      cases hi
    | some f1 =>
      obtain ⟨f2x, hf2x, hfid2, hex2, hst2⟩ := hp2 i f1 hgi
      rw [hi] at hf2x
      injection hf2x with hf2x
      subst hf2x
      rw [hst2, List.mem_append] at hrid
      have hnotrel2 : rid ∉ relRids t2 := hx2 f2 hf2mem rid (by rw [hst2, List.mem_append]; exact hrid)
      rcases hrid with hrid | hrid
      · have hnotrel1 : rid ∉ relRids t1 := hx1 f1 (List.get?_mem hgi) rid hrid
        rcases hcon with hc | hc
        · exact hnotrel1 hc
        · exact hnotrel2 hc
      · have hge : s1.nextId ≤ rid := (hb2 rid (mem_allAcq_of_mem_acqRids hrid)).1
        rcases hcon with hc | hc
        · have := hr1 rid hc
          omega
        · exact hnotrel2 hc
  · intro id
    have hq1 := hphi1 id
    have hq2 := hphi2 id
    have hsum := spanInd_add hn1 hn2 id
    rw [cntInvoke_append]
    omega

/-! ### Invariants of init, enter and exit -/

theorem Inv_init {V : Type u} : Inv (Context.init : Context V) := by
  refine ⟨by simp [Context.init], rfl, by simp [liveRegIds, Context.init], ?_, ?_, ?_, ?_, ?_, ?_, ?_⟩
  · intro id hid
    simp [liveRegIds, Context.init] at hid
  · simp [Context.init]
  · intro f hf
    simp [Context.init] at hf
    subst hf
    simp [Context.init]
  · intro f hf rid hr
    simp [Context.init] at hf
    subst hf
    simp [stackOr] at hr
  · simp [Context.init, stackOr]
  · intro f hf kv hkv
    simp [Context.init] at hf
    subst hf
    simp at hkv
  · intro f hf kv hkv
    simp [Context.init] at hf
    subst hf
    simp at hkv

theorem enter_frames {V : Type u} {s : Context V} {top : Frame V} {rest : List (Frame V)}
    (hs : s.frames = top :: rest) (hp : s.pendingParentCmgrs = none) :
    Context.enter s = { s with
      frames := { context := top.context, factory := [], cmgrs := [], names := top.names,
                  localNames := [], exitstack := some [], fid := s.nextId } :: top :: rest,
      nextId := s.nextId + 1 } := by
  simp only [Context.enter, hs, hp, ite_self]

theorem invocable_enter {V : Type u} (s : Context V) (id : Nat) :
    invocable (Context.enter s) id = invocable s id := by
  cases hs : s.frames with
  | nil =>
    unfold Context.enter
    rw [hs]
  | cons top rest =>
    unfold Context.enter invocable
    rw [hs]
    simp

theorem phi_enter {V : Type u} (s : Context V) (id : Nat) :
    phi (Context.enter s) id = phi s id := by
  unfold phi
  rw [invocable_enter]

theorem invocable_pop {V : Type u} {s : Context V} {f1 : Frame V} {rest : List (Frame V)}
    (hfr : s.frames = f1 :: rest) (id : Nat)
    (h : invocable { s with frames := rest } id = true) : invocable s id = true := by
  unfold invocable at h ⊢
  rw [hfr, List.any_cons]
  rw [show ({ s with frames := rest } : Context V).frames = rest from rfl] at h
  rw [h]
  simp

theorem phi_pop_le {V : Type u} {s : Context V} {f1 : Frame V} {rest : List (Frame V)}
    (hfr : s.frames = f1 :: rest) (id : Nat) :
    phi { s with frames := rest } id ≤ phi s id := by
  unfold phi
  by_cases h : invocable { s with frames := rest } id = true
  · rw [if_pos h, if_pos (invocable_pop hfr id h)]
  · rw [if_neg h]
    split <;> omega

theorem Inv_enter {V : Type u} {s : Context V} (h : Inv s) : Inv (Context.enter s) := by
  obtain ⟨h1, h2, h3, h4, h5, h6, h7, h8, h9, h10⟩ := h
  cases hs : s.frames with
  | nil => exact absurd hs h1
  | cons top rest =>
    rw [enter_frames hs h2]
    rw [hs] at h5 h6 h7 h8 h9 h10
    refine ⟨by simp, h2, ?_, ?_, ?_, ?_, ?_, ?_, ?_, ?_⟩
    · simpa [liveRegIds, hs] using h3
    · intro id hid
      have hin := h4 id (by simpa [liveRegIds, hs] using hid)
      show id < s.nextId + 1
      omega
    · rw [List.map_cons, List.nodup_cons]
      refine ⟨?_, h5⟩
      intro hmem
      rw [List.mem_map] at hmem
      obtain ⟨f, hf, hfid⟩ := hmem
      have hfs : f.fid = s.nextId := hfid
      have := h6 f hf
      omega
    · intro f hf
      show f.fid < s.nextId + 1
      rcases List.mem_cons.mp hf with hf | hf
      · subst hf
        show s.nextId < s.nextId + 1
        omega
      · have := h6 f hf
        omega
    · intro f hf rid hr
      show rid < s.nextId + 1
      rcases List.mem_cons.mp hf with hf | hf
      · subst hf
        simp [stackOr] at hr
      · have := h7 f hf rid hr
        omega
    · simpa [stackOr] using h8
    · intro f hf kv hkv
      rcases List.mem_cons.mp hf with hf | hf
      · subst hf
        simp at hkv
      · exact h9 f hf kv hkv
    · intro f hf kv hkv
      rcases List.mem_cons.mp hf with hf | hf
      · subst hf
        simp at hkv
      · exact h10 f hf kv hkv

theorem Inv_pop {V : Type u} {s : Context V} {f1 : Frame V} {rest : List (Frame V)}
    (h : Inv s) (hfr : s.frames = f1 :: rest) (hne : rest ≠ []) :
    Inv { s with frames := rest } := by
  obtain ⟨h1, h2, h3, h4, h5, h6, h7, h8, h9, h10⟩ := h
  rw [hfr] at h5 h6 h7 h8 h9 h10
  refine ⟨hne, h2, ?_, ?_, ?_, ?_, ?_, ?_, ?_, ?_⟩
  · simp only [liveRegIds, hfr, List.map_cons, List.flatten_cons, List.nodup_append] at h3
    exact h3.2.1
  · intro id hid
    refine h4 id ?_
    simp only [liveRegIds, hfr, List.map_cons, List.flatten_cons]
    refine List.mem_append_right _ ?_
    simpa [liveRegIds] using hid
  · simp only [List.map_cons, List.nodup_cons] at h5
    exact h5.2
  · intro f hf
    exact h6 f (List.mem_cons_of_mem _ hf)
  · intro f hf rid hr
    exact h7 f (List.mem_cons_of_mem _ hf) rid hr
  · simp only [List.map_cons, List.flatten_cons, List.nodup_append] at h8
    exact h8.2.1
  · intro f hf kv hkv
    exact h9 f (List.mem_cons_of_mem _ hf) kv hkv
  · intro f hf kv hkv
    exact h10 f (List.mem_cons_of_mem _ hf) kv hkv

/-! ### Soundness of the leaf operations -/

theorem setLocalName_ok {V : Type u} {f : Frame V} {n : String} {f' : Frame V}
    (h : setLocalName f n = .ok f') :
    ¬ n ∈ f.localNames ∧
    f' = { f with localNames := n :: f.localNames,
                  names := if n ∈ f.names then f.names else n :: f.names } := by
  unfold setLocalName at h
  split at h
  · simp at h
  · rename_i hmem
    injection h with h
    exact ⟨hmem, h.symm⟩

theorem perm_mid_middle {γ : Type v} (A B R : List γ) (x : γ) :
    (((A ++ [x]) ++ B) ++ R).Perm (x :: ((A ++ B) ++ R)) := by
  have h1 : ((A ++ [x]) ++ B) ++ R = A ++ (x :: (B ++ R)) := by
    simp [List.append_assoc]
  have h2 : x :: (A ++ (B ++ R)) = x :: ((A ++ B) ++ R) := by
    simp [List.append_assoc]
  rw [h1, ← h2]
  exact List.perm_middle

theorem perm_snoc_middle {γ : Type v} (A B R : List γ) (x : γ) :
    ((A ++ (B ++ [x])) ++ R).Perm (x :: ((A ++ B) ++ R)) := by
  have h1 : (A ++ (B ++ [x])) ++ R = (A ++ B) ++ (x :: R) := by
    simp [List.append_assoc]
  rw [h1]
  exact List.perm_middle

theorem set_sound {V : Type u} {s s' : Context V} {n : String} {v : V}
    (hInv : Inv s) (h : Context.set s n v = .ok s') : Inv s' ∧ StepOk s s' [] := by
  obtain ⟨h1, h2, h3, h4, h5, h6, h7, h8, h9, h10⟩ := hInv
  cases hs : s.frames with
  | nil =>
    rw [hs] at h1
    exact absurd rfl h1
  | cons top rest =>
    rw [hs] at h5 h6 h7 h8 h9 h10
    simp only [Context.set, hs] at h
    cases hsl : setLocalName top n with
    | error e =>
      rw [hsl] at h
      simp at h
    | ok top1 =>
      obtain ⟨hnm, htop1⟩ := setLocalName_ok hsl
      subst htop1
      rw [hsl] at h
      simp only [] at h
      injection h with h
      subst h
      constructor
      · refine ⟨by simp, h2, ?_, ?_, ?_, ?_, ?_, ?_, ?_, ?_⟩
        · simpa [liveRegIds, hs, List.map_cons, List.flatten_cons] using h3
        · intro id hid
          refine h4 id ?_
          simp only [liveRegIds, hs, List.map_cons, List.flatten_cons]
          simpa [liveRegIds, List.map_cons, List.flatten_cons] using hid
        · simpa [List.map_cons] using h5
        · intro f hf
          rcases List.mem_cons.mp hf with hf | hf
          · subst hf
            exact h6 top (List.mem_cons_self _ _)
          · exact h6 f (List.mem_cons_of_mem _ hf)
        · intro f hf rid hr
          rcases List.mem_cons.mp hf with hf | hf
          · subst hf
            exact h7 top (List.mem_cons_self _ _) rid hr
          · exact h7 f (List.mem_cons_of_mem _ hf) rid hr
        · simpa [List.map_cons, stackOr] using h8
        · intro f hf kv hkv
          rcases List.mem_cons.mp hf with hf | hf
          · subst hf
            exact List.mem_cons_of_mem _ (h9 top (List.mem_cons_self _ _) kv hkv)
          · exact h9 f (List.mem_cons_of_mem _ hf) kv hkv
        · intro f hf kv hkv
          rcases List.mem_cons.mp hf with hf | hf
          · subst hf
            exact List.mem_cons_of_mem _ (h10 top (List.mem_cons_self _ _) kv hkv)
          · exact h10 f (List.mem_cons_of_mem _ hf) kv hkv
      · refine ⟨le_refl _, by rw [hs]; rfl, ?_, by simp [allAcq], ?_, ?_, ?_, ?_⟩
        · intro i f hf
          rw [hs] at hf
          cases i with
          | zero =>
            injection hf with hf
            subst hf
            exact ⟨_, rfl, rfl, rfl, by simp [stackOr, acqRids]⟩
          | succ j =>
            exact ⟨f, hf, rfl, rfl, by simp [acqRids]⟩
        · intro rid hrid
          simp [allAcq] at hrid
        · intro rid hrid
          simp [relRids] at hrid
        · intro f' _ rid _ hcon
          simp [relRids] at hcon
        · intro id
          have hmono : phi { s with frames :=
              { top with names := if n ∈ top.names then top.names else n :: top.names,
                         localNames := n :: top.localNames,
                         context := dictInsert top.context n v } :: rest } id ≤ phi s id := by
            refine phi_le_of_pointwise ?_ id
            intro j f' hf'
            cases j with
            | zero =>
              injection hf' with hf'
              subst hf'
              refine ⟨top, by rw [hs]; rfl, rfl, ?_⟩
              intro k hk
              show dictContains (dictInsert top.context n v) k = true
              rw [dictContains_dictInsert, hk]
              simp
            | succ j2 =>
              refine ⟨f', ?_, rfl, fun k hk => hk⟩
              rw [hs]
              exact hf'
          simp only [cntInvoke, List.count_nil]
          omega

theorem bind_sound {V : Type u} {s s' : Context V} {n : String}
    (hInv : Inv s) (h : Context.bind s n = .ok s') : Inv s' ∧ StepOk s s' [] := by
  obtain ⟨h1, h2, h3, h4, h5, h6, h7, h8, h9, h10⟩ := hInv
  cases hs : s.frames with
  | nil =>
    rw [hs] at h1
    exact absurd rfl h1
  | cons top rest =>
    rw [hs] at h5 h6 h7 h8 h9 h10
    simp only [Context.bind, hs] at h
    cases hsl : setLocalName top n with
    | error e =>
      rw [hsl] at h
      simp at h
    | ok top1 =>
      obtain ⟨hnm, htop1⟩ := setLocalName_ok hsl
      subst htop1
      rw [hsl] at h
      simp only [] at h
      injection h with h
      subst h
      have hfc : dictContains top.factory n = false := by
        cases hcc : dictContains top.factory n with
        | false => rfl
        | true =>
          obtain ⟨id0, hid0⟩ := dictLookup_some_of_contains hcc
          exact absurd (h9 top (List.mem_cons_self _ _) (n, id0) (dictLookup_mem hid0)) hnm
      have hfac : dictInsert top.factory n s.nextId = top.factory ++ [(n, s.nextId)] :=
        dictInsert_of_not_contains _ hfc
      have hperm : (liveRegIds ({ s with frames := { top with names := if n ∈ top.names then top.names else n :: top.names, localNames := n :: top.localNames, factory := dictInsert top.factory n s.nextId } :: rest, nextId := s.nextId + 1 } : Context V)).Perm (s.nextId :: liveRegIds s) := by
        simp only [liveRegIds, hs, List.map_cons, List.flatten_cons, hfac, List.map_append,
          List.map_nil]
        exact perm_mid_middle _ _ _ _
      constructor
      · refine ⟨by simp, h2, ?_, ?_, ?_, ?_, ?_, ?_, ?_, ?_⟩
        · rw [hperm.nodup_iff, List.nodup_cons]
          refine ⟨?_, h3⟩
          intro hmem
          have := h4 _ hmem
          omega
        · intro id hid
          show id < s.nextId + 1
          have hid2 := hperm.mem_iff.mp hid
          rcases List.mem_cons.mp hid2 with hid2 | hid2
          · omega
          · have := h4 id hid2
            omega
        · simpa [List.map_cons] using h5
        · intro f hf
          rcases List.mem_cons.mp hf with hf | hf
          · subst hf
            show top.fid < s.nextId + 1
            have := h6 top (List.mem_cons_self _ _)
            omega
          · show f.fid < s.nextId + 1
            have := h6 f (List.mem_cons_of_mem _ hf)
            omega
        · intro f hf rid hr
          show rid < s.nextId + 1
          rcases List.mem_cons.mp hf with hf | hf
          · subst hf
            have := h7 top (List.mem_cons_self _ _) rid hr
            omega
          · have := h7 f (List.mem_cons_of_mem _ hf) rid hr
            omega
        · simpa [List.map_cons, stackOr] using h8
        · intro f hf kv hkv
          rcases List.mem_cons.mp hf with hf | hf
          · subst hf
            have hkv2 : kv ∈ top.factory ++ [(n, s.nextId)] := by
              rw [← hfac]
              exact hkv
            rw [List.mem_append] at hkv2
            rcases hkv2 with hkv2 | hkv2
            · exact List.mem_cons_of_mem _ (h9 top (List.mem_cons_self _ _) kv hkv2)
            · rw [List.mem_singleton] at hkv2
              subst hkv2
              exact List.mem_cons_self _ _
          · exact h9 f (List.mem_cons_of_mem _ hf) kv hkv
        · intro f hf kv hkv
          rcases List.mem_cons.mp hf with hf | hf
          · subst hf
            exact List.mem_cons_of_mem _ (h10 top (List.mem_cons_self _ _) kv hkv)
          · exact h10 f (List.mem_cons_of_mem _ hf) kv hkv
      · refine ⟨Nat.le_succ _, by rw [hs]; rfl, ?_, by simp [allAcq], ?_, ?_, ?_, ?_⟩
        · intro i f hf
          rw [hs] at hf
          cases i with
          | zero =>
            injection hf with hf
            subst hf
            exact ⟨_, rfl, rfl, rfl, by simp [stackOr, acqRids]⟩
          | succ j =>
            exact ⟨f, hf, rfl, rfl, by simp [acqRids]⟩
        · intro rid hrid
          simp [allAcq] at hrid
        · intro rid hrid
          simp [relRids] at hrid
        · intro f' _ rid _ hcon
          simp [relRids] at hcon
        · intro id
          simp only [cntInvoke, List.count_nil]
          by_cases hx : id = s.nextId
          · have hsp : spanInd s.nextId (s.nextId + 1) id = 1 := by
              unfold spanInd
              rw [if_pos (show s.nextId ≤ id ∧ id < s.nextId + 1 from by omega)]
            have hub := phi_le_one ({ s with frames := { top with names := if n ∈ top.names then top.names else n :: top.names, localNames := n :: top.localNames, factory := dictInsert top.factory n s.nextId } :: rest, nextId := s.nextId + 1 } : Context V) id
            show 0 + phi ({ s with frames := { top with names := if n ∈ top.names then top.names else n :: top.names, localNames := n :: top.localNames, factory := dictInsert top.factory n s.nextId } :: rest, nextId := s.nextId + 1 } : Context V) id ≤ phi s id + spanInd s.nextId (s.nextId + 1) id
            omega
          · have hmono : phi ({ s with frames := { top with names := if n ∈ top.names then top.names else n :: top.names, localNames := n :: top.localNames, factory := dictInsert top.factory n s.nextId } :: rest, nextId := s.nextId + 1 } : Context V) id ≤ phi s id := by
              unfold phi
              by_cases hi : invocable ({ s with frames := { top with names := if n ∈ top.names then top.names else n :: top.names, localNames := n :: top.localNames, factory := dictInsert top.factory n s.nextId } :: rest, nextId := s.nextId + 1 } : Context V) id = true
              · rw [if_pos hi, if_pos ?hh]
                case hh =>
                  unfold invocable at hi ⊢
                  rw [List.any_eq_true] at hi ⊢
                  obtain ⟨f', hmf, hpf⟩ := hi
                  have hmf2 : f' ∈ ({ top with names := if n ∈ top.names then top.names else n :: top.names, localNames := n :: top.localNames, factory := dictInsert top.factory n s.nextId } : Frame V) :: rest := hmf
                  rcases List.mem_cons.mp hmf2 with hfe | hfe
                  · subst hfe
                    rw [List.any_eq_true] at hpf
                    obtain ⟨kv, hkv, hkvp⟩ := hpf
                    have hkv2 : kv ∈ top.factory ++ [(n, s.nextId)] := by
                      rw [← hfac]
                      exact hkv
                    rw [List.mem_append] at hkv2
                    rcases hkv2 with hkv2 | hkv2
                    · refine ⟨top, ?_, ?_⟩
                      · rw [hs]
                        exact List.mem_cons_self _ _
                      · rw [List.any_eq_true]
                        exact ⟨kv, hkv2, hkvp⟩
                    · rw [List.mem_singleton] at hkv2
                      subst hkv2
                      rw [Bool.and_eq_true, decide_eq_true_eq] at hkvp
                      exact absurd hkvp.1.symm hx
                  · refine ⟨f', ?_, hpf⟩
                    rw [hs]
                    exact List.mem_cons_of_mem _ hfe
              · rw [if_neg hi]
                split <;> omega
            show 0 + phi ({ s with frames := { top with names := if n ∈ top.names then top.names else n :: top.names, localNames := n :: top.localNames, factory := dictInsert top.factory n s.nextId } :: rest, nextId := s.nextId + 1 } : Context V) id ≤ phi s id + spanInd s.nextId (s.nextId + 1) id
            omega

theorem attach_sound {V : Type u} {s s' : Context V} {n : String}
    (hInv : Inv s) (h : Context.attach s n = .ok s') : Inv s' ∧ StepOk s s' [] := by
  obtain ⟨h1, h2, h3, h4, h5, h6, h7, h8, h9, h10⟩ := hInv
  cases hs : s.frames with
  | nil =>
    rw [hs] at h1
    exact absurd rfl h1
  | cons top rest =>
    rw [hs] at h5 h6 h7 h8 h9 h10
    simp only [Context.attach, hs] at h
    cases hex : top.exitstack with
    | none =>
      rw [hex] at h
      simp at h
    | some stk =>
      rw [hex] at h
      simp only [] at h
      cases hsl : setLocalName top n with
      | error e =>
        rw [hsl] at h
        simp at h
      | ok top1 =>
        obtain ⟨hnm, htop1⟩ := setLocalName_ok hsl
        subst htop1
        rw [hsl] at h
        simp only [] at h
        injection h with h
        subst h
        have hfc : dictContains top.cmgrs n = false := by
          cases hcc : dictContains top.cmgrs n with
          | false => rfl
          | true =>
            obtain ⟨id0, hid0⟩ := dictLookup_some_of_contains hcc
            exact absurd (h10 top (List.mem_cons_self _ _) (n, id0) (dictLookup_mem hid0)) hnm
        have hfac : dictInsert top.cmgrs n s.nextId = top.cmgrs ++ [(n, s.nextId)] :=
          dictInsert_of_not_contains _ hfc
        have hperm : (liveRegIds ({ s with frames := { top with names := if n ∈ top.names then top.names else n :: top.names, localNames := n :: top.localNames, cmgrs := dictInsert top.cmgrs n s.nextId } :: rest, nextId := s.nextId + 1 } : Context V)).Perm (s.nextId :: liveRegIds s) := by
          simp only [liveRegIds, hs, List.map_cons, List.flatten_cons, hfac, List.map_append,
            List.map_nil]
          exact perm_snoc_middle _ _ _ _
        constructor
        · refine ⟨by simp, h2, ?_, ?_, ?_, ?_, ?_, ?_, ?_, ?_⟩
          · rw [hperm.nodup_iff, List.nodup_cons]
            refine ⟨?_, h3⟩
            intro hmem
            have := h4 _ hmem
            omega
          · intro id hid
            show id < s.nextId + 1
            have hid2 := hperm.mem_iff.mp hid
            rcases List.mem_cons.mp hid2 with hid2 | hid2
            · omega
            · have := h4 id hid2
              omega
          · simpa [List.map_cons] using h5
          · intro f hf
            rcases List.mem_cons.mp hf with hf | hf
            · subst hf
              show top.fid < s.nextId + 1
              have := h6 top (List.mem_cons_self _ _)
              omega
            · show f.fid < s.nextId + 1
              have := h6 f (List.mem_cons_of_mem _ hf)
              omega
          · intro f hf rid hr
            show rid < s.nextId + 1
            rcases List.mem_cons.mp hf with hf | hf
            · subst hf
              have := h7 top (List.mem_cons_self _ _) rid hr
              omega
            · have := h7 f (List.mem_cons_of_mem _ hf) rid hr
              omega
          · simpa [List.map_cons, stackOr] using h8
          · intro f hf kv hkv
            rcases List.mem_cons.mp hf with hf | hf
            · subst hf
              exact List.mem_cons_of_mem _ (h9 top (List.mem_cons_self _ _) kv hkv)
            · exact h9 f (List.mem_cons_of_mem _ hf) kv hkv
          · intro f hf kv hkv
            rcases List.mem_cons.mp hf with hf | hf
            · subst hf
              have hkv2 : kv ∈ top.cmgrs ++ [(n, s.nextId)] := by
                rw [← hfac]
                exact hkv
              rw [List.mem_append] at hkv2
              rcases hkv2 with hkv2 | hkv2
              · exact List.mem_cons_of_mem _ (h10 top (List.mem_cons_self _ _) kv hkv2)
              · rw [List.mem_singleton] at hkv2
                subst hkv2
                exact List.mem_cons_self _ _
            · exact h10 f (List.mem_cons_of_mem _ hf) kv hkv
        · refine ⟨Nat.le_succ _, by rw [hs]; rfl, ?_, by simp [allAcq], ?_, ?_, ?_, ?_⟩
          · intro i f hf
            rw [hs] at hf
            cases i with
            | zero =>
              injection hf with hf
              subst hf
              exact ⟨_, rfl, rfl, rfl, by simp [stackOr, acqRids]⟩
            | succ j =>
              exact ⟨f, hf, rfl, rfl, by simp [acqRids]⟩
          · intro rid hrid
            simp [allAcq] at hrid
          · intro rid hrid
            simp [relRids] at hrid
          · intro f' _ rid _ hcon
            simp [relRids] at hcon
          · intro id
            have hmono : phi ({ s with frames := { top with names := if n ∈ top.names then top.names else n :: top.names, localNames := n :: top.localNames, cmgrs := dictInsert top.cmgrs n s.nextId } :: rest, nextId := s.nextId + 1 } : Context V) id ≤ phi s id := by
              refine phi_le_of_pointwise ?_ id
              intro j f' hf'
              cases j with
              | zero =>
                injection hf' with hf'
                subst hf'
                exact ⟨top, by rw [hs]; rfl, rfl, fun k hk => hk⟩
              | succ j2 =>
                refine ⟨f', ?_, rfl, fun k hk => hk⟩
                rw [hs]
                exact hf'
            simp only [cntInvoke, List.count_nil]
            omega

/-! ### Context-only frame updates (what a cache write changes) -/

theorem ctxOnly_refl {V : Type u} (fs : List (Frame V)) : CtxOnly fs fs :=
  ⟨rfl, fun _ f' hj => ⟨f', hj, rfl, rfl, rfl, rfl, rfl, fun _ hk => hk⟩⟩

theorem ctxOnly_trans {V : Type u} {fs1 fs2 fs3 : List (Frame V)}
    (h12 : CtxOnly fs1 fs2) (h23 : CtxOnly fs2 fs3) : CtxOnly fs1 fs3 := by
  obtain ⟨hl12, hp12⟩ := h12
  obtain ⟨hl23, hp23⟩ := h23
  refine ⟨hl23.trans hl12, ?_⟩
  intro j f3 hj
  obtain ⟨f2, hf2, a23, b23, c23, d23, e23, m23⟩ := hp23 j f3 hj
  obtain ⟨f1, hf1, a12, b12, c12, d12, e12, m12⟩ := hp12 j f2 hf2
  exact ⟨f1, hf1, a23.trans a12, b23.trans b12, c23.trans c12, d23.trans d12, e23.trans e12,
    fun k hk => m23 k (m12 k hk)⟩

theorem ctxOnly_modifyAt {V : Type u} (fs : List (Frame V)) (d : Nat) (n : String) (v : V) :
    CtxOnly fs (modifyAt fs d (fun f => { f with context := dictInsert f.context n v })) := by
  refine ⟨modifyAt_length _ _ _, ?_⟩
  intro j f' hj
  rw [modifyAt_get_q] at hj
  by_cases hjd : j = d
  · rw [if_pos hjd] at hj
    cases hfj : fs.get? j with
    | none =>
      rw [hfj] at hj
      cases hj
    | some f =>
      rw [hfj] at hj
      injection hj with hj
      subst hj
      refine ⟨f, rfl, rfl, rfl, rfl, rfl, rfl, ?_⟩
      intro k hk
      show dictContains (dictInsert f.context n v) k = true
      rw [dictContains_dictInsert, hk]
      simp
  · rw [if_neg hjd] at hj
    exact ⟨f', hj, rfl, rfl, rfl, rfl, rfl, fun _ hk => hk⟩

theorem ctxOnly_copyDown {V : Type u} (fs : List (Frame V)) (n : String) (v : V) :
    CtxOnly fs (copyDown fs n v) := by
  rw [copyDown_eq_modifyAt]
  exact ctxOnly_modifyAt fs 0 n v

theorem ctxOnly_maps {V : Type u} {fs fs' : List (Frame V)} (hco : CtxOnly fs fs') :
    fs'.map (fun f => f.factory.map Prod.snd ++ f.cmgrs.map Prod.snd) =
      fs.map (fun f => f.factory.map Prod.snd ++ f.cmgrs.map Prod.snd) ∧
    fs'.map Frame.fid = fs.map Frame.fid ∧
    fs'.map stackOr = fs.map stackOr := by
  obtain ⟨hlen, hpt⟩ := hco
  have hcases : ∀ (j : Nat), (fs'.get? j = none ∧ fs.get? j = none) ∨
      ∃ f f', fs.get? j = some f ∧ fs'.get? j = some f' ∧ f'.factory = f.factory ∧
        f'.cmgrs = f.cmgrs ∧ f'.fid = f.fid ∧ f'.exitstack = f.exitstack := by
    intro j
    cases hgj : fs'.get? j with
    | none =>
      refine Or.inl ⟨rfl, ?_⟩
      rw [List.get?_eq_none] at hgj ⊢
      omega
    | some f' =>
      obtain ⟨f, hf, hfac, hcm, _, hfid, hex, _⟩ := hpt j f' hgj
      exact Or.inr ⟨f, f', hf, rfl, hfac, hcm, hfid, hex⟩
  refine ⟨?_, ?_, ?_⟩ <;> apply List.ext_get? <;> intro j <;>
    rcases hcases j with ⟨hn1, hn2⟩ | ⟨f, f', hf, hf', hfac, hcm, hfid, hex⟩ <;>
    rw [List.get?_map, List.get?_map]
  · rw [hn1, hn2]
  · rw [hf, hf']
    simp [hfac, hcm]
  · rw [hn1, hn2]
  · rw [hf, hf']
    simp [hfid]
  · rw [hn1, hn2]
  · rw [hf, hf']
    simp [stackOr, hex]

theorem Inv_of_ctxOnly {V : Type u} {s : Context V} {fs' : List (Frame V)}
    (hInv : Inv s) (hco : CtxOnly s.frames fs') : Inv { s with frames := fs' } := by
  obtain ⟨h1, h2, h3, h4, h5, h6, h7, h8, h9, h10⟩ := hInv
  obtain ⟨hreg, hfid, hstk⟩ := ctxOnly_maps hco
  obtain ⟨hlen, hpt⟩ := hco
  refine ⟨?_, h2, ?_, ?_, ?_, ?_, ?_, ?_, ?_, ?_⟩
  · intro hnil
    have hnil2 : fs' = [] := hnil
    rw [hnil2] at hlen
    simp only [List.length_nil] at hlen
    exact h1 (List.length_eq_zero.mp hlen.symm)
  · show ((fs'.map (fun f => f.factory.map Prod.snd ++ f.cmgrs.map Prod.snd)).flatten).Nodup
    rw [hreg]
    exact h3
  · intro id hid
    show id < s.nextId
    refine h4 id ?_
    show id ∈ (s.frames.map (fun f => f.factory.map Prod.snd ++ f.cmgrs.map Prod.snd)).flatten
    rw [← hreg]
    exact hid
  · show (fs'.map Frame.fid).Nodup
    rw [hfid]
    exact h5
  · intro f' hf'
    obtain ⟨j, hj⟩ := List.mem_iff_get?.mp hf'
    obtain ⟨f, hf, _, _, _, hfe, _, _⟩ := hpt j f' hj
    show f'.fid < s.nextId
    rw [hfe]
    exact h6 f (List.get?_mem hf)
  · intro f' hf' rid hr
    obtain ⟨j, hj⟩ := List.mem_iff_get?.mp hf'
    obtain ⟨f, hf, _, _, _, _, hex, _⟩ := hpt j f' hj
    show rid < s.nextId
    refine h7 f (List.get?_mem hf) rid ?_
    show rid ∈ stackOr f
    rw [stackOr, ← hex]
    exact hr
  · show ((fs'.map stackOr).flatten).Nodup
    rw [hstk]
    exact h8
  · intro f' hf' kv hkv
    obtain ⟨j, hj⟩ := List.mem_iff_get?.mp hf'
    obtain ⟨f, hf, hfac, _, hln, _, _, _⟩ := hpt j f' hj
    rw [hfac] at hkv
    rw [hln]
    exact h9 f (List.get?_mem hf) kv hkv
  · intro f' hf' kv hkv
    obtain ⟨j, hj⟩ := List.mem_iff_get?.mp hf'
    obtain ⟨f, hf, _, hcm, hln, _, _, _⟩ := hpt j f' hj
    rw [hcm] at hkv
    rw [hln]
    exact h10 f (List.get?_mem hf) kv hkv

theorem phi_le_of_ctxOnly {V : Type u} {s : Context V} {fs' : List (Frame V)}
    (hco : CtxOnly s.frames fs') (id : Nat) : phi { s with frames := fs' } id ≤ phi s id := by
  refine phi_le_of_pointwise ?_ id
  intro j f' hf'
  obtain ⟨f, hf, hfac, _, _, _, _, hmono⟩ := hco.2 j f' hf'
  exact ⟨f, hf, hfac, hmono⟩

theorem stepok3_of_ctxOnly {V : Type u} {s : Context V} {fs' : List (Frame V)}
    (hco : CtxOnly s.frames fs') {tr : List Event} (hacq0 : ∀ fid, acqRids fid tr = []) :
    ∀ i f, s.frames.get? i = some f → ∃ f', ({ s with frames := fs' } : Context V).frames.get? i =
      some f' ∧ f'.fid = f.fid ∧ f'.exitstack.isSome = f.exitstack.isSome ∧
      stackOr f' = stackOr f ++ acqRids f.fid tr := by
  obtain ⟨hlen, hpt⟩ := hco
  intro i f hf
  cases hgi : fs'.get? i with
  | none =>
    rw [List.get?_eq_none] at hgi
    have hni : s.frames.get? i = none := by
      rw [List.get?_eq_none]
      omega
    rw [hni] at hf
    cases hf
  | some f' =>
    obtain ⟨f2, hf2, _, _, _, hfid, hex, _⟩ := hpt i f' hgi
    rw [hf] at hf2
    injection hf2 with hf2
    subst hf2
    refine ⟨f', rfl, hfid, by rw [hex], ?_⟩
    rw [hacq0, List.append_nil]
    show stackOr f' = stackOr f
    rw [stackOr, stackOr, hex]

/-! ### Soundness of the acquiring branch of get -/

theorem cmgr_acquire_sound {V : Type u} (cenv : Nat → Option V)
    {s : Context V} {n : String} {top : Frame V} {rest : List (Frame V)}
    {d : Nat} {fd : Frame V} {id0 : Nat} {stk : List Nat} {v0 : V}
    (hInvK : Inv s) (hs : s.frames = top :: rest)
    (hgd : (top :: rest).get? d = some fd)
    (hid0 : dictLookup fd.cmgrs n = some id0)
    (hctxd : dictLookup fd.context n = none)
    (hex : fd.exitstack = some stk)
    (hce : cenv id0 = some v0) :
    Inv ({ s with frames := (if 0 < d then copyDown (modifyAt (top :: rest) d (fun g => { g with context := dictInsert g.context n v0, exitstack := some (stk ++ [s.nextId]) })) n v0 else modifyAt (top :: rest) d (fun g => { g with context := dictInsert g.context n v0, exitstack := some (stk ++ [s.nextId]) })), nextId := s.nextId + 1 } : Context V) ∧
    StepOk s ({ s with frames := (if 0 < d then copyDown (modifyAt (top :: rest) d (fun g => { g with context := dictInsert g.context n v0, exitstack := some (stk ++ [s.nextId]) })) n v0 else modifyAt (top :: rest) d (fun g => { g with context := dictInsert g.context n v0, exitstack := some (stk ++ [s.nextId]) })), nextId := s.nextId + 1 } : Context V)
      [Event.acquire fd.fid s.nextId] := by
  obtain ⟨h1, h2, h3, h4, h5, h6, h7, h8, h9, h10⟩ := hInvK
  unfold liveRegIds at h3 h4
  rw [hs] at h3 h4 h5 h6 h7 h8 h9 h10
  have hdlt : d < (top :: rest).length := by
    by_contra hge
    rw [not_lt, ← List.get?_eq_none] at hge
    rw [hge] at hgd
    cases hgd
  have hS1 : Inv ({ s with frames := modifyAt (top :: rest) d (fun g => { g with context := dictInsert g.context n v0, exitstack := some (stk ++ [s.nextId]) }), nextId := s.nextId + 1 } : Context V) ∧
      StepOk s ({ s with frames := modifyAt (top :: rest) d (fun g => { g with context := dictInsert g.context n v0, exitstack := some (stk ++ [s.nextId]) }), nextId := s.nextId + 1 } : Context V)
        [Event.acquire fd.fid s.nextId] := by
    have hmreg : (modifyAt (top :: rest) d (fun g => { g with context := dictInsert g.context n v0, exitstack := some (stk ++ [s.nextId]) })).map (fun f => f.factory.map Prod.snd ++ f.cmgrs.map Prod.snd) =
        (top :: rest).map (fun f => f.factory.map Prod.snd ++ f.cmgrs.map Prod.snd) :=
      map_modifyAt_eq (fun f => f.factory.map Prod.snd ++ f.cmgrs.map Prod.snd)
        (fun g => { g with context := dictInsert g.context n v0, exitstack := some (stk ++ [s.nextId]) }) (fun f => rfl) (top :: rest) d
    have hmfid : (modifyAt (top :: rest) d (fun g => { g with context := dictInsert g.context n v0, exitstack := some (stk ++ [s.nextId]) })).map Frame.fid = (top :: rest).map Frame.fid :=
      map_modifyAt_eq Frame.fid (fun g => { g with context := dictInsert g.context n v0, exitstack := some (stk ++ [s.nextId]) }) (fun f => rfl) (top :: rest) d
    have hstkperm : (((modifyAt (top :: rest) d (fun g => { g with context := dictInsert g.context n v0, exitstack := some (stk ++ [s.nextId]) })).map stackOr).flatten).Perm
        (s.nextId :: ((top :: rest).map stackOr).flatten) := by
      refine flatten_map_modifyAt_perm stackOr _ hgd ?_
      show stk ++ [s.nextId] = stackOr fd ++ [s.nextId]
      rw [stackOr, hex]
      rfl
    have hfresh : s.nextId ∉ ((top :: rest).map stackOr).flatten := by
      intro hmem
      rw [List.mem_flatten] at hmem
      obtain ⟨l, hl, hml⟩ := hmem
      rw [List.mem_map] at hl
      obtain ⟨f, hf, hfl⟩ := hl
      subst hfl
      exact absurd (h7 f hf s.nextId hml) (by omega)
    constructor
    · refine ⟨?_, h2, ?_, ?_, ?_, ?_, ?_, ?_, ?_, ?_⟩
      · intro hnil
        have hl := modifyAt_length (top :: rest) d (fun g => { g with context := dictInsert g.context n v0, exitstack := some (stk ++ [s.nextId]) })
        rw [show (modifyAt (top :: rest) d (fun g => { g with context := dictInsert g.context n v0, exitstack := some (stk ++ [s.nextId]) })) = ([] : List (Frame V)) from hnil] at hl
        simp at hl
      · show (((modifyAt (top :: rest) d (fun g => { g with context := dictInsert g.context n v0, exitstack := some (stk ++ [s.nextId]) })).map (fun f => f.factory.map Prod.snd ++ f.cmgrs.map Prod.snd)).flatten).Nodup
        rw [hmreg]
        exact h3
      · intro id hid
        show id < s.nextId + 1
        have hid2 : id ∈ ((top :: rest).map
            (fun f => f.factory.map Prod.snd ++ f.cmgrs.map Prod.snd)).flatten := by
          rw [← hmreg]
          exact hid
        have := h4 id hid2
        omega
      · show ((modifyAt (top :: rest) d (fun g => { g with context := dictInsert g.context n v0, exitstack := some (stk ++ [s.nextId]) })).map Frame.fid).Nodup
        rw [hmfid]
        exact h5
      · intro f hf
        rcases mem_modifyAt f hf with hf2 | ⟨f0, hf0, hf0e⟩
        · show f.fid < s.nextId + 1
          have := h6 f hf2
          omega
        · subst hf0e
          show f0.fid < s.nextId + 1
          have := h6 f0 (List.get?_mem hf0)
          omega
      · intro f hf rid hr
        show rid < s.nextId + 1
        rcases mem_modifyAt f hf with hf2 | ⟨f0, hf0, hf0e⟩
        · have := h7 f hf2 rid hr
          omega
        · subst hf0e
          have hr2 : rid ∈ stk ++ [s.nextId] := hr
          rw [List.mem_append, List.mem_singleton] at hr2
          rcases hr2 with hr2 | hr2
          · have hrs : rid ∈ stackOr f0 := by
              have hf0d : f0 = fd := by
                rw [hgd] at hf0
                injection hf0 with hf0
                exact hf0.symm
              rw [hf0d, stackOr, hex]
              exact hr2
            have := h7 f0 (List.get?_mem hf0) rid hrs
            omega
          · omega
      · show (((modifyAt (top :: rest) d (fun g => { g with context := dictInsert g.context n v0, exitstack := some (stk ++ [s.nextId]) })).map stackOr).flatten).Nodup
        rw [hstkperm.nodup_iff, List.nodup_cons]
        exact ⟨hfresh, h8⟩
      · intro f hf kv hkv
        rcases mem_modifyAt f hf with hf2 | ⟨f0, hf0, hf0e⟩
        · exact h9 f hf2 kv hkv
        · subst hf0e
          exact h9 f0 (List.get?_mem hf0) kv hkv
      · intro f hf kv hkv
        rcases mem_modifyAt f hf with hf2 | ⟨f0, hf0, hf0e⟩
        · exact h10 f hf2 kv hkv
        · subst hf0e
          exact h10 f0 (List.get?_mem hf0) kv hkv
    · refine ⟨Nat.le_succ _, ?_, ?_, ?_, ?_, ?_, ?_, ?_⟩
      · show (modifyAt (top :: rest) d (fun g => { g with context := dictInsert g.context n v0, exitstack := some (stk ++ [s.nextId]) })).length = s.frames.length
        rw [modifyAt_length, hs]
      · intro i f hf
        rw [hs] at hf
        by_cases hidx : i = d
        · rw [hidx] at hf
          rw [hgd] at hf
          injection hf with hf
          subst hf
          refine ⟨(fun g => { g with context := dictInsert g.context n v0, exitstack := some (stk ++ [s.nextId]) }) fd, ?_, rfl, ?_, ?_⟩
          · show (modifyAt (top :: rest) d (fun g => { g with context := dictInsert g.context n v0, exitstack := some (stk ++ [s.nextId]) })).get? i = some ((fun g => { g with context := dictInsert g.context n v0, exitstack := some (stk ++ [s.nextId]) }) fd)
            rw [hidx, modifyAt_get_q, if_pos rfl, hgd]
            rfl
          · show (some (stk ++ [s.nextId])).isSome = fd.exitstack.isSome
            rw [hex]
            rfl
          · rw [acqRids_acquire, if_pos rfl]
            show stk ++ [s.nextId] = stackOr fd ++ [s.nextId]
            rw [stackOr, hex]
            rfl
        · have hfidne : fd.fid ≠ f.fid := by
            intro hfe
            have hmapd : ((top :: rest).map Frame.fid).get? d = some fd.fid := by
              rw [List.get?_map, hgd]
              rfl
            have hmapi : ((top :: rest).map Frame.fid).get? i = some f.fid := by
              rw [List.get?_map, hf]
              rfl
            have hdi : d = i :=
              List.get?_inj (by rw [List.length_map]; exact hdlt) h5
                (by rw [hmapd, hmapi, hfe])
            exact hidx hdi.symm
          refine ⟨f, ?_, rfl, rfl, ?_⟩
          · show (modifyAt (top :: rest) d (fun g => { g with context := dictInsert g.context n v0, exitstack := some (stk ++ [s.nextId]) })).get? i = some f
            rw [modifyAt_get_q, if_neg hidx]
            exact hf
          · rw [acqRids_acquire, if_neg hfidne, List.append_nil]
      · rw [allAcq_acquire]
        simp
      · intro rid hr
        rw [allAcq_acquire, List.mem_singleton] at hr
        subst hr
        exact ⟨le_refl _, by show s.nextId < s.nextId + 1; omega⟩
      · intro rid hr
        rw [relRids_acquire] at hr
        simp at hr
      · intro f' _ rid _ hcon
        rw [relRids_acquire] at hcon
        simp at hcon
      · intro id
        rw [cntInvoke_acquire]
        have hmono : phi ({ s with frames := modifyAt (top :: rest) d (fun g => { g with context := dictInsert g.context n v0, exitstack := some (stk ++ [s.nextId]) }), nextId := s.nextId + 1 } : Context V) id ≤
            phi s id := by
          refine phi_le_of_pointwise ?_ id
          intro j f' hf'
          have hf'2 : (modifyAt (top :: rest) d (fun g => { g with context := dictInsert g.context n v0, exitstack := some (stk ++ [s.nextId]) })).get? j = some f' := hf'
          rw [modifyAt_get_q] at hf'2
          by_cases hjd : j = d
          · rw [if_pos hjd, hjd, hgd] at hf'2
            injection hf'2 with hf'2
            subst hf'2
            refine ⟨fd, by rw [hs, hjd]; exact hgd, rfl, ?_⟩
            intro k hk
            show dictContains (dictInsert fd.context n v0) k = true
            rw [dictContains_dictInsert, hk]
            simp
          · rw [if_neg hjd] at hf'2
            refine ⟨f', by rw [hs]; exact hf'2, rfl, fun k hk => hk⟩
        omega
  obtain ⟨hI1, hSt1⟩ := hS1
  have hco2 : CtxOnly ({ s with frames := modifyAt (top :: rest) d (fun g => { g with context := dictInsert g.context n v0, exitstack := some (stk ++ [s.nextId]) }), nextId := s.nextId + 1 } : Context V).frames
      (if 0 < d then copyDown (modifyAt (top :: rest) d (fun g => { g with context := dictInsert g.context n v0, exitstack := some (stk ++ [s.nextId]) })) n v0 else modifyAt (top :: rest) d (fun g => { g with context := dictInsert g.context n v0, exitstack := some (stk ++ [s.nextId]) })) := by
    show CtxOnly (modifyAt (top :: rest) d (fun g => { g with context := dictInsert g.context n v0, exitstack := some (stk ++ [s.nextId]) })) (if 0 < d then copyDown (modifyAt (top :: rest) d (fun g => { g with context := dictInsert g.context n v0, exitstack := some (stk ++ [s.nextId]) })) n v0 else modifyAt (top :: rest) d (fun g => { g with context := dictInsert g.context n v0, exitstack := some (stk ++ [s.nextId]) }))
    split
    · exact ctxOnly_copyDown _ _ _
    · exact ctxOnly_refl _
  constructor
  · exact Inv_of_ctxOnly hI1 hco2
  · rw [show ([Event.acquire fd.fid s.nextId] : List Event) =
      [Event.acquire fd.fid s.nextId] ++ [] from (List.append_nil _).symm]
    refine StepOk_trans hSt1 ?_
    refine ⟨le_refl _, hco2.1, stepok3_of_ctxOnly hco2 (fun fid => rfl), by simp [allAcq],
      ?_, ?_, ?_, ?_⟩
    · intro rid hr
      simp [allAcq] at hr
    · intro rid hr
      simp [relRids] at hr
    · intro f' _ rid _ hcon
      simp [relRids] at hcon
    · intro id
      have hmono := phi_le_of_ctxOnly hco2 id
      simp only [cntInvoke, List.count_nil]
      exact le_trans (le_of_eq (Nat.zero_add _)) (le_trans hmono (Nat.le_add_right _ _))

/-! ### Soundness of get -/

theorem get_sound {V : Type u} (fenv : Nat → V) (cenv : Nat → Option V)
    {s : Context V} {n : String} {v : V} {s' : Context V} {tr : List Event}
    (hInv : Inv s) (h : Context.get fenv cenv s n = .ok (v, s', tr)) :
    Inv s' ∧ StepOk s s' tr := by
  have hInvK := hInv
  obtain ⟨h1, h2, h3, h4, h5, h6, h7, h8, h9, h10⟩ := hInv
  cases hs : s.frames with
  | nil =>
    rw [hs] at h1
    exact absurd rfl h1
  | cons top rest =>
    rw [hs] at h5 h6 h7 h8 h9 h10
    simp only [Context.get, hs] at h
    cases hctx : dictLookup top.context n with
    | some v0 =>
      rw [hctx] at h
      simp only [] at h
      injection h with h
      injection h with hv h
      injection h with hst htr
      subst hv
      subst htr
      subst hst
      exact ⟨hInvK, StepOk_refl s⟩
    | none =>
      rw [hctx] at h
      simp only [] at h
      rw [scanFactory_spec] at h
      cases hff : findFrameIdx Frame.factory n (top :: rest) with
      | some d =>
        obtain ⟨fd, hgd, hcf⟩ := findFrameIdx_valid Frame.factory n (top :: rest) d hff
        obtain ⟨id0, hid0⟩ := dictLookup_some_of_contains hcf
        rw [hff] at h
        simp only [hgd, hid0] at h
        cases hctxd : dictLookup fd.context n with
        | some v0 =>
          rw [hctxd] at h
          simp only [] at h
          injection h with h
          injection h with hv h
          injection h with hst htr
          subst hv
          subst htr
          subst hst
          have hco : CtxOnly s.frames
              (if 0 < d then copyDown (top :: rest) n v0 else top :: rest) := by
            rw [hs]
            split
            · exact ctxOnly_copyDown _ _ _
            · exact ctxOnly_refl _
          refine ⟨Inv_of_ctxOnly hInvK hco, le_refl _, hco.1,
            stepok3_of_ctxOnly hco (fun fid => rfl), by simp [allAcq], ?_, ?_, ?_, ?_⟩
          · intro rid hr
            simp [allAcq] at hr
          · intro rid hr
            simp [relRids] at hr
          · intro f' _ rid _ hcon
            simp [relRids] at hcon
          · intro id
            have hmono := phi_le_of_ctxOnly hco id
            simp only [cntInvoke, List.count_nil]
            exact le_trans (le_of_eq (Nat.zero_add _)) (le_trans hmono (Nat.le_add_right _ _))
        | none =>
          rw [hctxd] at h
          simp only [] at h
          injection h with h
          injection h with hv h
          injection h with hst htr
          subst hv
          subst htr
          subst hst
          have hco : CtxOnly s.frames (if 0 < d then copyDown (modifyAt (top :: rest) d (fun g => { g with context := dictInsert g.context n (fenv id0) })) n (fenv id0) else modifyAt (top :: rest) d (fun g => { g with context := dictInsert g.context n (fenv id0) })) := by
            rw [hs]
            split
            · exact ctxOnly_trans (ctxOnly_modifyAt _ _ _ _) (ctxOnly_copyDown _ _ _)
            · exact ctxOnly_modifyAt _ _ _ _
          have hXd : ∀ f', ((if 0 < d then copyDown (modifyAt (top :: rest) d (fun g => { g with context := dictInsert g.context n (fenv id0) })) n (fenv id0) else modifyAt (top :: rest) d (fun g => { g with context := dictInsert g.context n (fenv id0) }))).get? d = some f' → dictContains f'.context n = true := by
            intro f' hf'
            split at hf'
            · rename_i hd0
              rw [copyDown_eq_modifyAt, modifyAt_get_q] at hf'
              rw [if_neg (by omega)] at hf'
              rw [modifyAt_get_q, if_pos rfl, hgd] at hf'
              injection hf' with hf'
              subst hf'
              show dictContains (dictInsert fd.context n (fenv id0)) n = true
              rw [dictContains_dictInsert]
              simp
            · rw [modifyAt_get_q, if_pos rfl, hgd] at hf'
              injection hf' with hf'
              subst hf'
              show dictContains (dictInsert fd.context n (fenv id0)) n = true
              rw [dictContains_dictInsert]
              simp
          refine ⟨Inv_of_ctxOnly hInvK hco, le_refl _, hco.1,
            stepok3_of_ctxOnly hco (fun fid => rfl), by simp [allAcq], ?_, ?_, ?_, ?_⟩
          · intro rid hr
            simp [allAcq] at hr
          · intro rid hr
            simp [relRids] at hr
          · intro f' _ rid _ hcon
            simp [relRids] at hcon
          · intro id
            rw [cntInvoke_invoke]
            by_cases hid : id0 = id
            · subst hid
              have hinvoc : invocable s id0 = true := by
                unfold invocable
                rw [List.any_eq_true]
                refine ⟨fd, ?_, ?_⟩
                · rw [hs]
                  exact List.get?_mem hgd
                · rw [List.any_eq_true]
                  refine ⟨(n, id0), dictLookup_mem hid0, ?_⟩
                  rw [Bool.and_eq_true]
                  refine ⟨by simp, ?_⟩
                  rw [Bool.not_eq_true']
                  show dictContains fd.context n = false
                  rw [dictContains_eq_isSome, hctxd]
                  rfl
              have hnot : invocable ({ s with frames := (if 0 < d then copyDown (modifyAt (top :: rest) d (fun g => { g with context := dictInsert g.context n (fenv id0) })) n (fenv id0) else modifyAt (top :: rest) d (fun g => { g with context := dictInsert g.context n (fenv id0) })) } : Context V) id0 = false := by
                cases hinv2 : invocable ({ s with frames := (if 0 < d then copyDown (modifyAt (top :: rest) d (fun g => { g with context := dictInsert g.context n (fenv id0) })) n (fenv id0) else modifyAt (top :: rest) d (fun g => { g with context := dictInsert g.context n (fenv id0) })) } : Context V) id0 with
                | false => rfl
                | true =>
                  exfalso
                  unfold invocable at hinv2
                  rw [List.any_eq_true] at hinv2
                  obtain ⟨f', hmf', hpf'⟩ := hinv2
                  obtain ⟨j, hj⟩ := List.mem_iff_get?.mp hmf'
                  obtain ⟨f, hf, hfacx, _, _, _, _, _⟩ := hco.2 j f' hj
                  rw [List.any_eq_true] at hpf'
                  obtain ⟨kv, hkv, hkvp⟩ := hpf'
                  rw [Bool.and_eq_true, decide_eq_true_eq, Bool.not_eq_true'] at hkvp
                  obtain ⟨hkv2, hkvc⟩ := hkvp
                  rw [hfacx] at hkv
                  have hun := factory_entry_unique hInvK.2.2.1 hf
                    (show s.frames.get? d = some fd by rw [hs]; exact hgd)
                    hkv (dictLookup_mem hid0) hkv2
                  obtain ⟨hjd, hkvn⟩ := hun
                  subst hkvn
                  subst hjd
                  have hct := hXd f' hj
                  have hkvc2 : dictContains f'.context n = false := hkvc
                  rw [hct] at hkvc2
                  exact absurd hkvc2 (by decide)
              have hps : phi s id0 = 1 := by
                unfold phi
                rw [hinvoc]
                rfl
              have hps' : phi ({ s with frames := (if 0 < d then copyDown (modifyAt (top :: rest) d (fun g => { g with context := dictInsert g.context n (fenv id0) })) n (fenv id0) else modifyAt (top :: rest) d (fun g => { g with context := dictInsert g.context n (fenv id0) })) } : Context V) id0 = 0 := by
                unfold phi
                rw [hnot]
                rfl
              rw [if_pos rfl, hps, hps']
              omega
            · rw [if_neg hid]
              have hmono := phi_le_of_ctxOnly hco id
              exact le_trans (le_of_eq (Nat.zero_add _)) (le_trans hmono (Nat.le_add_right _ _))
      | none =>
        rw [hff] at h
        simp only [] at h
        rw [scanCmgr_spec] at h
        cases hfcm : findFrameIdx Frame.cmgrs n (top :: rest) with
        | none =>
          rw [hfcm] at h
          simp at h
        | some d =>
          obtain ⟨fd, hgd, hcf⟩ := findFrameIdx_valid Frame.cmgrs n (top :: rest) d hfcm
          obtain ⟨id0, hid0⟩ := dictLookup_some_of_contains hcf
          rw [hfcm] at h
          simp only [hgd, hid0] at h
          cases hctxd : dictLookup fd.context n with
          | some v0 =>
            rw [hctxd] at h
            simp only [] at h
            rw [if_neg Bool.false_ne_true] at h
            injection h with h
            injection h with hv h
            injection h with hst htr
            subst hv
            subst htr
            subst hst
            have hco : CtxOnly s.frames
                (if 0 < d then copyDown (top :: rest) n v0 else top :: rest) := by
              rw [hs]
              split
              · exact ctxOnly_copyDown _ _ _
              · exact ctxOnly_refl _
            refine ⟨Inv_of_ctxOnly hInvK hco, le_refl _, hco.1,
              stepok3_of_ctxOnly hco (fun fid => rfl), by simp [allAcq], ?_, ?_, ?_, ?_⟩
            · intro rid hr
              simp [allAcq] at hr
            · intro rid hr
              simp [relRids] at hr
            · intro f' _ rid _ hcon
              simp [relRids] at hcon
            · intro id
              have hmono := phi_le_of_ctxOnly hco id
              simp only [cntInvoke, List.count_nil]
              exact le_trans (le_of_eq (Nat.zero_add _)) (le_trans hmono (Nat.le_add_right _ _))
          | none =>
            rw [hctxd] at h
            simp only [] at h
            cases hex : fd.exitstack with
            | none =>
              rw [hex] at h
              simp at h
            | some stk =>
              rw [hex] at h
              simp only [] at h
              cases hce : cenv id0 with
              | none =>
                rw [hce] at h
                simp at h
              | some v0 =>
                rw [hce] at h
                simp only [] at h
                injection h with h
                injection h with hv h
                injection h with hst htr
                subst hv
                subst htr
                subst hst
                exact cmgr_acquire_sound cenv hInvK hs hgd hid0 hctxd hex hce

/-! ### Soundness of whole programs -/

theorem exec_sound {V : Type u} (fenv : Nat → V) (cenv : Nat → Option V) :
    ∀ (p : Prog V) (s : Context V), Inv s →
      ∀ s' tr err, exec fenv cenv p s = (s', tr, err) → Inv s' ∧ StepOk s s' tr := by
  intro p
  induction p with
  | skip =>
    intro s hInv s' tr err hex
    simp only [exec] at hex
    injection hex with ha hb
    injection hb with hb hc
    subst ha
    subst hb
    exact ⟨hInv, StepOk_refl s⟩
  | set n v =>
    intro s hInv s' tr err hex
    simp only [exec] at hex
    cases hop : Context.set s n v with
    | ok s1 =>
      rw [hop] at hex
      simp only [] at hex
      injection hex with ha hb
      injection hb with hb hc
      subst ha
      subst hb
      exact set_sound hInv hop
    | error e =>
      rw [hop] at hex
      simp only [] at hex
      injection hex with ha hb
      injection hb with hb hc
      subst ha
      subst hb
      exact ⟨hInv, StepOk_refl s⟩
  | bind n =>
    intro s hInv s' tr err hex
    simp only [exec] at hex
    cases hop : Context.bind s n with
    | ok s1 =>
      rw [hop] at hex
      simp only [] at hex
      injection hex with ha hb
      injection hb with hb hc
      subst ha
      subst hb
      exact bind_sound hInv hop
    | error e =>
      rw [hop] at hex
      simp only [] at hex
      injection hex with ha hb
      injection hb with hb hc
      subst ha
      subst hb
      exact ⟨hInv, StepOk_refl s⟩
  | attach n =>
    intro s hInv s' tr err hex
    simp only [exec] at hex
    cases hop : Context.attach s n with
    | ok s1 =>
      rw [hop] at hex
      simp only [] at hex
      injection hex with ha hb
      injection hb with hb hc
      subst ha
      subst hb
      exact attach_sound hInv hop
    | error e =>
      rw [hop] at hex
      simp only [] at hex
      injection hex with ha hb
      injection hb with hb hc
      subst ha
      subst hb
      exact ⟨hInv, StepOk_refl s⟩
  | get n =>
    intro s hInv s' tr err hex
    simp only [exec] at hex
    cases hop : Context.get fenv cenv s n with
    | ok res =>
      obtain ⟨v1, s1, tr1⟩ := res
      rw [hop] at hex
      simp only [] at hex
      injection hex with ha hb
      injection hb with hb hc
      subst ha
      subst hb
      exact get_sound fenv cenv hInv hop
    | error e =>
      rw [hop] at hex
      simp only [] at hex
      injection hex with ha hb
      injection hb with hb hc
      subst ha
      subst hb
      exact ⟨hInv, StepOk_refl s⟩
  | seq p q ihp ihq =>
    intro s hInv s' tr err hex
    simp only [exec] at hex
    cases hp : exec fenv cenv p s with
    | mk s1 t1e =>
      obtain ⟨t1, e1⟩ := t1e
      rw [hp] at hex
      cases e1 with
      | none =>
        simp only [] at hex
        cases hq : exec fenv cenv q s1 with
        | mk s2 t2e =>
          obtain ⟨t2, e2⟩ := t2e
          rw [hq] at hex
          simp only [] at hex
          injection hex with ha hb
          injection hb with hb hc
          subst ha
          subst hb
          obtain ⟨hI1, hS1⟩ := ihp s hInv s1 t1 none hp
          obtain ⟨hI2, hS2⟩ := ihq s1 hI1 s2 t2 e2 hq
          exact ⟨hI2, StepOk_trans hS1 hS2⟩
      | some e =>
        simp only [] at hex
        injection hex with ha hb
        injection hb with hb hc
        subst ha
        subst hb
        exact ihp s hInv s1 t1 (some e) hp
  | scope p ihp =>
    intro s hInv s' tr err hex
    have hInvK := hInv
    obtain ⟨h1, h2, h3, h4, h5, h6, h7, h8, h9, h10⟩ := hInv
    simp only [exec] at hex
    cases hp : exec fenv cenv p (Context.enter s) with
    | mk s1 t1e =>
      obtain ⟨t1, e1⟩ := t1e
      rw [hp] at hex
      simp only [] at hex
      have hIe : Inv (Context.enter s) := Inv_enter hInvK
      obtain ⟨hI1, hS1⟩ := ihp (Context.enter s) hIe s1 t1 e1 hp
      have hI1K := hI1
      obtain ⟨g1, g2, g3, g4, g5, g6, g7, g8, g9, g10⟩ := hI1K
      obtain ⟨hn1, hl1, hp1, ha1, hb1, hr1, hx1, hphi1⟩ := hS1
      cases hs : s.frames with
      | nil => exact absurd hs h1
      | cons top rest =>
        have hef := enter_frames hs h2
        have hget0 : (Context.enter s).frames.get? 0 =
            some { context := top.context, factory := [], cmgrs := [], names := top.names,
                   localNames := [], exitstack := some [], fid := s.nextId } := by
          rw [hef]
          rfl
        obtain ⟨f1, hf1, hfid1, hex1, hst1⟩ := hp1 0 _ hget0
        cases hex1s : f1.exitstack with
        | none =>
          rw [hex1s] at hex1
          simp at hex1
        | some stkA =>
          cases hfr1 : s1.frames with
          | nil =>
            rw [hfr1] at hf1
            cases hf1
          | cons f1h tail1 =>
            rw [hfr1] at hf1
            injection hf1 with hf1e
            rw [hf1e] at hfr1
            have hexq : Context.exit s1 =
                ({ s1 with frames := tail1 }, stkA.reverse.map Event.release) := by
              simp only [Context.exit, hfr1, hex1s]
            rw [hexq] at hex
            simp only [] at hex
            injection hex with ha hb
            injection hb with hb hc
            subst ha
            subst hb
            have hstA : stkA = acqRids s.nextId t1 := by
              have h0 := hst1
              simp only [stackOr, hex1s, Option.getD_some, List.nil_append] at h0
              exact h0
            have hlen1 : s1.frames.length = (top :: rest).length + 1 := by
              rw [hl1, hef]
              rfl
            have htail : tail1 ≠ [] := by
              intro hnil
              rw [hfr1, hnil] at hlen1
              simp at hlen1
            refine ⟨Inv_pop hI1 hfr1 htail, ?_, ?_, ?_, ?_, ?_, ?_, ?_, ?_⟩
            · show s.nextId ≤ s1.nextId
              have hn1e : s.nextId + 1 ≤ s1.nextId := by
                rw [hef] at hn1
                exact hn1
              omega
            · show tail1.length = s.frames.length
              rw [hfr1] at hlen1
              simp only [List.length_cons] at hlen1
              rw [hs]
              simp only [List.length_cons] at hlen1 ⊢
              omega
            · intro i f hf
              have hfe : (Context.enter s).frames.get? (i + 1) = some f := by
                rw [hef]
                rw [hs] at hf
                exact hf
              obtain ⟨f2, hf2, hfid2, hex2, hst2⟩ := hp1 (i + 1) f hfe
              refine ⟨f2, ?_, hfid2, hex2, ?_⟩
              · show tail1.get? i = some f2
                rw [hfr1] at hf2
                exact hf2
              · rw [acqRids_append, acqRids_release_map, List.append_nil]
                exact hst2
            · rw [allAcq_append, allAcq_release_map, List.append_nil]
              exact ha1
            · intro rid hr
              rw [allAcq_append, allAcq_release_map, List.append_nil] at hr
              obtain ⟨hga, hgb⟩ := hb1 rid hr
              have hga2 : s.nextId + 1 ≤ rid := by
                rw [hef] at hga
                exact hga
              exact ⟨by omega, by show rid < s1.nextId; exact hgb⟩
            · intro rid hr
              rw [relRids_append, relRids_release_map, List.mem_append] at hr
              show rid < s1.nextId
              rcases hr with hr | hr
              · exact hr1 rid hr
              · rw [List.mem_reverse] at hr
                refine g7 f1 ?_ rid ?_
                · rw [hfr1]
                  exact List.mem_cons_self _ _
                · show rid ∈ stackOr f1
                  rw [stackOr, hex1s]
                  exact hr
            · intro f' hf'mem rid hrid hcon
              have hf'2 : f' ∈ tail1 := hf'mem
              rw [relRids_append, relRids_release_map, List.mem_append] at hcon
              rcases hcon with hcon | hcon
              · refine hx1 f' ?_ rid hrid hcon
                rw [hfr1]
                exact List.mem_cons_of_mem _ hf'2
              · rw [List.mem_reverse] at hcon
                rw [hfr1] at g8
                simp only [List.map_cons, List.flatten_cons, List.nodup_append] at g8
                exact g8.2.2
                  (show rid ∈ stackOr f1 from by rw [stackOr, hex1s]; exact hcon)
                  (List.mem_flatten.mpr ⟨stackOr f', List.mem_map_of_mem _ hf'2, hrid⟩)
            · intro id
              show cntInvoke (t1 ++ stkA.reverse.map Event.release) id +
                  phi ({ s1 with frames := tail1 } : Context V) id ≤
                phi s id + spanInd s.nextId s1.nextId id
              rw [cntInvoke_append, cntInvoke_release_map]
              have hq := hphi1 id
              rw [phi_enter] at hq
              have hsp : spanInd (Context.enter s).nextId s1.nextId id ≤
                  spanInd s.nextId s1.nextId id := by
                refine spanInd_mono ?_ (le_refl _) id
                rw [hef]
                exact Nat.le_succ _
              have hpop := phi_pop_le hfr1 id
              omega

/-! ### A second get returns the cached value -/

theorem get_cached {V : Type u} (fenv : Nat → V) (cenv : Nat → Option V)
    {s' : Context V} {n : String} {v : V} {htop : Frame V} {hrest : List (Frame V)}
    (hfr : s'.frames = htop :: hrest) (hlook : dictLookup htop.context n = some v) :
    Context.get fenv cenv s' n = .ok (v, s', []) := by
  simp only [Context.get, hfr, hlook]

theorem get_idempotent {V : Type u} (fenv : Nat → V) (cenv : Nat → Option V)
    (s : Context V) (n : String) (v : V) (s' : Context V) (tr : List Event)
    (h : Context.get fenv cenv s n = .ok (v, s', tr)) :
    Context.get fenv cenv s' n = .ok (v, s', []) := by
  cases hs : s.frames with
  | nil =>
    simp only [Context.get, hs] at h
    simp at h
  | cons top rest =>
    simp only [Context.get, hs] at h
    cases hctx : dictLookup top.context n with
    | some v0 =>
      rw [hctx] at h
      simp only [] at h
      injection h with h
      injection h with hv h
      injection h with hst htr
      subst hv
      subst htr
      subst hst
      exact get_cached fenv cenv hs hctx
    | none =>
      rw [hctx] at h
      simp only [] at h
      rw [scanFactory_spec] at h
      cases hff : findFrameIdx Frame.factory n (top :: rest) with
      | some d =>
        obtain ⟨fd, hgd, hcf⟩ := findFrameIdx_valid Frame.factory n (top :: rest) d hff
        obtain ⟨id0, hid0⟩ := dictLookup_some_of_contains hcf
        rw [hff] at h
        simp only [hgd, hid0] at h
        cases hctxd : dictLookup fd.context n with
        | some v0 =>
          rw [hctxd] at h
          simp only [] at h
          injection h with h
          injection h with hv h
          injection h with hst htr
          subst hv
          subst htr
          subst hst
          have hd : 0 < d := by
            rcases Nat.eq_zero_or_pos d with h0 | h0
            · exfalso
              subst h0
              have hgd0 : some top = some fd := hgd
              injection hgd0 with hgd0
              rw [← hgd0] at hctxd
              rw [hctx] at hctxd
              cases hctxd
            · exact h0
          have hfr2 : ({ s with frames := (if 0 < d then copyDown (top :: rest) n v0 else top :: rest) } : Context V).frames =
              { top with context := dictInsert top.context n v0 } :: rest := by
            show (if 0 < d then copyDown (top :: rest) n v0 else top :: rest) = _
            rw [if_pos hd]
            rfl
          exact get_cached fenv cenv hfr2 (dictLookup_dictInsert_self _ _ _)
        | none =>
          rw [hctxd] at h
          simp only [] at h
          injection h with h
          injection h with hv h
          injection h with hst htr
          subst hv
          subst htr
          subst hst
          by_cases hd : 0 < d
          · obtain ⟨j, rfl⟩ : ∃ j, d = j + 1 := ⟨d - 1, by omega⟩
            have hfr2 : ({ s with frames := (if 0 < j + 1 then copyDown (modifyAt (top :: rest) (j + 1) (fun g => { g with context := dictInsert g.context n (fenv id0) })) n (fenv id0) else modifyAt (top :: rest) (j + 1) (fun g => { g with context := dictInsert g.context n (fenv id0) })) } : Context V).frames =
                { top with context := dictInsert top.context n (fenv id0) } ::
                  modifyAt rest j (fun g => { g with context := dictInsert g.context n (fenv id0) }) := by
              show (if 0 < j + 1 then copyDown (modifyAt (top :: rest) (j + 1) (fun g => { g with context := dictInsert g.context n (fenv id0) })) n (fenv id0) else modifyAt (top :: rest) (j + 1) (fun g => { g with context := dictInsert g.context n (fenv id0) })) = _
              rw [if_pos hd]
              rfl
            exact get_cached fenv cenv hfr2 (dictLookup_dictInsert_self _ _ _)
          · obtain rfl : d = 0 := by omega
            have hfr2 : ({ s with frames := (if 0 < 0 then copyDown (modifyAt (top :: rest) 0 (fun g => { g with context := dictInsert g.context n (fenv id0) })) n (fenv id0) else modifyAt (top :: rest) 0 (fun g => { g with context := dictInsert g.context n (fenv id0) })) } : Context V).frames =
                { top with context := dictInsert top.context n (fenv id0) } :: rest := by
              show (if 0 < 0 then copyDown (modifyAt (top :: rest) 0 (fun g => { g with context := dictInsert g.context n (fenv id0) })) n (fenv id0) else modifyAt (top :: rest) 0 (fun g => { g with context := dictInsert g.context n (fenv id0) })) = _
              rw [if_neg hd]
              rfl
            exact get_cached fenv cenv hfr2 (dictLookup_dictInsert_self _ _ _)
      | none =>
        rw [hff] at h
        simp only [] at h
        rw [scanCmgr_spec] at h
        cases hfcm : findFrameIdx Frame.cmgrs n (top :: rest) with
        | none =>
          rw [hfcm] at h
          simp at h
        | some d =>
          obtain ⟨fd, hgd, hcf⟩ := findFrameIdx_valid Frame.cmgrs n (top :: rest) d hfcm
          obtain ⟨id0, hid0⟩ := dictLookup_some_of_contains hcf
          rw [hfcm] at h
          simp only [hgd, hid0] at h
          cases hctxd : dictLookup fd.context n with
          | some v0 =>
            rw [hctxd] at h
            simp only [] at h
            rw [if_neg Bool.false_ne_true] at h
            injection h with h
            injection h with hv h
            injection h with hst htr
            subst hv
            subst htr
            subst hst
            have hd : 0 < d := by
              rcases Nat.eq_zero_or_pos d with h0 | h0
              · exfalso
                subst h0
                have hgd0 : some top = some fd := hgd
                injection hgd0 with hgd0
                rw [← hgd0] at hctxd
                rw [hctx] at hctxd
                cases hctxd
              · exact h0
            have hfr2 : ({ s with frames := (if 0 < d then copyDown (top :: rest) n v0 else top :: rest), nextId := s.nextId } : Context V).frames =
                { top with context := dictInsert top.context n v0 } :: rest := by
              show (if 0 < d then copyDown (top :: rest) n v0 else top :: rest) = _
              rw [if_pos hd]
              rfl
            exact get_cached fenv cenv hfr2 (dictLookup_dictInsert_self _ _ _)
          | none =>
            rw [hctxd] at h
            simp only [] at h
            cases hex : fd.exitstack with
            | none =>
              rw [hex] at h
              simp at h
            | some stk =>
              rw [hex] at h
              simp only [] at h
              cases hce : cenv id0 with
              | none =>
                rw [hce] at h
                simp at h
              | some v0 =>
                rw [hce] at h
                simp only [] at h
                injection h with h
                injection h with hv h
                injection h with hst htr
                subst hv
                subst htr
                subst hst
                by_cases hd : 0 < d
                · obtain ⟨j, rfl⟩ : ∃ j, d = j + 1 := ⟨d - 1, by omega⟩
                  have hfr2 : ({ s with frames := (if 0 < j + 1 then copyDown (modifyAt (top :: rest) (j + 1) (fun g => { g with context := dictInsert g.context n v0, exitstack := some (stk ++ [s.nextId]) })) n v0 else modifyAt (top :: rest) (j + 1) (fun g => { g with context := dictInsert g.context n v0, exitstack := some (stk ++ [s.nextId]) })), nextId := s.nextId + 1 } : Context V).frames =
                      { top with context := dictInsert top.context n v0 } ::
                        modifyAt rest j (fun g => { g with context := dictInsert g.context n v0, exitstack := some (stk ++ [s.nextId]) }) := by
                    show (if 0 < j + 1 then copyDown (modifyAt (top :: rest) (j + 1) (fun g => { g with context := dictInsert g.context n v0, exitstack := some (stk ++ [s.nextId]) })) n v0 else modifyAt (top :: rest) (j + 1) (fun g => { g with context := dictInsert g.context n v0, exitstack := some (stk ++ [s.nextId]) })) = _
                    rw [if_pos hd]
                    rfl
                  exact get_cached fenv cenv hfr2 (dictLookup_dictInsert_self _ _ _)
                · obtain rfl : d = 0 := by omega
                  have hfr2 : ({ s with frames := (if 0 < 0 then copyDown (modifyAt (top :: rest) 0 (fun g => { g with context := dictInsert g.context n v0, exitstack := some (stk ++ [s.nextId]) })) n v0 else modifyAt (top :: rest) 0 (fun g => { g with context := dictInsert g.context n v0, exitstack := some (stk ++ [s.nextId]) })), nextId := s.nextId + 1 } : Context V).frames =
                      { top with context := dictInsert top.context n v0, exitstack := some (stk ++ [s.nextId]) } :: rest := by
                    show (if 0 < 0 then copyDown (modifyAt (top :: rest) 0 (fun g => { g with context := dictInsert g.context n v0, exitstack := some (stk ++ [s.nextId]) })) n v0 else modifyAt (top :: rest) 0 (fun g => { g with context := dictInsert g.context n v0, exitstack := some (stk ++ [s.nextId]) })) = _
                    rw [if_neg hd]
                    rfl
                  exact get_cached fenv cenv hfr2 (dictLookup_dictInsert_self _ _ _)

/-- C2, confirmed: run any client program of setValue / bindFactory /
attachResource / get / with-scope steps from a fresh context: every
factory registration id is invoked at most once in the whole trace —
in particular across any number of get calls for its name from the
binding frame or any frame entered later — and whenever a get returns
a value, an immediately repeated get of the same name returns the same
value from the cache with no events and no state change. -/
theorem C2_factory_invoked_at_most_once {V : Type u} (fenv : Nat → V) (cenv : Nat → Option V)
    (p : Prog V) (id : Nat) :
    cntInvoke (exec fenv cenv p Context.init).2.1 id ≤ 1 ∧
    (∀ (s : Context V) (n : String) (v : V) (s' : Context V) (tr : List Event),
      Context.get fenv cenv s n = .ok (v, s', tr) →
      Context.get fenv cenv s' n = .ok (v, s', [])) := by
  constructor
  · cases hex : exec fenv cenv p Context.init with
    | mk s' t1e =>
      obtain ⟨tr, err⟩ := t1e
      obtain ⟨hI, hS⟩ := exec_sound fenv cenv p Context.init Inv_init s' tr err hex
      have hphi := hS.2.2.2.2.2.2.2 id
      have hiv : invocable (Context.init : Context V) id = false := rfl
      have hp0 : phi (Context.init : Context V) id = 0 := by
        unfold phi
        rw [hiv]
        rfl
      have hsp := spanInd_le_one (Context.init : Context V).nextId s'.nextId id
      show cntInvoke tr id ≤ 1
      omega
  · intro s n v s' tr h
    exact get_idempotent fenv cenv s n v s' tr h

/-- C2, witness at a concrete program: bind a factory for f and get it
twice from a fresh context. -/
theorem C2_factory_invoked_at_most_once_witness :
    cntInvoke (exec fenv7 cenv9 (.seq (.bind "f") (.seq (.get "f") (.get "f")))
      Context.init).2.1 1 ≤ 1 ∧
    (∀ (s : Context Nat) (n : String) (v : Nat) (s' : Context Nat) (tr : List Event),
      Context.get fenv7 cenv9 s n = .ok (v, s', tr) →
      Context.get fenv7 cenv9 s' n = .ok (v, s', [])) :=
  C2_factory_invoked_at_most_once fenv7 cenv9 (.seq (.bind "f") (.seq (.get "f") (.get "f"))) 1

/-- C4, confirmed: wrapping any body in a with-scope appends to the
body's trace exactly the releases of the resources acquired on the
scope's frame, in reverse acquisition order, regardless of whether the
body finished cleanly or raised (the propagated error is unchanged);
those resource ids are pairwise distinct and each is released exactly
once in the whole scope trace. -/
theorem C4_scope_releases_reverse_once {V : Type u} (fenv : Nat → V) (cenv : Nat → Option V)
    (p : Prog V) (s : Context V) (hInv : Inv s) :
    exec fenv cenv (.scope p) s =
      ((Context.exit (exec fenv cenv p (Context.enter s)).1).1,
        (exec fenv cenv p (Context.enter s)).2.1 ++
          (acqRids s.nextId (exec fenv cenv p (Context.enter s)).2.1).reverse.map Event.release,
        (exec fenv cenv p (Context.enter s)).2.2) ∧
    (acqRids s.nextId (exec fenv cenv p (Context.enter s)).2.1).Nodup ∧
    (∀ rid ∈ acqRids s.nextId (exec fenv cenv p (Context.enter s)).2.1,
      (relRids ((exec fenv cenv p (Context.enter s)).2.1 ++
        (acqRids s.nextId (exec fenv cenv p (Context.enter s)).2.1).reverse.map
          Event.release)).count rid = 1) := by
  have hInvK := hInv
  obtain ⟨h1, h2, h3, h4, h5, h6, h7, h8, h9, h10⟩ := hInv
  cases hp : exec fenv cenv p (Context.enter s) with
  | mk s1 t1e =>
    obtain ⟨t1, e1⟩ := t1e
    have hIe : Inv (Context.enter s) := Inv_enter hInvK
    obtain ⟨hI1, hS1⟩ := exec_sound fenv cenv p (Context.enter s) hIe s1 t1 e1 hp
    obtain ⟨hn1, hl1, hp1, ha1, hb1, hr1, hx1, hphi1⟩ := hS1
    cases hs : s.frames with
    | nil => exact absurd hs h1
    | cons top rest =>
      have hef := enter_frames hs h2
      have hget0 : (Context.enter s).frames.get? 0 =
          some { context := top.context, factory := [], cmgrs := [], names := top.names,
                 localNames := [], exitstack := some [], fid := s.nextId } := by
        rw [hef]
        rfl
      obtain ⟨f1, hf1, hfid1, hex1, hst1⟩ := hp1 0 _ hget0
      cases hex1s : f1.exitstack with
      | none =>
        rw [hex1s] at hex1
        simp at hex1
      | some stkA =>
        cases hfr1 : s1.frames with
        | nil =>
          rw [hfr1] at hf1
          cases hf1
        | cons f1h tail1 =>
          rw [hfr1] at hf1
          injection hf1 with hf1e
          rw [hf1e] at hfr1
          have hexq : Context.exit s1 =
              ({ s1 with frames := tail1 }, stkA.reverse.map Event.release) := by
            simp only [Context.exit, hfr1, hex1s]
          have hstA : stkA = acqRids s.nextId t1 := by
            have h0 := hst1
            simp only [stackOr, hex1s, Option.getD_some, List.nil_append] at h0
            exact h0
          refine ⟨?_, ?_, ?_⟩
          · show exec fenv cenv (.scope p) s =
              ((Context.exit s1).1,
                t1 ++ (acqRids s.nextId t1).reverse.map Event.release, e1)
            simp only [exec, hp]
            rw [hexq, hstA]
          · show (acqRids s.nextId t1).Nodup
            exact (acqRids_sublist_allAcq s.nextId t1).nodup ha1
          · intro rid hr
            have hr2 : rid ∈ acqRids s.nextId t1 := hr
            show (relRids (t1 ++ (acqRids s.nextId t1).reverse.map Event.release)).count rid = 1
            rw [relRids_append, relRids_release_map, List.count_append]
            have hrid1 : rid ∈ stackOr f1 := by
              rw [stackOr, hex1s]
              rw [hstA]
              exact hr2
            have hnotrel : rid ∉ relRids t1 := by
              refine hx1 f1 ?_ rid hrid1
              rw [hfr1]
              exact List.mem_cons_self _ _
            have hc0 : (relRids t1).count rid = 0 := List.count_eq_zero.mpr hnotrel
            have hc1 : ((acqRids s.nextId t1).reverse).count rid = 1 := by
              rw [List.count_reverse]
              exact List.count_eq_one_of_mem ((acqRids_sublist_allAcq s.nextId t1).nodup ha1) hr2
            omega

/-- C4, witness: attach and resolve one scoped resource inside a scope
on a fresh context; its release closes the trace. -/
theorem C4_scope_releases_reverse_once_witness :
    exec fenv7 cenv9 (.scope (.seq (.attach "r") (.get "r"))) Context.init =
      ((Context.exit (exec fenv7 cenv9 (.seq (.attach "r") (.get "r"))
          (Context.enter Context.init)).1).1,
        (exec fenv7 cenv9 (.seq (.attach "r") (.get "r")) (Context.enter Context.init)).2.1 ++
          (acqRids (Context.init : Context Nat).nextId
            (exec fenv7 cenv9 (.seq (.attach "r") (.get "r"))
              (Context.enter Context.init)).2.1).reverse.map Event.release,
        (exec fenv7 cenv9 (.seq (.attach "r") (.get "r")) (Context.enter Context.init)).2.2) ∧
    (acqRids (Context.init : Context Nat).nextId
      (exec fenv7 cenv9 (.seq (.attach "r") (.get "r")) (Context.enter Context.init)).2.1).Nodup ∧
    (∀ rid ∈ acqRids (Context.init : Context Nat).nextId
        (exec fenv7 cenv9 (.seq (.attach "r") (.get "r")) (Context.enter Context.init)).2.1,
      (relRids ((exec fenv7 cenv9 (.seq (.attach "r") (.get "r"))
          (Context.enter Context.init)).2.1 ++
        (acqRids (Context.init : Context Nat).nextId
          (exec fenv7 cenv9 (.seq (.attach "r") (.get "r"))
            (Context.enter Context.init)).2.1).reverse.map Event.release)).count rid = 1) :=
  C4_scope_releases_reverse_once fenv7 cenv9 (.seq (.attach "r") (.get "r")) Context.init
    Inv_init

end Spinta
